import Mathlib

/-!
# MTRT renderer: a shallow embedding of `MTRT/src/Renderer.cpp`

Conventions of the embedding.

* `float` is modelled by an arbitrary linearly ordered field `F` with a floor
  function (exact arithmetic).  `glm::sqrt` is a library routine that is not part
  of the translation unit; it is passed to every function that calls it as the
  argument `sqrt`, and theorems that depend on what a square root is assume
  `IsSqrt sqrt`.  Instantiating `F := ℚ` makes every definition executable,
  instantiating `F := ℝ`, `sqrt := Real.sqrt` gives real arithmetic.
* Division is the division of the field, where `x / 0 = 0`; IEEE arithmetic
  gives an infinity or a NaN there. `TraceRay` rejects the sphere in both
  readings when `a = 0` (the near root is then `0`, respectively NaN), and the
  theorems about `Render` divide by a frame counter that is at least 1.
* Where a statement depends on the rounding of binary32, the namespace `F32`
  gives the arithmetic of finite `float` values bit for bit (round to nearest,
  ties to even, 24 significant bits, subnormals included; infinities, NaN and
  division by zero are outside it). `Utils.RandomFloat`, the binary32 run of
  the loop of `TraceRay` and the binary32 accumulation cell of `Render` use it.
* `uint32_t` is modelled by `Nat` with an explicit `% 2 ^ 32` after every
  operation that can wrap. Sphere indices are not reduced: the cast `(int)i` is
  exact for scenes of fewer than `2^31` spheres.
* `std::vector` and `new[]` buffers are lists; `operator[]` is `List.getD` with
  a zero element (the source performs no bounds check).
* The types `Ray`, `Sphere`, `Material`, `Scene`, `Camera`, `Settings` and
  `HitPayload` are declared in headers outside `Renderer.cpp`; their fields are
  taken from the way `Renderer.cpp` uses them.
-/

namespace MTRT

/-! ## glm vectors -/

/-- The type `glm::vec3`. -/
@[ext] structure Vec3 (F : Type) where
  x : F
  y : F
  z : F
deriving DecidableEq, Repr

/-- The type `glm::vec4` (colour view: r, g, b, a). -/
@[ext] structure Vec4 (F : Type) where
  r : F
  g : F
  b : F
  a : F
deriving DecidableEq, Repr

section Field

variable {F : Type} [LinearOrderedField F]

namespace Vec3

/-- Component-wise sum, `u + v`. -/
def add (u v : Vec3 F) : Vec3 F := ⟨u.x + v.x, u.y + v.y, u.z + v.z⟩

/-- Component-wise difference, `u - v`. -/
def sub (u v : Vec3 F) : Vec3 F := ⟨u.x - v.x, u.y - v.y, u.z - v.z⟩

/-- Component-wise product, `u * v` (glm semantics). -/
def mul (u v : Vec3 F) : Vec3 F := ⟨u.x * v.x, u.y * v.y, u.z * v.z⟩

/-- Product with a scalar, `v * s`. -/
def smul (v : Vec3 F) (s : F) : Vec3 F := ⟨v.x * s, v.y * s, v.z * s⟩

/-- Division by a scalar, `v / s`. -/
def divScalar (v : Vec3 F) (s : F) : Vec3 F := ⟨v.x / s, v.y / s, v.z / s⟩

/-- The constructor `glm::vec3(s)`: every component is `s`. -/
def splat (s : F) : Vec3 F := ⟨s, s, s⟩

/-- The function `glm::dot`. -/
def dot (u v : Vec3 F) : F := u.x * v.x + u.y * v.y + u.z * v.z

/-- The function `glm::length`: `sqrt(dot(v, v))`. -/
def length (sqrt : F → F) (v : Vec3 F) : F := sqrt (dot v v)

/-- The function `glm::normalize`: `v * inversesqrt(dot(v, v))`, with no guard for
a zero vector. -/
def normalize (sqrt : F → F) (v : Vec3 F) : Vec3 F := smul v (1 / sqrt (dot v v))

end Vec3

namespace Vec4

/-- Component-wise sum, used by `+=` on the accumulation cell. -/
def add (u v : Vec4 F) : Vec4 F := ⟨u.r + v.r, u.g + v.g, u.b + v.b, u.a + v.a⟩

/-- Division by a scalar, used by `/=`. -/
def divScalar (v : Vec4 F) (s : F) : Vec4 F := ⟨v.r / s, v.g / s, v.b / s, v.a / s⟩

/-- The zero vector: what `memset(…, 0, …)` writes into every cell. -/
def zero : Vec4 F := ⟨0, 0, 0, 0⟩

/-- The function `glm::clamp(x, minVal, maxVal)` on one channel:
`min(max(x, minVal), maxVal)`. -/
def clampScalar (v lo hi : F) : F := min (max v lo) hi

/-- The call `glm::clamp(v, glm::vec4(0.0f), glm::vec4(1.0f))`. -/
def clamp01 (v : Vec4 F) : Vec4 F :=
  ⟨clampScalar v.r 0 1, clampScalar v.g 0 1, clampScalar v.b 0 1, clampScalar v.a 0 1⟩

/-- The constructor `glm::vec4(rgb, a)`. -/
def ofVec3 (v : Vec3 F) (a : F) : Vec4 F := ⟨v.x, v.y, v.z, a⟩

end Vec4

/-- What the argument `sqrt` has to satisfy to be a square root on the
non-negative part of `F`. -/
def IsSqrt (sqrt : F → F) : Prop := ∀ v : F, 0 ≤ v → 0 ≤ sqrt v ∧ sqrt v * sqrt v = v

/-- The constant `FLT_MAX` of `<cfloat>`: `(2 - 2^(-23)) * 2^127`. -/
def FLT_MAX : F := 340282346638528859811704183484516925440

/-! ## Scene data (declared in headers outside `Renderer.cpp`) -/

/-- A ray: origin and direction. -/
structure Ray (F : Type) where
  m_Origin : Vec3 F
  m_Direction : Vec3 F
deriving DecidableEq, Repr

/-- A sphere of the scene. -/
structure Sphere (F : Type) where
  Position : Vec3 F
  Radius : F
  MaterialIndex : Nat
deriving DecidableEq, Repr

/-- A material: base colour and emission. -/
structure Material (F : Type) where
  Color : Vec3 F
  EmissionColor : Vec3 F
  EmissionPower : F
deriving DecidableEq, Repr

/-- Modelled from the spec: `Material::GetEmission` is defined in a header that is
not part of the sources; the spec gives "emitted radiance = emission color ×
emission strength". -/
def Material.GetEmission (m : Material F) : Vec3 F := Vec3.smul m.EmissionColor m.EmissionPower

/-- The scene: spheres in scene order and the material table. -/
structure Scene (F : Type) where
  Spheres : List (Sphere F)
  Materials : List (Material F)

/-- The camera as the renderer consumes it: a position and the table of
per-pixel ray directions. -/
structure Camera (F : Type) where
  Position : Vec3 F
  RayDirections : List (Vec3 F)

/-- The renderer settings. -/
structure Settings where
  Accumulate : Bool
  RenderSky : Bool
  SlowRandom : Bool
deriving DecidableEq, Repr

/-- The result of an intersection query. -/
structure HitPayload (F : Type) where
  HitDistance : F
  WorldPosition : Vec3 F
  WorldNormal : Vec3 F
  ObjectIndex : Int
deriving DecidableEq, Repr

/-- Element read by an out-of-range `Spheres[i]`. -/
def Sphere.zero : Sphere F := ⟨Vec3.splat 0, 0, 0⟩

/-- Element read by an out-of-range `Materials[i]`. -/
def Material.zero : Material F := ⟨Vec3.splat 0, Vec3.splat 0, 0⟩

/-! ## Renderer::TraceRay, ClosestHit, Miss -/

namespace Renderer

/-- The local `newOrigin` of `TraceRay` and `ClosestHit`: the ray origin in the
sphere's frame. -/
def newOrigin (ray : Ray F) (s : Sphere F) : Vec3 F := Vec3.sub ray.m_Origin s.Position

/-- The coefficient `a = dot(dir, dir)`. -/
def coeffA (ray : Ray F) : F := Vec3.dot ray.m_Direction ray.m_Direction

/-- The coefficient `b = 2 * dot(newOrigin, dir)`. -/
def coeffB (ray : Ray F) (s : Sphere F) : F := 2 * Vec3.dot (newOrigin ray s) ray.m_Direction

/-- The coefficient `c = dot(newOrigin, newOrigin) - Radius * Radius`, in the
exact arithmetic of `F`; `F32.TraceRayStep` has the same local rounded to
binary32. -/
def coeffC (ray : Ray F) (s : Sphere F) : F :=
  Vec3.dot (newOrigin ray s) (newOrigin ray s) - s.Radius * s.Radius

/-- The local `discriminant = b * b - 4 * a * c`. -/
def discriminant (ray : Ray F) (s : Sphere F) : F :=
  coeffB ray s * coeffB ray s - 4 * coeffA ray * coeffC ray s

/-- The local `hitDistance = (-b - sqrt(discriminant)) / (2 * a)`: the near root. -/
def nearRoot (sqrt : F → F) (ray : Ray F) (s : Sphere F) : F :=
  (-coeffB ray s - sqrt (discriminant ray s)) / (2 * coeffA ray)

/-- The far root `(-b + sqrt(discriminant)) / (2 * a)`, which the source never
computes; used to state what the source does not do. -/
def farRoot (sqrt : F → F) (ray : Ray F) (s : Sphere F) : F :=
  (-coeffB ray s + sqrt (discriminant ray s)) / (2 * coeffA ray)

/-- One iteration of the `for` loop of `TraceRay`, for the sphere with index `i`;
the state is `(ClosestSphere, ClosestT)`. -/
def TraceRayStep (sqrt : F → F) (ray : Ray F) (i : Nat) (s : Sphere F) (st : Int × F) :
    Int × F :=
  if discriminant ray s < 0 then st
  else
    let hitDistance := nearRoot sqrt ray s
    if hitDistance > 0 ∧ st.2 > hitDistance then ((i : Int), hitDistance) else st

/-- The `for` loop of `TraceRay` over the spheres that remain, `i` being the
index of the first of them. -/
def TraceRayLoop (sqrt : F → F) (ray : Ray F) : List (Sphere F) → Nat → Int × F → Int × F
  | [], _, st => st
  | s :: rest, i, st => TraceRayLoop sqrt ray rest (i + 1) (TraceRayStep sqrt ray i s st)

/-- The method `Renderer::Miss`: only `HitDistance` is assigned; the other fields
are left uninitialised by the source and are zero here. -/
def Miss (_ray : Ray F) : HitPayload F :=
  { HitDistance := -1, WorldPosition := Vec3.splat 0, WorldNormal := Vec3.splat 0,
    ObjectIndex := 0 }

/-- The method `Renderer::ClosestHit`. -/
def ClosestHit (sqrt : F → F) (spheres : List (Sphere F)) (ray : Ray F) (HitDistance : F)
    (index : Int) : HitPayload F :=
  let sphere := spheres.getD index.toNat Sphere.zero
  let origin := Vec3.sub ray.m_Origin sphere.Position
  let localPosition := Vec3.add origin (Vec3.smul ray.m_Direction HitDistance)
  { HitDistance := HitDistance
    ObjectIndex := index
    WorldNormal := Vec3.normalize sqrt localPosition
    WorldPosition := Vec3.add localPosition sphere.Position }

/-- The method `Renderer::TraceRay` on the spheres of the active scene. -/
def TraceRay (sqrt : F → F) (spheres : List (Sphere F)) (ray : Ray F) : HitPayload F :=
  let st := TraceRayLoop sqrt ray spheres 0 (-1, FLT_MAX)
  if st.1 < 0 then Miss ray else ClosestHit sqrt spheres ray st.2 st.1

/-- The test `payload.HitDistance < 0.0f` of `PerPixel` fails: the payload is a hit. -/
def IsHit (p : HitPayload F) : Prop := ¬ p.HitDistance < 0

instance (p : HitPayload F) : Decidable (IsHit p) := by unfold IsHit; infer_instance

/-- A sphere the loop of `TraceRay` can select: discriminant `>= 0` and near
root `> 0`. -/
def Candidate (sqrt : F → F) (ray : Ray F) (s : Sphere F) : Prop :=
  0 ≤ discriminant ray s ∧ 0 < nearRoot sqrt ray s

instance (sqrt : F → F) (ray : Ray F) (s : Sphere F) : Decidable (Candidate sqrt ray s) := by
  unfold Candidate; infer_instance

/-! ### Example inputs -/

/-- The unit sphere at the origin. -/
def unitSphere : Sphere F := ⟨⟨0, 0, 0⟩, 1, 0⟩

/-- The sphere of radius zero at the origin. -/
def pointSphere : Sphere F := ⟨⟨0, 0, 0⟩, 0, 0⟩

/-- The ray from the camera at `(0, 0, 3)` looking at the origin. -/
def centreRay : Ray F := ⟨⟨0, 0, 3⟩, ⟨0, 0, -1⟩⟩

/-- The ray that starts at the centre of the unit sphere. -/
def insideRay : Ray F := ⟨⟨0, 0, 0⟩, ⟨0, 0, -1⟩⟩

/-- The ray from `(0, 0, 3)` towards the origin whose direction has length
`2^(-130)` (a subnormal `float`). -/
def shortRay : Ray F := ⟨⟨0, 0, 3⟩, ⟨0, 0, -(1 / 2 ^ 130)⟩⟩

end Renderer

/-! ## Binary32 arithmetic -/

namespace F32

/-- The number `2^149`. A finite binary32 value `v` is represented by the integer
`v * 2^149`: every finite `float`, subnormal or not, is an integer multiple of
`2^(-149)`. -/
def one : Int := 713623846352979940529142984724747568191373312

/-- How many low bits of `q` have to go for `q` to fit in 24 bits (`fuel` bounds
the bit length of `q`). -/
def excessBits : Nat → Nat → Nat
  | 0, _ => 0
  | fuel + 1, q => if q < 16777216 then 0 else excessBits fuel (q / 2) + 1

/-- Rounding to binary32, to nearest with ties to even, of the non-negative
number `n / d` (in units of `2^(-149)`), plus a positive amount smaller than
`1 / d` when `sticky` is set. -/
def roundPos (n d : Nat) (sticky : Bool) : Nat :=
  let q := n / d
  let r := n % d
  if q < 16777216 then
    if 2 * r > d ∨ (2 * r = d ∧ (sticky ∨ q % 2 = 1)) then q + 1 else q
  else
    let s := excessBits 512 q
    let m := q / 2 ^ s
    let low := q % 2 ^ s
    let half := 2 ^ (s - 1)
    if low > half ∨ (low = half ∧ (r ≠ 0 ∨ sticky ∨ m % 2 = 1)) then (m + 1) * 2 ^ s
    else m * 2 ^ s

/-- Rounding of the signed number `n / d`. -/
def rnd (n : Int) (d : Nat) (sticky : Bool) : Int :=
  if n < 0 then -((roundPos n.natAbs d sticky : Nat) : Int)
  else ((roundPos n.natAbs d sticky : Nat) : Int)

/-- The binary32 sum `a + b`. -/
def add (a b : Int) : Int := rnd (a + b) 1 false

/-- The binary32 difference `a - b`. -/
def sub (a b : Int) : Int := rnd (a - b) 1 false

/-- The binary32 product `a * b`. -/
def mul (a b : Int) : Int := rnd (a * b) one.natAbs false

/-- The binary32 quotient `a / b`, for `b` other than zero. -/
def div (a b : Int) : Int := rnd (a * one * b.sign) b.natAbs false

/-- The integer square root of `n` below `2^k`, bit by bit from bit `k - 1` down. -/
def isqrtBits (n : Nat) : Nat → Nat → Nat
  | 0, r => r
  | k + 1, r => isqrtBits n k (if (r + 2 ^ k) * (r + 2 ^ k) ≤ n then r + 2 ^ k else r)

/-- The binary32 square root of `a >= 0`, correctly rounded: the integer square
root is taken with 26 extra bits and rounded with a sticky bit. -/
def sqrt (a : Int) : Int :=
  let n := a.natAbs * one.natAbs * 4503599627370496
  let q := isqrtBits n 256 0
  ((roundPos q 67108864 (decide (q * q ≠ n)) : Nat) : Int)

/-- The conversion `(float)n` of an unsigned integer. -/
def ofNat (n : Nat) : Int := rnd ((n : Int) * one) 1 false

/-- The dyadic number `m / 2^k` as a binary32 value (it has to be one). -/
def dyadic (m : Int) (k : Nat) : Int := m * 2 ^ (149 - k)

/-- The constant `FLT_MAX`, `(2^24 - 1) * 2^104`. -/
def FLT_MAX : Int := 16777215 * 2 ^ 104 * one

/-- The function `glm::dot` on `vec3`: the three products, added left to right. -/
def dot (u v : Vec3 Int) : Int := add (add (mul u.x v.x) (mul u.y v.y)) (mul u.z v.z)

/-- The difference of two `vec3`. -/
def vsub (u v : Vec3 Int) : Vec3 Int := ⟨sub u.x v.x, sub u.y v.y, sub u.z v.z⟩

/-- One iteration of the `for` loop of `TraceRay` in binary32; the state is
`(ClosestSphere, ClosestT)`. -/
def TraceRayStep (ray : Ray Int) (i : Nat) (s : Sphere Int) (st : Int × Int) : Int × Int :=
  let newOrigin := vsub ray.m_Origin s.Position
  let a := dot ray.m_Direction ray.m_Direction
  let b := mul (2 * one) (dot newOrigin ray.m_Direction)
  let c := sub (dot newOrigin newOrigin) (mul s.Radius s.Radius)
  let discriminant := sub (mul b b) (mul (mul (4 * one) a) c)
  if discriminant < 0 then st
  else
    let hitDistance := div (sub (-b) (sqrt discriminant)) (mul (2 * one) a)
    if hitDistance > 0 ∧ st.2 > hitDistance then ((i : Int), hitDistance) else st

/-- The `for` loop of `TraceRay` in binary32. -/
def TraceRayLoop (ray : Ray Int) : List (Sphere Int) → Nat → Int × Int → Int × Int
  | [], _, st => st
  | s :: rest, i, st => TraceRayLoop ray rest (i + 1) (TraceRayStep ray i s st)

/-- The field `HitDistance` of the payload `TraceRay` returns, in binary32: `-1`
from `Miss`, `ClosestT` from `ClosestHit`. -/
def TraceRayHitDistance (spheres : List (Sphere Int)) (ray : Ray Int) : Int :=
  let st := TraceRayLoop ray spheres 0 (-1, FLT_MAX)
  if st.1 < 0 then -one else st.2

/-- The conversion `(uint8_t)(v)` of a binary32 value: truncation toward zero,
then the low eight bits. -/
def toUInt8 (v : Int) : Nat :=
  ((if 0 ≤ v then v / one else -((-v) / one)) % 256).toNat

/-- The function `Utils::ConvertToRGBA` in binary32: each product `c * 255.0f` is
rounded before it is truncated. -/
def ConvertToRGBA (color : Vec4 Int) : Nat :=
  let r := toUInt8 (mul color.r (255 * one))
  let g := toUInt8 (mul color.g (255 * one))
  let b := toUInt8 (mul color.b (255 * one))
  let a := toUInt8 (mul color.a (255 * one))
  (0 ||| (a <<< 24) ||| (b <<< 16) ||| (g <<< 8) ||| r) % 2 ^ 32

/-- The call `glm::clamp(v, glm::vec4(0.0f), glm::vec4(1.0f))` in binary32. -/
def clamp01 (v : Vec4 Int) : Vec4 Int :=
  ⟨min (max v.r 0) one, min (max v.g 0) one, min (max v.b 0) one, min (max v.a 0) one⟩

/-- The method `Renderer::PerPixel` in binary32 on a scene without spheres, where
`TraceRay` misses whatever the ray is: the loop body runs once, adds
`sky * contribution` to the light if the sky is on, and breaks. The constants
`0.6f`, `0.7f` and `0.9f` are `10066330 / 2^24`, `11744051 / 2^24` and
`15099494 / 2^24`. -/
def PerPixelNoSpheres (settings : Settings) (_width _frameIndex _x _y : Nat) : Vec4 Int :=
  let light : Vec3 Int := ⟨0, 0, 0⟩
  let contribution : Vec3 Int := ⟨one, one, one⟩
  let sky : Vec3 Int := ⟨dyadic 10066330 24, dyadic 11744051 24, dyadic 15099494 24⟩
  let light : Vec3 Int :=
    if settings.RenderSky then
      ⟨add light.x (mul sky.x contribution.x), add light.y (mul sky.y contribution.y),
        add light.z (mul sky.z contribution.z)⟩
    else light
  ⟨light.x, light.y, light.z, one⟩

/-- The rational number a binary32 value stands for. -/
def toRat (v : Int) : ℚ := (v : ℚ) / 2 ^ 149

/-- The rational colour a binary32 colour stands for. -/
def toRat4 (v : Vec4 Int) : Vec4 ℚ := ⟨toRat v.r, toRat v.g, toRat v.b, toRat v.a⟩

end F32

/-! ## Utils -/

namespace Utils

/-- The conversion `(uint8_t)(v)` of a `float`: truncation toward zero, then the
low eight bits (the conversion is only defined by C++ for `-1 < v < 256`, where
the reduction modulo 256 does nothing). -/
def toUInt8 [FloorRing F] (v : F) : Nat :=
  ((if 0 ≤ v then Int.floor v else Int.ceil v) % 256).toNat

/-- The function `Utils::ConvertToRGBA`. -/
def ConvertToRGBA [FloorRing F] (color : Vec4 F) : Nat :=
  let r := toUInt8 (color.r * 255)
  let g := toUInt8 (color.g * 255)
  let b := toUInt8 (color.b * 255)
  let a := toUInt8 (color.a * 255)
  (0 ||| (a <<< 24) ||| (b <<< 16) ||| (g <<< 8) ||| r) % 2 ^ 32

/-- The function `Utils::PCG_Hash` on 32-bit words. -/
def PCG_Hash (input : Nat) : Nat :=
  let state := ((input + 747796405) % 2 ^ 32 + 2891336453) % 2 ^ 32
  let word := (((state >>> ((state >>> 28) + 4)) ^^^ state) * 2778037727) % 2 ^ 32
  (word >>> 22) ^^^ word

/-- The conversion `(float)n` of a `uint32_t`, as an integer: `n` rounded to 24
significant bits, to nearest with ties to even (`2^32` for the largest `n`). -/
def uintToFloat (n : Nat) : Nat := F32.roundPos n 1 false

/-- The function `Utils::RandomFloat`: the returned float and the new value of
the reference argument `seed`. Both operands are converted to binary32 first;
the divisor `(float)UINT32_MAX` is `2^32`, a power of two, so the binary32
quotient is the exact quotient of the two converted values. -/
def RandomFloat (seed : Nat) : F × Nat :=
  let seed := PCG_Hash seed
  (((uintToFloat seed : Nat) : F) / ((uintToFloat 4294967295 : Nat) : F), seed)

/-- The function `Utils::InUnitSphere`: the returned vector and the new value of
`seed`. C++ leaves the order in which the three arguments are evaluated
unspecified; they are drawn in the order x, y, z here. -/
def InUnitSphere (sqrt : F → F) (seed : Nat) : Vec3 F × Nat :=
  let r1 : F × Nat := RandomFloat seed
  let r2 : F × Nat := RandomFloat r1.2
  let r3 : F × Nat := RandomFloat r2.2
  (Vec3.normalize sqrt ⟨r1.1 * 2 - 1, r2.1 * 2 - 1, r3.1 * 2 - 1⟩, r3.2)

end Utils

/-! ## Renderer::PerPixel -/

namespace Renderer

/-- The local `sky` of `PerPixel`. -/
def sky : Vec3 F := ⟨6 / 10, 7 / 10, 9 / 10⟩

/-- The material of the sphere a payload reports:
`Materials[Spheres[payload.ObjectIndex].MaterialIndex]`. -/
def hitMaterial (scene : Scene F) (payload : HitPayload F) : Material F :=
  let sphere := scene.Spheres.getD payload.ObjectIndex.toNat Sphere.zero
  scene.Materials.getD sphere.MaterialIndex Material.zero

/-- The `for` loop of `PerPixel` with `n` iterations left, `i` being the bounce
index. The second component of the result is a ghost log: the payloads that
the calls of `TraceRay` returned, in order. `slow i` is what the external
`Walnut::Random::InUnitSphere()` returns at bounce `i`. -/
def PerPixelLoop (sqrt : F → F) (settings : Settings) (scene : Scene F) (slow : Nat → Vec3 F) :
    Nat → Nat → Ray F → Vec3 F → Vec3 F → Nat → Vec3 F × List (HitPayload F)
  | 0, _, _, light, _, _ => (light, [])
  | n + 1, i, ray, light, contribution, seed =>
    let seed := (seed + i) % 2 ^ 32
    let payload := TraceRay sqrt scene.Spheres ray
    if payload.HitDistance < 0 then
      (if settings.RenderSky then Vec3.add light (Vec3.mul sky contribution) else light,
        [payload])
    else
      let material := hitMaterial scene payload
      let contribution := Vec3.mul contribution material.Color
      let light := Vec3.add light material.GetEmission
      let origin := Vec3.add payload.WorldPosition (Vec3.smul payload.WorldNormal (1 / 10000))
      let next : Vec3 F × Nat :=
        if settings.SlowRandom then
          (Vec3.normalize sqrt (Vec3.add payload.WorldNormal (slow i)), seed)
        else
          let rnd := Utils.InUnitSphere sqrt seed
          (Vec3.normalize sqrt (Vec3.add payload.WorldNormal rnd.1), rnd.2)
      let r := PerPixelLoop sqrt settings scene slow n (i + 1) ⟨origin, next.1⟩ light
        contribution next.2
      (r.1, payload :: r.2)

/-- The linear pixel index `x + y * m_FinalImage->GetWidth()` in `uint32_t`
arithmetic. -/
def pixelIndex (width x y : Nat) : Nat := (x + (y * width) % 2 ^ 32) % 2 ^ 32

/-- The initial ray of `PerPixel`. -/
def primaryRay (camera : Camera F) (width x y : Nat) : Ray F :=
  ⟨camera.Position, camera.RayDirections.getD (pixelIndex width x y) (Vec3.splat 0)⟩

/-- The initial seed of `PerPixel`: `seed = x + y * width; seed *= m_FrameIndex`. -/
def initialSeed (width frameIndex x y : Nat) : Nat :=
  (pixelIndex width x y * frameIndex) % 2 ^ 32

/-- The light and the ghost log of intersection queries of `PerPixel`. -/
def PerPixelTrace (sqrt : F → F) (settings : Settings) (scene : Scene F) (camera : Camera F)
    (slow : Nat → Vec3 F) (width frameIndex x y : Nat) : Vec3 F × List (HitPayload F) :=
  PerPixelLoop sqrt settings scene slow 4 0 (primaryRay camera width x y) (Vec3.splat 0)
    (Vec3.splat 1) (initialSeed width frameIndex x y)

/-- The payloads of a log that are hits. -/
def hitsOf (log : List (HitPayload F)) : List (HitPayload F) :=
  log.filter (fun p => decide (IsHit p))

/-- The sum, in path order starting from `start`, of the emitted radiance of the
materials of the spheres hit. -/
def emittedLight (scene : Scene F) (start : Vec3 F) (log : List (HitPayload F)) : Vec3 F :=
  (hitsOf log).foldl (fun l p => Vec3.add l (hitMaterial scene p).GetEmission) start

/-- The component-wise product, starting from `start`, of the base colours of
the materials of the spheres hit. -/
def throughput (scene : Scene F) (start : Vec3 F) (log : List (HitPayload F)) : Vec3 F :=
  (hitsOf log).foldl (fun c p => Vec3.mul c (hitMaterial scene p).Color) start

/-- The last intersection query of the log exists and is a miss. -/
def EndsWithMiss (log : List (HitPayload F)) : Prop :=
  match log.getLast? with
  | some p => ¬ IsHit p
  | none => False

instance (log : List (HitPayload F)) : Decidable (EndsWithMiss log) := by
  unfold EndsWithMiss
  cases log.getLast? <;> infer_instance

/-- The method `Renderer::PerPixel`. -/
def PerPixel (sqrt : F → F) (settings : Settings) (scene : Scene F) (camera : Camera F)
    (slow : Nat → Vec3 F) (width frameIndex x y : Nat) : Vec4 F :=
  Vec4.ofVec3 (PerPixelTrace sqrt settings scene camera slow width frameIndex x y).1 1

end Renderer

/-! ## Renderer state, OnResize, Render -/

/-- The part of `Walnut::Image` the renderer reads: `GetWidth()`, `GetHeight()`. -/
structure Image where
  Width : Nat
  Height : Nat
deriving DecidableEq, Repr

/-- The data members of `Renderer` that `OnResize` and `Render` read or write.
`m_FinalImage = none` is the null pointer. The members `m_ActiveScene` and
`m_ActiveCamera` are bound by `Render` for the duration of the call; the model
passes the scene and the camera as arguments instead. -/
structure RendererState (F : Type) where
  m_FinalImage : Option Image
  m_ImageData : List Nat
  m_AccumulationData : List (Vec4 F)
  m_ImageHorizantalIter : List Nat
  m_ImageVerticalIter : List Nat
  m_FrameIndex : Nat
  m_Settings : Settings

/-- What one call of `Render` receives from outside: the scene, the camera, and
what `Walnut::Random::InUnitSphere()` returns for pixel `(x, y)` at bounce `i`
(`slow x y i`). -/
structure Frame (F : Type) where
  scene : Scene F
  camera : Camera F
  slow : Nat → Nat → Nat → Vec3 F

namespace Renderer

/-- The result of `new T[n]` for a type without initialiser: `n` cells whose
contents are whatever the allocator returns, given by `fresh`. -/
def newArray {α : Type} (fresh : Nat → α) (n : Nat) : List α := (List.range n).map fresh

/-- The method `Renderer::OnResize`. `freshImage` and `freshAccum` are the
indeterminate contents of the two arrays that `new[]` returns. -/
def OnResize (freshImage : Nat → Nat) (freshAccum : Nat → Vec4 F) (width height : Nat)
    (s : RendererState F) : RendererState F :=
  let resized : RendererState F :=
    { s with
      m_FinalImage := some ⟨width, height⟩
      m_ImageData := newArray freshImage ((width * height) % 2 ^ 32)
      m_AccumulationData := newArray freshAccum ((width * height) % 2 ^ 32)
      m_ImageHorizantalIter := List.range width
      m_ImageVerticalIter := List.range height }
  match s.m_FinalImage with
  | some img => if img.Width = width ∧ img.Height = height then s else resized
  | none => resized

/-- The call `memset(m_AccumulationData, 0, n * sizeof(glm::vec4))`: the first `n`
cells become zero. -/
def memsetZero (n : Nat) (buf : List (Vec4 F)) : List (Vec4 F) :=
  List.replicate (min n buf.length) Vec4.zero ++ buf.drop n

/-- The body of the inner lambda of `Render` for the pixel `(x, y)`; `pp` is
`PerPixel` of the current call, `bufs` is `(m_AccumulationData, m_ImageData)`.
The arithmetic is the exact one of `F`; `RenderPixelWith cells32` is the same
body with every operation rounded to binary32. -/
def RenderPixel [FloorRing F] (pp : Nat → Nat → Vec4 F) (width frameIndex : Nat)
    (bufs : List (Vec4 F) × List Nat) (x y : Nat) : List (Vec4 F) × List Nat :=
  let color := pp x y
  let idx := pixelIndex width x y
  let acc := bufs.1.set idx (Vec4.add (bufs.1.getD idx Vec4.zero) color)
  let accumulatedColor := Vec4.divScalar (acc.getD idx Vec4.zero) (frameIndex : F)
  let accumulatedColor := Vec4.clamp01 accumulatedColor
  (acc, bufs.2.set idx (Utils.ConvertToRGBA accumulatedColor))

/-- The two nested `std::for_each` of `Render` over the row and column index
sequences. Every pixel owns its cell, so the order in which the parallel
execution visits the pixels is immaterial; the model visits them row by row. -/
def RenderLoop [FloorRing F] (pp : Nat → Nat → Vec4 F) (width frameIndex : Nat)
    (ys xs : List Nat) (bufs : List (Vec4 F) × List Nat) : List (Vec4 F) × List Nat :=
  ys.foldl (fun b y => xs.foldl (fun b x => RenderPixel pp width frameIndex b x y) b) bufs

/-- The method `Renderer::Render`; `none` is the dereference of a null
`m_FinalImage`. -/
def Render [FloorRing F] (sqrt : F → F) (fr : Frame F) (s : RendererState F) :
    Option (RendererState F) :=
  match s.m_FinalImage with
  | none => none
  | some img =>
    let acc0 :=
      if s.m_FrameIndex = 1 then
        memsetZero ((img.Width * img.Height) % 2 ^ 32) s.m_AccumulationData
      else s.m_AccumulationData
    let pp := fun x y =>
      PerPixel sqrt s.m_Settings fr.scene fr.camera (fr.slow x y) img.Width s.m_FrameIndex x y
    let bufs := RenderLoop pp img.Width s.m_FrameIndex s.m_ImageVerticalIter
      s.m_ImageHorizantalIter (acc0, s.m_ImageData)
    some { s with
      m_AccumulationData := bufs.1
      m_ImageData := bufs.2
      m_FrameIndex := if s.m_Settings.Accumulate then (s.m_FrameIndex + 1) % 2 ^ 32 else 1 }

/-- The pixels `(x, y)` in the order the model of `Render` visits them. -/
def pixelsOf (ys xs : List Nat) : List (Nat × Nat) :=
  ys.flatMap (fun y => xs.map (fun x => (x, y)))

/-- The body of `Render`'s loops over an explicit list of pixels. -/
def PixelFold [FloorRing F] (pp : Nat → Nat → Vec4 F) (width frameIndex : Nat)
    (ps : List (Nat × Nat)) (bufs : List (Vec4 F) × List Nat) : List (Vec4 F) × List Nat :=
  ps.foldl (fun b p => RenderPixel pp width frameIndex b p.1 p.2) bufs

/-- Consecutive calls of `Render`, one per element of `frames`, with no other
call in between. -/
def RenderAll [FloorRing F] (sqrt : F → F) : List (Frame F) → RendererState F →
    Option (RendererState F)
  | [], s => some s
  | fr :: rest, s => (Render sqrt fr s).bind (RenderAll sqrt rest)

/-- The radiances `PerPixel(x, y)` of consecutive calls of `Render`, the first of
them evaluated at frame counter `k`, the next at `k + 1`, and so on. -/
def frameRadiances (sqrt : F → F) (settings : Settings) (width x y : Nat) :
    Nat → List (Frame F) → List (Vec4 F)
  | _, [] => []
  | k, fr :: rest =>
    PerPixel sqrt settings fr.scene fr.camera (fr.slow x y) width k x y ::
      frameRadiances sqrt settings width x y (k + 1) rest

/-- The sum of a list of colours, added in list order starting from zero. -/
def sumColors (cs : List (Vec4 F)) : Vec4 F := cs.foldl Vec4.add Vec4.zero

/-- A renderer whose image has dimensions `(w, h)` and whose buffers and index
sequences are the ones `OnResize(w, h)` allocates, the pixel count fitting the
32-bit index arithmetic. -/
def Sized (s : RendererState F) (w h : Nat) : Prop :=
  s.m_FinalImage = some ⟨w, h⟩ ∧ w * h < 2 ^ 32 ∧ s.m_ImageData.length = w * h ∧
    s.m_AccumulationData.length = w * h ∧ s.m_ImageHorizantalIter = List.range w ∧
    s.m_ImageVerticalIter = List.range h

/-- The unit sphere at the origin with another material: same geometry as
`unitSphere`. -/
def unitSphereB : Sphere F := ⟨⟨0, 0, 0⟩, 1, 1⟩

/-- Two material tables that differ at most in the base colours: entry by
entry the emission colour and the emission strength agree. -/
def SameButColor (ms ms' : List (Material F)) : Prop :=
  List.Forall₂ (fun m m' => m.EmissionColor = m'.EmissionColor ∧
    m.EmissionPower = m'.EmissionPower) ms ms'

/-- The unit sphere with a red, emissive material. -/
def redScene : Scene F := ⟨[unitSphere], [⟨⟨1, 0, 0⟩, ⟨1, 1, 1⟩, 2⟩]⟩

/-- The scene `redScene` with the base colour changed to blue. -/
def blueScene : Scene F := ⟨[unitSphere], [⟨⟨0, 0, 1⟩, ⟨1, 1, 1⟩, 2⟩]⟩

/-- Modelled from the spec: the member initialisers of `Renderer` are in
`Renderer.h`, which is not part of the sources; the spec's data model gives a
frame counter that starts at 1, and no image or buffer exists before the first
`OnResize`. -/
def initialState (settings : Settings) : RendererState F :=
  { m_FinalImage := none
    m_ImageData := []
    m_AccumulationData := []
    m_ImageHorizantalIter := []
    m_ImageVerticalIter := []
    m_FrameIndex := 1
    m_Settings := settings }

/-- The states reachable from the initial state by calls of `OnResize` and
`Render`, the settings being changed at will between the calls. -/
inductive Reachable [FloorRing F] (sqrt : F → F) : RendererState F → Prop
  | init (settings : Settings) : Reachable sqrt (initialState settings)
  | resize (s : RendererState F) (freshImage : Nat → Nat) (freshAccum : Nat → Vec4 F)
      (width height : Nat) :
      Reachable sqrt s → Reachable sqrt (OnResize freshImage freshAccum width height s)
  | render (s s' : RendererState F) (fr : Frame F) :
      Reachable sqrt s → Render sqrt fr s = some s' → Reachable sqrt s'
  | configure (s : RendererState F) (settings : Settings) :
      Reachable sqrt s → Reachable sqrt { s with m_Settings := settings }

/-- The local `state` of `PCG_Hash`. -/
def pcgState (input : Nat) : Nat := ((input + 747796405) % 2 ^ 32 + 2891336453) % 2 ^ 32

/-- The variable shift amount `(state >> 28u) + 4u` of `PCG_Hash`. -/
def pcgShift (input : Nat) : Nat := (pcgState input >>> 28) + 4

/-- The local `word` of `PCG_Hash`. -/
def pcgWord (input : Nat) : Nat :=
  (((pcgState input >>> pcgShift input) ^^^ pcgState input) * 2778037727) % 2 ^ 32

/-- The unit sphere at the origin, in binary32. -/
def unitSphere32 : Sphere Int := ⟨⟨0, 0, 0⟩, F32.one, 0⟩

/-- A ray with direction `(0, 0, -1)` whose origin
`(-1751457 / 2^21, 8648317 / 2^24, 6435863 / 2^25)` lies inside the unit sphere,
about `5 * 10^(-9)` below its surface; all coordinates are binary32 values. -/
def grazingRay32 : Ray Int :=
  ⟨⟨F32.dyadic (-1751457) 21, F32.dyadic 8648317 24, F32.dyadic 6435863 25⟩, ⟨0, 0, -F32.one⟩⟩

/-! ### `Render` over any cell arithmetic -/

/-- The arithmetic `Render` applies to an accumulation cell: `zero` is the cell
`memset` leaves (all bytes zero), `add` the operator `+=` of `glm::vec4`,
`divFrame v k` the statement `v /= (float)k`, `clamp` the call
`glm::clamp(v, glm::vec4(0.0f), glm::vec4(1.0f))`, and `toRGBA` the function
`Utils::ConvertToRGBA`. -/
structure CellArith (G : Type) where
  zero : Vec4 G
  add : Vec4 G → Vec4 G → Vec4 G
  divFrame : Vec4 G → Nat → Vec4 G
  clamp : Vec4 G → Vec4 G
  toRGBA : Vec4 G → Nat

/-- The call `memset(m_AccumulationData, 0, n * sizeof(glm::vec4))` for any cell
arithmetic. -/
def memsetWith {G : Type} (A : CellArith G) (n : Nat) (buf : List (Vec4 G)) :
    List (Vec4 G) :=
  List.replicate (min n buf.length) A.zero ++ buf.drop n

/-- The body of the inner lambda of `Render` for the pixel `(x, y)`, for any cell
arithmetic. -/
def RenderPixelWith {G : Type} (A : CellArith G) (pp : Nat → Nat → Vec4 G)
    (width frameIndex : Nat)
    (bufs : List (Vec4 G) × List Nat) (x y : Nat) : List (Vec4 G) × List Nat :=
  let color := pp x y
  let idx := pixelIndex width x y
  let acc := bufs.1.set idx (A.add (bufs.1.getD idx A.zero) color)
  let accumulatedColor := A.divFrame (acc.getD idx A.zero) frameIndex
  let accumulatedColor := A.clamp accumulatedColor
  (acc, bufs.2.set idx (A.toRGBA accumulatedColor))

/-- The body of `Render`'s loops over an explicit list of pixels, for any cell
arithmetic. -/
def PixelFoldWith {G : Type} (A : CellArith G) (pp : Nat → Nat → Vec4 G)
    (width frameIndex : Nat)
    (ps : List (Nat × Nat)) (bufs : List (Vec4 G) × List Nat) : List (Vec4 G) × List Nat :=
  ps.foldl (fun b p => RenderPixelWith A pp width frameIndex b p.1 p.2) bufs

/-- The two nested `std::for_each` of `Render`, for any cell arithmetic. -/
def RenderLoopWith {G : Type} (A : CellArith G) (pp : Nat → Nat → Vec4 G)
    (width frameIndex : Nat)
    (ys xs : List Nat) (bufs : List (Vec4 G) × List Nat) : List (Vec4 G) × List Nat :=
  ys.foldl (fun b y => xs.foldl (fun b x => RenderPixelWith A pp width frameIndex b x y) b) bufs

/-- The method `Renderer::Render` for any cell arithmetic `A` and any radiance
function `pp` in the place of `PerPixel`; `none` is the dereference of a null
`m_FinalImage`. -/
def RenderWith {G : Type} (A : CellArith G) (pp : Settings → Nat → Nat → Nat → Nat → Vec4 G)
    (s : RendererState G) : Option (RendererState G) :=
  match s.m_FinalImage with
  | none => none
  | some img =>
    let acc0 :=
      if s.m_FrameIndex = 1 then
        memsetWith A ((img.Width * img.Height) % 2 ^ 32) s.m_AccumulationData
      else s.m_AccumulationData
    let bufs := RenderLoopWith A (pp s.m_Settings img.Width s.m_FrameIndex) img.Width
      s.m_FrameIndex s.m_ImageVerticalIter s.m_ImageHorizantalIter (acc0, s.m_ImageData)
    some { s with
      m_AccumulationData := bufs.1
      m_ImageData := bufs.2
      m_FrameIndex := if s.m_Settings.Accumulate then (s.m_FrameIndex + 1) % 2 ^ 32 else 1 }

/-- Consecutive calls of `Render`, one per element of `calls`, for any cell
arithmetic. -/
def RenderAllWith {G : Type} (A : CellArith G) :
    List (Settings → Nat → Nat → Nat → Nat → Vec4 G) → RendererState G →
    Option (RendererState G)
  | [], s => some s
  | pp :: rest, s => (RenderWith A pp s).bind (RenderAllWith A rest)

/-- The radiances of the pixel `(x, y)` in consecutive calls of `Render`, the
first of them at frame counter `k`. -/
def radiancesWith {G : Type} (settings : Settings) (width x y : Nat) :
    Nat → List (Settings → Nat → Nat → Nat → Nat → Vec4 G) → List (Vec4 G)
  | _, [] => []
  | k, pp :: rest => pp settings width k x y :: radiancesWith settings width x y (k + 1) rest

/-- The exact cell: the arithmetic of the field `F`, as `RenderPixel` has it. -/
def exactCells [FloorRing F] : CellArith F where
  zero := Vec4.zero
  add := Vec4.add
  divFrame := fun v k => Vec4.divScalar v (k : F)
  clamp := Vec4.clamp01
  toRGBA := Utils.ConvertToRGBA

/-- The binary32 cell: every operation of `Render` on the accumulated colour,
channel by channel, rounded as the source rounds it. -/
def cells32 : CellArith Int where
  zero := ⟨0, 0, 0, 0⟩
  add := fun u v => ⟨F32.add u.r v.r, F32.add u.g v.g, F32.add u.b v.b, F32.add u.a v.a⟩
  divFrame := fun v k =>
    ⟨F32.div v.r (F32.ofNat k), F32.div v.g (F32.ofNat k), F32.div v.b (F32.ofNat k),
      F32.div v.a (F32.ofNat k)⟩
  clamp := F32.clamp01
  toRGBA := F32.ConvertToRGBA

/-- The call `PerPixel(x, y)` of one `Render` call as a function of the settings,
the image width, the frame counter and the pixel. -/
def perPixelOf (sqrt : F → F) (fr : Frame F) : Settings → Nat → Nat → Nat → Nat → Vec4 F :=
  fun settings width frameIndex x y =>
    PerPixel sqrt settings fr.scene fr.camera (fr.slow x y) width frameIndex x y

/-- The empty scene. -/
def emptyScene : Scene F := ⟨[], []⟩

/-- A renderer with a 1×1 image at frame counter `k` whose accumulation cell
holds `acc`. -/
def onePixelState (k : Nat) (acc : Vec4 F) (settings : Settings) : RendererState F :=
  { m_FinalImage := some ⟨1, 1⟩
    m_ImageData := [0]
    m_AccumulationData := [acc]
    m_ImageHorizantalIter := [0]
    m_ImageVerticalIter := [0]
    m_FrameIndex := k
    m_Settings := settings }

/-- A call of `Render` with the empty scene and the camera at `(0,0,3)`. -/
def emptyFrame : Frame F :=
  { scene := emptyScene
    camera := ⟨⟨0, 0, 3⟩, [⟨0, 0, -1⟩]⟩
    slow := fun _ _ _ => Vec3.splat 0 }

end Renderer

end Field

/-- A square root on `ℚ` that is exact on squares of rationals; it makes the
embedding executable on rational inputs. -/
def qsqrt (q : ℚ) : ℚ := Rat.sqrt q

end MTRT


/-! # Theorems -/

namespace MTRT

section FieldLemmas

variable {F : Type} [LinearOrderedField F]

/-! ## Square roots -/

theorem IsSqrt.nonneg {sqrt : F → F} (hs : IsSqrt sqrt) {v : F} (hv : 0 ≤ v) : 0 ≤ sqrt v :=
  (hs v hv).1

theorem IsSqrt.mul_self {sqrt : F → F} (hs : IsSqrt sqrt) {v : F} (hv : 0 ≤ v) :
    sqrt v * sqrt v = v :=
  (hs v hv).2

theorem IsSqrt.sqrt_mul_self {sqrt : F → F} (hs : IsSqrt sqrt) {v : F} (hv : 0 ≤ v) :
    sqrt (v * v) = v := by
  have h0 : 0 ≤ v * v := mul_nonneg hv hv
  have h1 := hs.nonneg h0
  have h2 := hs.mul_self h0
  nlinarith [sq_nonneg (sqrt (v * v) - v), sq_nonneg (sqrt (v * v) + v)]

theorem IsSqrt.sqrt_zero {sqrt : F → F} (hs : IsSqrt sqrt) : sqrt 0 = 0 := by
  simpa using hs.sqrt_mul_self (le_refl (0 : F))

theorem IsSqrt.sqrt_one {sqrt : F → F} (hs : IsSqrt sqrt) : sqrt 1 = 1 := by
  simpa using hs.sqrt_mul_self (zero_le_one (α := F))

theorem isSqrt_real : IsSqrt Real.sqrt := fun v hv =>
  ⟨Real.sqrt_nonneg v, Real.mul_self_sqrt hv⟩

theorem FLT_MAX_pos : (0 : F) < FLT_MAX := by unfold FLT_MAX; norm_num

namespace Renderer

/-! ## The loop of `TraceRay` -/

theorem TraceRayStep_eq (sqrt : F → F) (ray : Ray F) (i : Nat) (s : Sphere F) (st : Int × F) :
    TraceRayStep sqrt ray i s st =
      if Candidate sqrt ray s ∧ nearRoot sqrt ray s < st.2 then ((i : Int), nearRoot sqrt ray s)
      else st := by
  unfold TraceRayStep Candidate
  by_cases hd : discriminant ray s < 0
  · have : ¬ 0 ≤ discriminant ray s := not_le.mpr hd
    simp [hd, this]
  · have : 0 ≤ discriminant ray s := not_lt.mp hd
    simp [hd, this]

/-- The bound `ClosestT` never grows. -/
theorem TraceRayLoop_le (sqrt : F → F) (ray : Ray F) (rest : List (Sphere F)) (i : Nat)
    (st : Int × F) : (TraceRayLoop sqrt ray rest i st).2 ≤ st.2 := by
  induction rest generalizing i st with
  | nil => simp [TraceRayLoop]
  | cons s rest ih =>
    simp only [TraceRayLoop]
    refine le_trans (ih (i + 1) _) ?_
    rw [TraceRayStep_eq]
    split
    · rename_i h; exact le_of_lt h.2
    · exact le_refl _

/-- After the loop `ClosestT` is at most the near root of every candidate. -/
theorem TraceRayLoop_le_candidate (sqrt : F → F) (ray : Ray F) (rest : List (Sphere F))
    (i : Nat) (st : Int × F) (s : Sphere F) (hs : s ∈ rest) (hc : Candidate sqrt ray s) :
    (TraceRayLoop sqrt ray rest i st).2 ≤ nearRoot sqrt ray s := by
  induction rest generalizing i st with
  | nil => simp at hs
  | cons s0 rest ih =>
    simp only [TraceRayLoop]
    rcases List.mem_cons.mp hs with h | h
    · subst h
      refine le_trans (TraceRayLoop_le sqrt ray rest (i + 1) _) ?_
      rw [TraceRayStep_eq]
      split
      · exact le_refl _
      · rename_i hn
        simp only [hc, true_and, not_lt] at hn
        exact hn
    · exact ih (i + 1) _ h

/-- The loop either leaves the state alone or selects a candidate of the list,
strictly nearer than the bound it started from. -/
theorem TraceRayLoop_cases (sqrt : F → F) (ray : Ray F) (rest : List (Sphere F)) (i : Nat)
    (st : Int × F) :
    TraceRayLoop sqrt ray rest i st = st ∨
      ∃ j s, rest[j]? = some s ∧ Candidate sqrt ray s ∧ nearRoot sqrt ray s < st.2 ∧
        TraceRayLoop sqrt ray rest i st = (((i + j : Nat) : Int), nearRoot sqrt ray s) := by
  induction rest generalizing i st with
  | nil => left; simp [TraceRayLoop]
  | cons s0 rest ih =>
    simp only [TraceRayLoop]
    rcases ih (i + 1) (TraceRayStep sqrt ray i s0 st) with h | ⟨j, s, hj, hc, hlt, heq⟩
    · rw [h, TraceRayStep_eq]
      split
      · rename_i hsel
        right
        exact ⟨0, s0, by simp, hsel.1, hsel.2, by simp⟩
      · left; rfl
    · right
      refine ⟨j + 1, s, by simpa using hj, hc, ?_, ?_⟩
      · have hstep : (TraceRayStep sqrt ray i s0 st).2 ≤ st.2 := by
          rw [TraceRayStep_eq]
          split
          · rename_i h; exact le_of_lt h.2
          · exact le_refl _
        exact lt_of_lt_of_le hlt hstep
      · rw [heq]
        have : i + 1 + j = i + (j + 1) := by omega
        rw [this]

/-! ## `TraceRay` as a whole -/

/-- The two outcomes of `TraceRay`: a miss, and then every candidate is at
`FLT_MAX` or beyond; or the closest hit on a candidate below `FLT_MAX` that is
nearest among all candidates. -/
theorem TraceRay_cases (sqrt : F → F) (spheres : List (Sphere F)) (ray : Ray F) :
    (TraceRay sqrt spheres ray = Miss ray ∧
        ∀ s ∈ spheres, Candidate sqrt ray s → FLT_MAX ≤ nearRoot sqrt ray s) ∨
      ∃ j s, spheres[j]? = some s ∧ Candidate sqrt ray s ∧ nearRoot sqrt ray s < FLT_MAX ∧
        TraceRay sqrt spheres ray = ClosestHit sqrt spheres ray (nearRoot sqrt ray s) (j : Nat) ∧
        ∀ s' ∈ spheres, Candidate sqrt ray s' → nearRoot sqrt ray s ≤ nearRoot sqrt ray s' := by
  have hle := TraceRayLoop_le_candidate sqrt ray spheres 0 (-1, FLT_MAX)
  rcases TraceRayLoop_cases sqrt ray spheres 0 (-1, FLT_MAX) with h | ⟨j, s, hj, hc, hlt, heq⟩
  · left
    rw [h] at hle
    refine ⟨?_, fun s hs hc => hle s hs hc⟩
    simp [TraceRay, h]
  · right
    rw [heq] at hle
    refine ⟨j, s, hj, hc, hlt, ?_, fun s' hs' hc' => hle s' hs' hc'⟩
    have hnn : ¬ ((0 + j : Nat) : Int) < 0 := by simp
    simp only [TraceRay, heq, hnn, if_false]
    simp

theorem Miss_not_isHit (ray : Ray F) : ¬ IsHit (Miss ray) := by
  simp [IsHit, Miss]

theorem ClosestHit_getElem (sqrt : F → F) (spheres : List (Sphere F)) (ray : Ray F) (t : F)
    (j : Nat) (s : Sphere F) (hj : spheres[j]? = some s) :
    ClosestHit sqrt spheres ray t (j : Int) =
      { HitDistance := t
        ObjectIndex := (j : Int)
        WorldNormal := Vec3.normalize sqrt (Vec3.add (newOrigin ray s) (Vec3.smul ray.m_Direction t))
        WorldPosition :=
          Vec3.add (Vec3.add (newOrigin ray s) (Vec3.smul ray.m_Direction t)) s.Position } := by
  simp [ClosestHit, List.getD, hj, newOrigin]

/-- A reported hit: the selected sphere, its index, and the payload. -/
theorem TraceRay_hit (sqrt : F → F) (spheres : List (Sphere F)) (ray : Ray F)
    (h : IsHit (TraceRay sqrt spheres ray)) :
    ∃ j s, spheres[j]? = some s ∧ Candidate sqrt ray s ∧ nearRoot sqrt ray s < FLT_MAX ∧
      TraceRay sqrt spheres ray = ClosestHit sqrt spheres ray (nearRoot sqrt ray s) (j : Nat) ∧
      ∀ s' ∈ spheres, Candidate sqrt ray s' → nearRoot sqrt ray s ≤ nearRoot sqrt ray s' := by
  rcases TraceRay_cases sqrt spheres ray with ⟨hm, _⟩ | h'
  · rw [hm] at h; exact absurd h (Miss_not_isHit ray)
  · exact h'

/-- The hit distance does not depend on the order of the spheres. -/
theorem TraceRay_hitDistance_perm (sqrt : F → F) (spheres spheres' : List (Sphere F))
    (ray : Ray F) (hp : spheres'.Perm spheres) :
    (TraceRay sqrt spheres' ray).HitDistance = (TraceRay sqrt spheres ray).HitDistance := by
  have hmem : ∀ s, s ∈ spheres' ↔ s ∈ spheres := fun s => hp.mem_iff
  rcases TraceRay_cases sqrt spheres ray with ⟨hm, hall⟩ | ⟨j, s, hj, hc, hlt, heq, hmin⟩ <;>
    rcases TraceRay_cases sqrt spheres' ray with
      ⟨hm', hall'⟩ | ⟨j', s', hj', hc', hlt', heq', hmin'⟩
  · rw [hm, hm']
  · have := hall s' ((hmem s').mp (List.getElem?_mem hj')) hc'
    exact absurd hlt' (not_lt.mpr this)
  · have := hall' s ((hmem s).mpr (List.getElem?_mem hj)) hc
    exact absurd hlt (not_lt.mpr this)
  · rw [heq, heq']
    simp only [ClosestHit]
    exact le_antisymm (hmin' s ((hmem s).mpr (List.getElem?_mem hj)) hc)
      (hmin s' ((hmem s').mp (List.getElem?_mem hj')) hc')

/-! ## Values at the example inputs -/

theorem discriminant_unit_centreRay : discriminant (centreRay : Ray F) unitSphere = 2 * 2 := by
  simp [discriminant, coeffA, coeffB, coeffC, newOrigin, Vec3.dot, Vec3.sub, unitSphere, centreRay]
  norm_num

theorem nearRoot_unit_centreRay {sqrt : F → F} (hs : IsSqrt sqrt) :
    nearRoot sqrt (centreRay : Ray F) unitSphere = 2 := by
  unfold nearRoot
  rw [discriminant_unit_centreRay, hs.sqrt_mul_self (by norm_num)]
  simp [coeffA, coeffB, newOrigin, Vec3.dot, Vec3.sub, unitSphere, centreRay]
  norm_num

theorem candidate_unit_centreRay {sqrt : F → F} (hs : IsSqrt sqrt) :
    Candidate sqrt (centreRay : Ray F) unitSphere := by
  refine ⟨?_, ?_⟩
  · rw [discriminant_unit_centreRay]; norm_num
  · rw [nearRoot_unit_centreRay hs]; norm_num

theorem TraceRay_unit_centreRay {sqrt : F → F} (hs : IsSqrt sqrt) :
    IsHit (TraceRay sqrt [unitSphere] (centreRay : Ray F)) ∧
      (TraceRay sqrt [unitSphere] (centreRay : Ray F)).HitDistance = 2 := by
  have hc := candidate_unit_centreRay (F := F) hs
  have hn := nearRoot_unit_centreRay (F := F) hs
  have hlt : nearRoot sqrt (centreRay : Ray F) unitSphere < FLT_MAX := by
    rw [hn]; unfold FLT_MAX; norm_num
  have hstep : TraceRayLoop sqrt (centreRay : Ray F) [unitSphere] 0 (-1, FLT_MAX) =
      (0, nearRoot sqrt centreRay unitSphere) := by
    simp [TraceRayLoop, TraceRayStep_eq, hc, hlt]
  have : TraceRay sqrt [unitSphere] (centreRay : Ray F) =
      ClosestHit sqrt [unitSphere] centreRay (nearRoot sqrt centreRay unitSphere) 0 := by
    simp [TraceRay, hstep]
  rw [this]
  simp [IsHit, ClosestHit, hn]

theorem candidate_unit_shortRay {sqrt : F → F} (hs : IsSqrt sqrt) :
    Candidate sqrt (shortRay : Ray F) unitSphere ∧
      nearRoot sqrt (shortRay : Ray F) unitSphere = 2 ^ 131 := by
  have hd : discriminant (shortRay : Ray F) unitSphere = (2 / 2 ^ 130) * (2 / 2 ^ 130) := by
    simp [discriminant, coeffA, coeffB, coeffC, newOrigin, Vec3.dot, Vec3.sub, unitSphere,
      shortRay]
    norm_num
  have hn : nearRoot sqrt (shortRay : Ray F) unitSphere = 2 ^ 131 := by
    unfold nearRoot
    rw [hd, hs.sqrt_mul_self (by positivity)]
    simp [coeffA, coeffB, newOrigin, Vec3.dot, Vec3.sub, unitSphere, shortRay]
    norm_num
  refine ⟨⟨?_, ?_⟩, hn⟩
  · rw [hd]; positivity
  · rw [hn]; positivity

theorem TraceRay_unit_shortRay {sqrt : F → F} (hs : IsSqrt sqrt) :
    TraceRay sqrt [unitSphere] (shortRay : Ray F) = Miss shortRay := by
  have hn := (candidate_unit_shortRay (F := F) hs).2
  have hlt : ¬ nearRoot sqrt (shortRay : Ray F) unitSphere < FLT_MAX := by
    rw [hn]; unfold FLT_MAX; norm_num
  simp [TraceRay, TraceRayLoop, TraceRayStep_eq, hlt]

theorem TraceRay_unit_insideRay {sqrt : F → F} (hs : IsSqrt sqrt) :
    0 ≤ discriminant (insideRay : Ray F) unitSphere ∧
      farRoot sqrt (insideRay : Ray F) unitSphere = 1 ∧
      nearRoot sqrt (insideRay : Ray F) unitSphere = -1 ∧
      TraceRay sqrt [unitSphere] (insideRay : Ray F) = Miss insideRay := by
  have hd : discriminant (insideRay : Ray F) unitSphere = 2 * 2 := by
    simp [discriminant, coeffA, coeffB, coeffC, newOrigin, Vec3.dot, Vec3.sub, unitSphere,
      insideRay]
    norm_num
  have hf : farRoot sqrt (insideRay : Ray F) unitSphere = 1 := by
    unfold farRoot
    rw [hd, hs.sqrt_mul_self (by norm_num)]
    simp [coeffA, coeffB, newOrigin, Vec3.dot, Vec3.sub, unitSphere, insideRay]
  have hn : nearRoot sqrt (insideRay : Ray F) unitSphere = -1 := by
    unfold nearRoot
    rw [hd, hs.sqrt_mul_self (by norm_num)]
    simp [coeffA, coeffB, newOrigin, Vec3.dot, Vec3.sub, unitSphere, insideRay]
  have hc : ¬ Candidate sqrt (insideRay : Ray F) unitSphere := by
    intro h
    have := h.2
    rw [hn] at this
    norm_num at this
  refine ⟨by rw [hd]; norm_num, hf, hn, ?_⟩
  simp [TraceRay, TraceRayLoop, TraceRayStep_eq, hc]

/-! ## Geometry of a hit -/

/-- The near root of a candidate solves the quadratic `a t^2 + b t + c = 0`. -/
theorem quadratic_at_nearRoot {sqrt : F → F} (hs : IsSqrt sqrt) (ray : Ray F) (s : Sphere F)
    (hc : Candidate sqrt ray s) :
    coeffA ray * (nearRoot sqrt ray s * nearRoot sqrt ray s) +
      coeffB ray s * nearRoot sqrt ray s + coeffC ray s = 0 := by
  have ha : coeffA ray ≠ 0 := by
    intro h0
    have := hc.2
    simp [nearRoot, h0] at this
  have hsq := hs.mul_self hc.1
  have hd : discriminant ray s = coeffB ray s * coeffB ray s - 4 * coeffA ray * coeffC ray s := rfl
  have ht : 2 * coeffA ray * nearRoot sqrt ray s = -coeffB ray s - sqrt (discriminant ray s) := by
    unfold nearRoot
    field_simp
  have h4 : coeffA ray * (coeffA ray * (nearRoot sqrt ray s * nearRoot sqrt ray s) +
      coeffB ray s * nearRoot sqrt ray s + coeffC ray s) = 0 := by
    linear_combination
      (1 / 4) * (2 * coeffA ray * nearRoot sqrt ray s + coeffB ray s - sqrt (discriminant ray s)) * ht
        + (1 / 4) * hsq + (1 / 4) * hd
  rcases mul_eq_zero.mp h4 with h | h
  · exact absurd h ha
  · exact h

/-- The local hit point `newOrigin + dir * t` of a candidate lies on the sphere:
its squared length is `Radius * Radius`. -/
theorem localHit_on_sphere {sqrt : F → F} (hs : IsSqrt sqrt) (ray : Ray F) (s : Sphere F)
    (hc : Candidate sqrt ray s) :
    Vec3.dot (Vec3.add (newOrigin ray s) (Vec3.smul ray.m_Direction (nearRoot sqrt ray s)))
        (Vec3.add (newOrigin ray s) (Vec3.smul ray.m_Direction (nearRoot sqrt ray s))) =
      s.Radius * s.Radius := by
  have h := quadratic_at_nearRoot hs ray s hc
  simp only [coeffA, coeffB, coeffC, Vec3.dot] at h
  simp only [Vec3.dot, Vec3.add, Vec3.smul]
  linear_combination h

/-- The payload of a hit on a sphere of non-zero radius: the normal is the local
hit point divided by its length, and it has length one. -/
theorem ClosestHit_normal {sqrt : F → F} (hs : IsSqrt sqrt) (ray : Ray F) (s : Sphere F)
    (hc : Candidate sqrt ray s) (hr : s.Radius ≠ 0) (spheres : List (Sphere F)) (j : Nat)
    (hj : spheres[j]? = some s) :
    Vec3.length sqrt (ClosestHit sqrt spheres ray (nearRoot sqrt ray s) (j : Int)).WorldNormal = 1 ∧
      (ClosestHit sqrt spheres ray (nearRoot sqrt ray s) (j : Int)).WorldNormal =
        Vec3.divScalar
          (Vec3.sub (ClosestHit sqrt spheres ray (nearRoot sqrt ray s) (j : Int)).WorldPosition
            s.Position)
          (Vec3.length sqrt
            (Vec3.sub (ClosestHit sqrt spheres ray (nearRoot sqrt ray s) (j : Int)).WorldPosition
              s.Position)) := by
  rw [ClosestHit_getElem sqrt spheres ray _ j s hj]
  have hon := localHit_on_sphere hs ray s hc
  set loc := Vec3.add (newOrigin ray s) (Vec3.smul ray.m_Direction (nearRoot sqrt ray s)) with hloc
  have hback : Vec3.sub (Vec3.add loc s.Position) s.Position = loc := by
    ext <;> simp [Vec3.sub, Vec3.add]
  have hrr : 0 < s.Radius * s.Radius := mul_self_pos.mpr hr
  have h0 : 0 ≤ Vec3.dot loc loc := by rw [hon]; exact le_of_lt hrr
  have hq := hs.mul_self h0
  have hqne : sqrt (Vec3.dot loc loc) ≠ 0 := by
    intro hz
    rw [hz, hon] at hq
    simp at hq
    exact hr hq
  refine ⟨?_, ?_⟩
  · show sqrt (Vec3.dot (Vec3.normalize sqrt loc) (Vec3.normalize sqrt loc)) = 1
    have : Vec3.dot (Vec3.normalize sqrt loc) (Vec3.normalize sqrt loc) = 1 := by
      have hexp : Vec3.dot (Vec3.normalize sqrt loc) (Vec3.normalize sqrt loc) =
          Vec3.dot loc loc / (sqrt (Vec3.dot loc loc) * sqrt (Vec3.dot loc loc)) := by
        simp only [Vec3.normalize, Vec3.dot, Vec3.smul]
        field_simp
      rw [hexp, hq]
      have hne : Vec3.dot loc loc ≠ 0 := by rw [hon]; exact ne_of_gt hrr
      exact div_self hne
    rw [this]
    exact hs.sqrt_one
  · show Vec3.normalize sqrt loc = _
    rw [hback]
    simp only [Vec3.normalize, Vec3.smul, Vec3.divScalar, Vec3.length]
    ext <;> simp [div_eq_mul_inv]

theorem TraceRay_point_centreRay {sqrt : F → F} (hs : IsSqrt sqrt) :
    TraceRay sqrt [pointSphere] (centreRay : Ray F) =
      { HitDistance := 3, WorldPosition := ⟨0, 0, 0⟩, WorldNormal := ⟨0, 0, 0⟩,
        ObjectIndex := 0 } := by
  have hd : discriminant (centreRay : Ray F) pointSphere = 0 := by
    simp [discriminant, coeffA, coeffB, coeffC, newOrigin, Vec3.dot, Vec3.sub, pointSphere,
      centreRay]
    norm_num
  have hn : nearRoot sqrt (centreRay : Ray F) pointSphere = 3 := by
    unfold nearRoot
    rw [hd, hs.sqrt_zero]
    norm_num [coeffA, coeffB, newOrigin, Vec3.dot, Vec3.sub, pointSphere, centreRay]
  have hc : Candidate sqrt (centreRay : Ray F) pointSphere := by
    refine ⟨by rw [hd], ?_⟩
    rw [hn]; norm_num
  have hlt : nearRoot sqrt (centreRay : Ray F) pointSphere < FLT_MAX := by
    rw [hn]; unfold FLT_MAX; norm_num
  have hstep : TraceRayLoop sqrt (centreRay : Ray F) [pointSphere] 0 (-1, FLT_MAX) =
      (0, nearRoot sqrt centreRay pointSphere) := by
    simp [TraceRayLoop, TraceRayStep_eq, hc, hlt]
  have : TraceRay sqrt [pointSphere] (centreRay : Ray F) =
      ClosestHit sqrt [pointSphere] centreRay (nearRoot sqrt centreRay pointSphere) 0 := by
    simp [TraceRay, hstep]
  rw [this, hn]
  simp [ClosestHit, Vec3.normalize, Vec3.add, Vec3.sub, Vec3.smul, Vec3.dot, pointSphere,
    centreRay, hs.sqrt_zero]

theorem TraceRay_unit_centreRay_index {sqrt : F → F} (hs : IsSqrt sqrt) :
    (TraceRay sqrt [unitSphere] (centreRay : Ray F)).ObjectIndex = ((0 : Nat) : Int) := by
  have hc := candidate_unit_centreRay (F := F) hs
  have hn := nearRoot_unit_centreRay (F := F) hs
  have hlt : nearRoot sqrt (centreRay : Ray F) unitSphere < FLT_MAX := by
    rw [hn]; unfold FLT_MAX; norm_num
  have hstep : TraceRayLoop sqrt (centreRay : Ray F) [unitSphere] 0 (-1, FLT_MAX) =
      (0, nearRoot sqrt centreRay unitSphere) := by
    simp [TraceRayLoop, TraceRayStep_eq, hc, hlt]
  simp [TraceRay, hstep, ClosestHit]

end Renderer

/-! ## The pixel loop of `Render` -/

namespace Renderer

theorem memsetZero_length (n : Nat) (buf : List (Vec4 F)) :
    (memsetZero n buf).length = buf.length := by
  unfold memsetZero
  simp only [List.length_append, List.length_replicate, List.length_drop]
  omega

theorem memsetZero_getD (buf : List (Vec4 F)) (i : Nat) :
    (memsetZero buf.length buf).getD i Vec4.zero = Vec4.zero := by
  unfold memsetZero
  simp only [Nat.min_self, List.drop_length, List.append_nil, List.getD_eq_getElem?_getD,
    List.getElem?_replicate]
  split <;> rfl

theorem frameRadiances_append (sqrt : F → F) (st : Settings) (w x y : Nat) (a b : List (Frame F))
    (k : Nat) :
    frameRadiances sqrt st w x y k (a ++ b) =
      frameRadiances sqrt st w x y k a ++ frameRadiances sqrt st w x y (k + a.length) b := by
  induction a generalizing k with
  | nil => simp [frameRadiances]
  | cons fr a ih =>
    have hk : k + 1 + a.length = k + (a.length + 1) := by omega
    show _ :: frameRadiances sqrt st w x y (k + 1) (a ++ b) = _
    rw [ih (k + 1), hk]
    rfl

theorem frameRadiances_length (sqrt : F → F) (st : Settings) (w x y : Nat) (a : List (Frame F))
    (k : Nat) : (frameRadiances sqrt st w x y k a).length = a.length := by
  induction a generalizing k with
  | nil => simp [frameRadiances]
  | cons fr a ih => simp [frameRadiances, ih]

theorem frameRadiances_alpha (sqrt : F → F) (st : Settings) (w x y : Nat) (a : List (Frame F))
    (k : Nat) : ∀ c ∈ frameRadiances sqrt st w x y k a, c.a = 1 := by
  induction a generalizing k with
  | nil => simp [frameRadiances]
  | cons fr a ih =>
    intro c hc
    simp only [frameRadiances, List.mem_cons] at hc
    rcases hc with h | h
    · rw [h]; rfl
    · exact ih (k + 1) c h

theorem sumColors_alpha (cs : List (Vec4 F)) (h : ∀ c ∈ cs, c.a = 1) :
    (sumColors cs).a = (cs.length : F) := by
  unfold sumColors
  induction cs using List.reverseRecOn with
  | nil => simp [Vec4.zero]
  | append_singleton cs c ih =>
    rw [List.foldl_append]
    simp only [List.foldl_cons, List.foldl_nil, Vec4.add, List.length_append, List.length_singleton]
    rw [ih (fun d hd => h d (List.mem_append_left _ hd)), h c (by simp)]
    push_cast
    ring

theorem TraceRay_nil (sqrt : F → F) (ray : Ray F) : TraceRay sqrt [] ray = Miss ray := by
  simp [TraceRay, TraceRayLoop]

/-- With no spheres `PerPixel` makes one intersection query, which misses. -/
theorem PerPixelTrace_no_spheres (sqrt : F → F) (settings : Settings) (scene : Scene F)
    (hscene : scene.Spheres = []) (camera : Camera F) (slow : Nat → Vec3 F) (w k x y : Nat) :
    PerPixelTrace sqrt settings scene camera slow w k x y =
      (if settings.RenderSky then Vec3.add (Vec3.splat 0) (Vec3.mul sky (Vec3.splat 1))
        else Vec3.splat 0, [Miss (primaryRay camera w x y)]) := by
  unfold PerPixelTrace
  simp only [PerPixelLoop, hscene, TraceRay_nil]
  simp [Miss]

theorem PerPixel_no_spheres_sky (sqrt : F → F) (settings : Settings) (scene : Scene F)
    (hscene : scene.Spheres = []) (hsky : settings.RenderSky = true) (camera : Camera F)
    (slow : Nat → Vec3 F) (w k x y : Nat) :
    PerPixel sqrt settings scene camera slow w k x y = ⟨6 / 10, 7 / 10, 9 / 10, 1⟩ := by
  unfold PerPixel
  rw [PerPixelTrace_no_spheres sqrt settings scene hscene, hsky]
  simp [Vec4.ofVec3, Vec3.add, Vec3.mul, Vec3.splat, sky]

theorem PerPixel_no_spheres_dark (sqrt : F → F) (settings : Settings) (scene : Scene F)
    (hscene : scene.Spheres = []) (hsky : settings.RenderSky = false) (camera : Camera F)
    (slow : Nat → Vec3 F) (w k x y : Nat) :
    PerPixel sqrt settings scene camera slow w k x y = ⟨0, 0, 0, 1⟩ := by
  unfold PerPixel
  rw [PerPixelTrace_no_spheres sqrt settings scene hscene, hsky]
  simp [Vec4.ofVec3, Vec3.splat]

theorem clamp01_of_mem (c : Vec4 F) (hr : 0 ≤ c.r ∧ c.r ≤ 1) (hg : 0 ≤ c.g ∧ c.g ≤ 1)
    (hb : 0 ≤ c.b ∧ c.b ≤ 1) (ha : 0 ≤ c.a ∧ c.a ≤ 1) : Vec4.clamp01 c = c := by
  unfold Vec4.clamp01 Vec4.clampScalar
  ext <;> simp [*]

theorem Vec4.zero_add (c : Vec4 F) : Vec4.add Vec4.zero c = c := by
  ext <;> simp [Vec4.add, Vec4.zero]

theorem Vec4.divScalar_one (c : Vec4 F) : Vec4.divScalar c ((1 : Nat) : F) = c := by
  ext <;> simp [Vec4.divScalar]

theorem sized_onePixelState {G : Type} (k : Nat) (acc : Vec4 G) (settings : Settings) :
    Sized (onePixelState k acc settings) 1 1 := by
  refine ⟨rfl, by norm_num, rfl, rfl, rfl, rfl⟩

/-! ## The loop of `PerPixel` -/

theorem hitsOf_cons_hit (p : HitPayload F) (log : List (HitPayload F)) (hp : IsHit p) :
    hitsOf (p :: log) = p :: hitsOf log := by
  simp [hitsOf, List.filter_cons, hp]

theorem hitsOf_singleton_miss (p : HitPayload F) (hp : ¬ IsHit p) :
    hitsOf [p] = [] := by
  simp [hitsOf, List.filter_cons, hp]

theorem endsWithMiss_nil : ¬ EndsWithMiss ([] : List (HitPayload F)) := by
  simp [EndsWithMiss]

theorem endsWithMiss_singleton (p : HitPayload F) : EndsWithMiss [p] ↔ ¬ IsHit p := by
  simp [EndsWithMiss]

theorem endsWithMiss_cons_hit (p : HitPayload F) (log : List (HitPayload F)) (hp : IsHit p) :
    EndsWithMiss (p :: log) ↔ EndsWithMiss log := by
  cases log with
  | nil => simp [EndsWithMiss, hp]
  | cons q rest => simp [EndsWithMiss, List.getLast?_cons_cons]

/-- One iteration of the loop of `PerPixel` that hits: the payload is logged and
the loop goes on with the light and the contribution updated by the material. -/
theorem PerPixelLoop_hit (sqrt : F → F) (settings : Settings) (scene : Scene F)
    (slow : Nat → Vec3 F) (n i : Nat) (ray : Ray F) (light contribution : Vec3 F) (seed : Nat)
    (hhit : ¬ (TraceRay sqrt scene.Spheres ray).HitDistance < 0) :
    ∃ (ray' : Ray F) (seed' : Nat),
      PerPixelLoop sqrt settings scene slow (n + 1) i ray light contribution seed =
        ((PerPixelLoop sqrt settings scene slow n (i + 1) ray'
            (Vec3.add light (hitMaterial scene (TraceRay sqrt scene.Spheres ray)).GetEmission)
            (Vec3.mul contribution (hitMaterial scene (TraceRay sqrt scene.Spheres ray)).Color)
            seed').1,
          TraceRay sqrt scene.Spheres ray ::
            (PerPixelLoop sqrt settings scene slow n (i + 1) ray'
              (Vec3.add light (hitMaterial scene (TraceRay sqrt scene.Spheres ray)).GetEmission)
              (Vec3.mul contribution (hitMaterial scene (TraceRay sqrt scene.Spheres ray)).Color)
              seed').2) := by
  refine ⟨⟨Vec3.add (TraceRay sqrt scene.Spheres ray).WorldPosition
        (Vec3.smul (TraceRay sqrt scene.Spheres ray).WorldNormal (1 / 10000)),
      (if settings.SlowRandom then
          (Vec3.normalize sqrt (Vec3.add (TraceRay sqrt scene.Spheres ray).WorldNormal (slow i)),
            (seed + i) % 2 ^ 32)
        else
          (Vec3.normalize sqrt (Vec3.add (TraceRay sqrt scene.Spheres ray).WorldNormal
              (Utils.InUnitSphere sqrt ((seed + i) % 2 ^ 32)).1),
            (Utils.InUnitSphere sqrt ((seed + i) % 2 ^ 32)).2)).1⟩,
    (if settings.SlowRandom then
        (Vec3.normalize sqrt (Vec3.add (TraceRay sqrt scene.Spheres ray).WorldNormal (slow i)),
          (seed + i) % 2 ^ 32)
      else
        (Vec3.normalize sqrt (Vec3.add (TraceRay sqrt scene.Spheres ray).WorldNormal
            (Utils.InUnitSphere sqrt ((seed + i) % 2 ^ 32)).1),
          (Utils.InUnitSphere sqrt ((seed + i) % 2 ^ 32)).2)).2, ?_⟩
  rw [PerPixelLoop]
  simp only [hhit, if_false]

/-- The loop of `PerPixel`: number of queries, where a miss can stand, and the
light it returns. -/
theorem PerPixelLoop_spec (sqrt : F → F) (settings : Settings) (scene : Scene F)
    (slow : Nat → Vec3 F) (n : Nat) :
    ∀ (i : Nat) (ray : Ray F) (light contribution : Vec3 F) (seed : Nat),
      (PerPixelLoop sqrt settings scene slow n i ray light contribution seed).2.length ≤ n ∧
      (∀ j p, j + 1 <
          (PerPixelLoop sqrt settings scene slow n i ray light contribution seed).2.length →
        (PerPixelLoop sqrt settings scene slow n i ray light contribution seed).2[j]? = some p →
        IsHit p) ∧
      (PerPixelLoop sqrt settings scene slow n i ray light contribution seed).1 =
        if settings.RenderSky = true ∧
            EndsWithMiss (PerPixelLoop sqrt settings scene slow n i ray light contribution seed).2
        then
          Vec3.add
            (emittedLight scene light
              (PerPixelLoop sqrt settings scene slow n i ray light contribution seed).2)
            (Vec3.mul sky (throughput scene contribution
              (PerPixelLoop sqrt settings scene slow n i ray light contribution seed).2))
        else emittedLight scene light
          (PerPixelLoop sqrt settings scene slow n i ray light contribution seed).2 := by
  induction n with
  | zero =>
    intro i ray light contribution seed
    simp [PerPixelLoop, endsWithMiss_nil, emittedLight, hitsOf]
  | succ n ih =>
    intro i ray light contribution seed
    by_cases hmiss : (TraceRay sqrt scene.Spheres ray).HitDistance < 0
    · have hnot : ¬ IsHit (TraceRay sqrt scene.Spheres ray) := by
        simp [IsHit, hmiss]
      have heq : PerPixelLoop sqrt settings scene slow (n + 1) i ray light contribution seed =
          (if settings.RenderSky then Vec3.add light (Vec3.mul sky contribution) else light,
            [TraceRay sqrt scene.Spheres ray]) := by
        simp [PerPixelLoop, hmiss]
      rw [heq]
      refine ⟨by simp, ?_, ?_⟩
      · intro j p hj
        simp at hj
      · simp only [emittedLight, throughput, hitsOf_singleton_miss _ hnot, List.foldl_nil,
          endsWithMiss_singleton, hnot, not_false_eq_true, and_true]
    · have hhit : IsHit (TraceRay sqrt scene.Spheres ray) := hmiss
      obtain ⟨ray', seed', heq⟩ :=
        PerPixelLoop_hit sqrt settings scene slow n i ray light contribution seed hmiss
      obtain ⟨hlen, hpre, hlight⟩ := ih (i + 1) ray'
        (Vec3.add light (hitMaterial scene (TraceRay sqrt scene.Spheres ray)).GetEmission)
        (Vec3.mul contribution (hitMaterial scene (TraceRay sqrt scene.Spheres ray)).Color) seed'
      rw [heq]
      refine ⟨by simpa using hlen, ?_, ?_⟩
      · intro j p hj hget
        cases j with
        | zero =>
          simp only [List.getElem?_cons_zero, Option.some.injEq] at hget
          rw [← hget]; exact hhit
        | succ j =>
          simp only [List.getElem?_cons_succ] at hget
          simp only [List.length_cons] at hj
          exact hpre j p (by omega) hget
      · simp only [endsWithMiss_cons_hit _ _ hhit]
        rw [hlight]
        simp only [emittedLight, throughput, hitsOf_cons_hit _ _ hhit, List.foldl_cons]

/-- The loop selects the first sphere that attains the final bound: every
candidate before the selected one is strictly farther. -/
theorem TraceRayLoop_first (sqrt : F → F) (ray : Ray F) (rest : List (Sphere F)) (i : Nat)
    (st : Int × F) :
    TraceRayLoop sqrt ray rest i st = st ∨
      ∃ j s, rest[j]? = some s ∧ Candidate sqrt ray s ∧ nearRoot sqrt ray s < st.2 ∧
        TraceRayLoop sqrt ray rest i st = (((i + j : Nat) : Int), nearRoot sqrt ray s) ∧
        ∀ j' s', j' < j → rest[j']? = some s' → Candidate sqrt ray s' →
          nearRoot sqrt ray s < nearRoot sqrt ray s' := by
  induction rest generalizing i st with
  | nil => left; simp [TraceRayLoop]
  | cons s0 rest ih =>
    simp only [TraceRayLoop]
    have hstep : (TraceRayStep sqrt ray i s0 st).2 ≤ st.2 := by
      rw [TraceRayStep_eq]
      split
      · rename_i h; exact le_of_lt h.2
      · exact le_refl _
    have hs0 : Candidate sqrt ray s0 → (TraceRayStep sqrt ray i s0 st).2 ≤ nearRoot sqrt ray s0 := by
      intro hc
      rw [TraceRayStep_eq]
      split
      · exact le_refl _
      · rename_i hn
        simp only [hc, true_and, not_lt] at hn
        exact hn
    rcases ih (i + 1) (TraceRayStep sqrt ray i s0 st) with h | ⟨j, s, hj, hc, hlt, heq, hfirst⟩
    · rw [h, TraceRayStep_eq]
      split
      · rename_i hsel
        right
        refine ⟨0, s0, by simp, hsel.1, hsel.2, by simp, ?_⟩
        intro j' s' hj'
        omega
      · left; rfl
    · right
      refine ⟨j + 1, s, by simpa using hj, hc, lt_of_lt_of_le hlt hstep, ?_, ?_⟩
      · rw [heq]
        have : i + 1 + j = i + (j + 1) := by omega
        rw [this]
      · intro j' s' hj' hget hc'
        cases j' with
        | zero =>
          simp only [List.getElem?_cons_zero, Option.some.injEq] at hget
          subst hget
          exact lt_of_lt_of_le hlt (hs0 hc')
        | succ j' =>
          simp only [List.getElem?_cons_succ] at hget
          exact hfirst j' s' (by omega) hget hc'

/-- A reported hit is on the first sphere, in scene order, that attains the
smallest near root among the candidates. -/
theorem TraceRay_hit_first (sqrt : F → F) (spheres : List (Sphere F)) (ray : Ray F)
    (h : IsHit (TraceRay sqrt spheres ray)) :
    ∃ j s, spheres[j]? = some s ∧ Candidate sqrt ray s ∧ nearRoot sqrt ray s < FLT_MAX ∧
      TraceRay sqrt spheres ray = ClosestHit sqrt spheres ray (nearRoot sqrt ray s) (j : Nat) ∧
      (∀ s' ∈ spheres, Candidate sqrt ray s' → nearRoot sqrt ray s ≤ nearRoot sqrt ray s') ∧
      ∀ j' s', j' < j → spheres[j']? = some s' → Candidate sqrt ray s' →
        nearRoot sqrt ray s < nearRoot sqrt ray s' := by
  have hle := TraceRayLoop_le_candidate sqrt ray spheres 0 (-1, FLT_MAX)
  rcases TraceRayLoop_first sqrt ray spheres 0 (-1, FLT_MAX) with
    h0 | ⟨j, s, hj, hc, hlt, heq, hfirst⟩
  · exfalso
    have : TraceRay sqrt spheres ray = Miss ray := by simp [TraceRay, h0]
    rw [this] at h
    exact Miss_not_isHit ray h
  · rw [heq] at hle
    refine ⟨j, s, hj, hc, hlt, ?_, fun s' hs' hc' => hle s' hs' hc', hfirst⟩
    have hnn : ¬ ((0 + j : Nat) : Int) < 0 := by simp
    simp only [TraceRay, heq, hnn, if_false]
    simp

/-- A hit exists as soon as some candidate is below `FLT_MAX`. -/
theorem TraceRay_isHit_of_candidate (sqrt : F → F) (spheres : List (Sphere F)) (ray : Ray F)
    (s : Sphere F) (hs : s ∈ spheres) (hc : Candidate sqrt ray s)
    (hlt : nearRoot sqrt ray s < FLT_MAX) : IsHit (TraceRay sqrt spheres ray) := by
  rcases TraceRay_cases sqrt spheres ray with ⟨_, hall⟩ | ⟨j, s1, _, hc1, _, heq, _⟩
  · exact absurd hlt (not_lt.mpr (hall s hs hc))
  · rw [heq]
    simp only [IsHit, ClosestHit, not_lt]
    exact le_of_lt hc1.2

/-- For an origin strictly inside the sphere and a non-zero direction the
discriminant is positive, the near root negative and the far root positive. -/
theorem roots_of_inside {sqrt : F → F} (hs : IsSqrt sqrt) (ray : Ray F) (S : Sphere F)
    (hdir : ray.m_Direction ≠ Vec3.splat 0)
    (hin : Vec3.dot (newOrigin ray S) (newOrigin ray S) < S.Radius * S.Radius) :
    0 < discriminant ray S ∧ nearRoot sqrt ray S < 0 ∧ 0 < farRoot sqrt ray S := by
  have ha : 0 < coeffA ray := by
    unfold coeffA Vec3.dot
    have hne : ray.m_Direction.x ≠ 0 ∨ ray.m_Direction.y ≠ 0 ∨ ray.m_Direction.z ≠ 0 := by
      by_contra hcon
      push_neg at hcon
      apply hdir
      ext <;> simp [Vec3.splat, hcon.1, hcon.2.1, hcon.2.2]
    rcases hne with h | h | h
    · nlinarith [mul_self_pos.mpr h, mul_self_nonneg ray.m_Direction.y,
        mul_self_nonneg ray.m_Direction.z]
    · nlinarith [mul_self_pos.mpr h, mul_self_nonneg ray.m_Direction.x,
        mul_self_nonneg ray.m_Direction.z]
    · nlinarith [mul_self_pos.mpr h, mul_self_nonneg ray.m_Direction.x,
        mul_self_nonneg ray.m_Direction.y]
  have hc : coeffC ray S < 0 := by unfold coeffC; linarith
  have hd : coeffB ray S * coeffB ray S < discriminant ray S := by
    unfold discriminant
    nlinarith [mul_pos ha (neg_pos.mpr hc)]
  have hd0 : 0 < discriminant ray S := lt_of_le_of_lt (mul_self_nonneg _) hd
  have hq := hs.mul_self (le_of_lt hd0)
  have hq0 := hs.nonneg (le_of_lt hd0)
  have h2a : 0 < 2 * coeffA ray := by linarith
  have hhi : coeffB ray S < sqrt (discriminant ray S) := by
    by_contra hcon
    have := mul_self_le_mul_self hq0 (not_lt.mp hcon)
    linarith
  have hlo : -coeffB ray S < sqrt (discriminant ray S) := by
    by_contra hcon
    have := mul_self_le_mul_self hq0 (not_lt.mp hcon)
    linarith
  refine ⟨hd0, ?_, ?_⟩
  · unfold nearRoot
    exact div_neg_of_neg_of_pos (by linarith) h2a
  · unfold farRoot
    exact div_pos (by linarith) h2a

theorem TraceRay_two_units_shortRay {sqrt : F → F} (hs : IsSqrt sqrt) :
    TraceRay sqrt [unitSphere, unitSphereB] (shortRay : Ray F) = Miss shortRay := by
  have hn := (candidate_unit_shortRay (F := F) hs).2
  have hnB : nearRoot sqrt (shortRay : Ray F) unitSphereB = 2 ^ 131 := hn
  have hlt : ¬ nearRoot sqrt (shortRay : Ray F) unitSphere < FLT_MAX := by
    rw [hn]; unfold FLT_MAX; norm_num
  have hltB : ¬ nearRoot sqrt (shortRay : Ray F) unitSphereB < FLT_MAX := by
    rw [hnB]; unfold FLT_MAX; norm_num
  simp [TraceRay, TraceRayLoop, TraceRayStep_eq, hlt, hltB]

theorem getD_emission_of_sameButColor (ms ms' : List (Material F)) (h : SameButColor ms ms')
    (i : Nat) :
    (ms.getD i Material.zero).GetEmission = (ms'.getD i Material.zero).GetEmission := by
  unfold SameButColor at h
  induction h generalizing i with
  | nil => rfl
  | cons hm _ ih =>
    cases i with
    | zero =>
      simp only [List.getD_cons_zero, Material.GetEmission]
      rw [hm.1, hm.2]
    | succ i =>
      simp only [List.getD_cons_succ]
      exact ih i

theorem hitMaterial_emission_of_sameButColor (scene scene' : Scene F)
    (hsph : scene'.Spheres = scene.Spheres) (hmat : SameButColor scene.Materials scene'.Materials)
    (p : HitPayload F) :
    (hitMaterial scene p).GetEmission = (hitMaterial scene' p).GetEmission := by
  unfold hitMaterial
  rw [hsph]
  exact getD_emission_of_sameButColor _ _ hmat _

/-- Without the sky the loop of `PerPixel` does not read the contribution, and
of the materials it reads only the emission. -/
theorem PerPixelLoop_independent_of_color (sqrt : F → F) (settings : Settings)
    (hsky : settings.RenderSky = false) (scene scene' : Scene F)
    (hsph : scene'.Spheres = scene.Spheres) (hmat : SameButColor scene.Materials scene'.Materials)
    (slow : Nat → Vec3 F) (n : Nat) :
    ∀ (i : Nat) (ray : Ray F) (light c c' : Vec3 F) (seed : Nat),
      PerPixelLoop sqrt settings scene slow n i ray light c seed =
        PerPixelLoop sqrt settings scene' slow n i ray light c' seed := by
  induction n with
  | zero => intro i ray light c c' seed; rfl
  | succ n ih =>
    intro i ray light c c' seed
    rw [PerPixelLoop, PerPixelLoop]
    simp only [hsph, hsky]
    by_cases hmiss : (TraceRay sqrt scene.Spheres ray).HitDistance < 0
    · simp [hmiss]
    · simp only [hmiss, if_false]
      rw [hitMaterial_emission_of_sameButColor scene scene' hsph hmat]
      rw [ih]

theorem mul_mod_odd_cancel (p q f : Nat) (hp : p < 2 ^ 32) (hq : q < 2 ^ 32) (hf : f % 2 = 1)
    (h : (p * f) % 2 ^ 32 = (q * f) % 2 ^ 32) : p = q := by
  have hco : Nat.gcd (2 ^ 32) f = 1 := by
    have h2 : Nat.Coprime 2 f := (Nat.coprime_two_left).mpr (Nat.odd_iff.mpr hf)
    exact Nat.Coprime.pow_left 32 h2
  have hmod : p ≡ q [MOD 2 ^ 32] := Nat.ModEq.cancel_right_of_coprime hco h
  have := hmod
  unfold Nat.ModEq at this
  rwa [Nat.mod_eq_of_lt hp, Nat.mod_eq_of_lt hq] at this

theorem PCG_Hash_eq (input : Nat) :
    Utils.PCG_Hash input = (pcgWord input >>> 22) ^^^ pcgWord input := rfl

/-- A xorshift by a positive amount is injective on 32-bit words. -/
theorem xorshift_injective (k : Nat) (hk : 0 < k) (x x' : Nat) (hx : x < 2 ^ 32)
    (hx' : x' < 2 ^ 32) (h : (x >>> k) ^^^ x = (x' >>> k) ^^^ x') : x = x' := by
  have key : ∀ d i, 32 ≤ i + d → x.testBit i = x'.testBit i := by
    intro d
    induction d with
    | zero =>
      intro i hi
      have h32 : (2 : Nat) ^ 32 ≤ 2 ^ i := Nat.pow_le_pow_right (by norm_num) (by omega)
      rw [Nat.testBit_lt_two_pow (lt_of_lt_of_le hx h32),
        Nat.testBit_lt_two_pow (lt_of_lt_of_le hx' h32)]
    | succ d ih =>
      intro i hi
      have hb := congrArg (fun v => v.testBit i) h
      simp only [Nat.testBit_xor, Nat.testBit_shiftRight] at hb
      rw [ih (k + i) (by omega)] at hb
      revert hb
      cases x'.testBit (k + i) <;> cases x.testBit i <;> cases x'.testBit i <;> simp
  exact Nat.eq_of_testBit_eq (fun i => key 32 i (by omega))

/-- A xorshift by at least 4 leaves the top four bits of a 32-bit word alone. -/
theorem xorshift_top (k : Nat) (hk : 4 ≤ k) (x : Nat) (hx : x < 2 ^ 32) :
    ((x >>> k) ^^^ x) >>> 28 = x >>> 28 := by
  apply Nat.eq_of_testBit_eq
  intro i
  simp only [Nat.testBit_shiftRight, Nat.testBit_xor]
  have h32 : (2 : Nat) ^ 32 ≤ 2 ^ (k + (28 + i)) := Nat.pow_le_pow_right (by norm_num) (by omega)
  rw [Nat.testBit_lt_two_pow (lt_of_lt_of_le hx h32)]
  simp

theorem shiftRight_lt (x k : Nat) (hx : x < 2 ^ 32) : x >>> k < 2 ^ 32 := by
  rw [Nat.shiftRight_eq_div_pow]
  exact lt_of_le_of_lt (Nat.div_le_self _ _) hx

theorem pcgState_lt (input : Nat) : pcgState input < 2 ^ 32 := Nat.mod_lt _ (by norm_num)

theorem pcgWord_lt (input : Nat) : pcgWord input < 2 ^ 32 := Nat.mod_lt _ (by norm_num)

theorem PCG_Hash_lt (input : Nat) : Utils.PCG_Hash input < 2 ^ 32 := by
  rw [PCG_Hash_eq]
  exact Nat.xor_lt_two_pow (shiftRight_lt _ _ (pcgWord_lt input)) (pcgWord_lt input)

theorem pcgShift_bounds (input : Nat) : 4 ≤ pcgShift input ∧ pcgShift input ≤ 19 := by
  unfold pcgShift
  have := pcgState_lt input
  rw [Nat.shiftRight_eq_div_pow]
  omega

theorem PCG_Hash_injective (a b : Nat) (ha : a < 2 ^ 32) (hb : b < 2 ^ 32)
    (h : Utils.PCG_Hash a = Utils.PCG_Hash b) : a = b := by
  rw [PCG_Hash_eq, PCG_Hash_eq] at h
  have hword : pcgWord a = pcgWord b :=
    xorshift_injective 22 (by norm_num) _ _ (pcgWord_lt a) (pcgWord_lt b) h
  have hmixlt : ∀ i, (pcgState i >>> pcgShift i) ^^^ pcgState i < 2 ^ 32 := fun i =>
    Nat.xor_lt_two_pow (shiftRight_lt _ _ (pcgState_lt i)) (pcgState_lt i)
  have hmix : (pcgState a >>> pcgShift a) ^^^ pcgState a =
      (pcgState b >>> pcgShift b) ^^^ pcgState b :=
    mul_mod_odd_cancel _ _ 2778037727 (hmixlt a) (hmixlt b) (by norm_num) hword
  have htop : pcgState a >>> 28 = pcgState b >>> 28 := by
    have h1 := xorshift_top (pcgShift a) (pcgShift_bounds a).1 _ (pcgState_lt a)
    have h2 := xorshift_top (pcgShift b) (pcgShift_bounds b).1 _ (pcgState_lt b)
    rw [← h1, ← h2, hmix]
  have hshift : pcgShift a = pcgShift b := by unfold pcgShift; rw [htop]
  rw [hshift] at hmix
  have hstate : pcgState a = pcgState b :=
    xorshift_injective (pcgShift b) (by have := (pcgShift_bounds b).1; omega) _ _
      (pcgState_lt a) (pcgState_lt b) hmix
  unfold pcgState at hstate
  norm_num at hstate ha hb
  omega

theorem PCG_Hash_surjective (b : Nat) (hb : b < 2 ^ 32) :
    ∃ a, a < 2 ^ 32 ∧ Utils.PCG_Hash a = b := by
  have hinj : Function.Injective
      (fun a : Fin (2 ^ 32) => (⟨Utils.PCG_Hash a.1, PCG_Hash_lt a.1⟩ : Fin (2 ^ 32))) := by
    intro x y hxy
    have := congrArg Fin.val hxy
    exact Fin.ext (PCG_Hash_injective x.1 y.1 x.2 y.2 this)
  obtain ⟨a, ha⟩ := Finite.surjective_of_injective hinj ⟨b, hb⟩
  exact ⟨a.1, a.2, congrArg Fin.val ha⟩

theorem excessBits_eq (s : Nat) : ∀ (fuel q : Nat), s < fuel → 2 ^ (23 + s) ≤ q →
    q < 2 ^ (24 + s) → F32.excessBits fuel q = s := by
  induction s with
  | zero =>
    intro fuel q hf _ h2
    cases fuel with
    | zero => omega
    | succ fuel =>
      have : q < 16777216 := by norm_num at h2; exact h2
      simp [F32.excessBits, this]
  | succ s ih =>
    intro fuel q hf h1 h2
    cases fuel with
    | zero => omega
    | succ fuel =>
      have hge : ¬ q < 16777216 := by
        have : (2 : Nat) ^ 24 ≤ 2 ^ (23 + (s + 1)) := Nat.pow_le_pow_right (by norm_num) (by omega)
        norm_num at this
        omega
      have h1' : 2 ^ (23 + s) ≤ q / 2 := by
        have : 2 ^ (23 + (s + 1)) = 2 * 2 ^ (23 + s) := by ring
        omega
      have h2' : q / 2 < 2 ^ (24 + s) := by
        have : 2 ^ (24 + (s + 1)) = 2 * 2 ^ (24 + s) := by ring
        omega
      simp only [F32.excessBits, hge, if_false]
      rw [ih fuel (q / 2) (by omega) h1' h2']

/-- The conversion of a 32-bit integer to binary32 moves it by at most 128, never
exceeds `2^32`, and reaches `2^32` exactly from `2^32 - 128` on. -/
theorem uintToFloat_spec (n : Nat) (hn : n < 2 ^ 32) :
    Utils.uintToFloat n ≤ 2 ^ 32 ∧ (Utils.uintToFloat n = 2 ^ 32 ↔ 2 ^ 32 - 128 ≤ n) ∧
      Utils.uintToFloat n ≤ n + 128 ∧ n ≤ Utils.uintToFloat n + 128 := by
  unfold Utils.uintToFloat F32.roundPos
  simp only [Nat.div_one, Nat.mod_one, Nat.mul_zero]
  by_cases hsmall : n < 16777216
  · simp only [hsmall, if_true]
    norm_num
    omega
  · simp only [hsmall, if_false]
    have hs : ∃ s, 1 ≤ s ∧ s ≤ 8 ∧ 2 ^ (23 + s) ≤ n ∧ n < 2 ^ (24 + s) := by
      by_cases h1 : n < 2 ^ 25
      · exact ⟨1, by norm_num, by norm_num, by norm_num; omega, by norm_num; omega⟩
      by_cases h2 : n < 2 ^ 26
      · exact ⟨2, by norm_num, by norm_num, by norm_num at h1 ⊢; omega, by norm_num at h2 ⊢; omega⟩
      by_cases h3 : n < 2 ^ 27
      · exact ⟨3, by norm_num, by norm_num, by norm_num at h2 ⊢; omega, by norm_num at h3 ⊢; omega⟩
      by_cases h4 : n < 2 ^ 28
      · exact ⟨4, by norm_num, by norm_num, by norm_num at h3 ⊢; omega, by norm_num at h4 ⊢; omega⟩
      by_cases h5 : n < 2 ^ 29
      · exact ⟨5, by norm_num, by norm_num, by norm_num at h4 ⊢; omega, by norm_num at h5 ⊢; omega⟩
      by_cases h6 : n < 2 ^ 30
      · exact ⟨6, by norm_num, by norm_num, by norm_num at h5 ⊢; omega, by norm_num at h6 ⊢; omega⟩
      by_cases h7 : n < 2 ^ 31
      · exact ⟨7, by norm_num, by norm_num, by norm_num at h6 ⊢; omega, by norm_num at h7 ⊢; omega⟩
      · exact ⟨8, by norm_num, by norm_num, by norm_num at h7 ⊢; omega, by norm_num at hn ⊢; omega⟩
    obtain ⟨s, hs1, hs8, hlo, hhi⟩ := hs
    rw [excessBits_eq s 512 n (by omega) hlo hhi]
    interval_cases s <;> norm_num at hlo hhi ⊢ <;> split <;> omega

theorem uintToFloat_max : Utils.uintToFloat 4294967295 = 4294967296 := by decide

theorem RandomFloat_value (seed : Nat) :
    (Utils.RandomFloat (F := F) seed).1 =
      ((Utils.uintToFloat (Utils.PCG_Hash seed) : Nat) : F) / 4294967296 := by
  unfold Utils.RandomFloat
  simp only [uintToFloat_max]
  norm_num

section Floor

variable [FloorRing F]

theorem pixelIndex_eq {w h x y : Nat} (hwh : w * h < 2 ^ 32) (hx : x < w) (hy : y < h) :
    pixelIndex w x y = x + y * w ∧ x + y * w < w * h := by
  have h1 : x + y * w < w * h := by
    calc x + y * w < w + y * w := by omega
      _ = (y + 1) * w := by ring
      _ ≤ h * w := Nat.mul_le_mul_right w hy
      _ = w * h := by ring
  have h2 : y * w < 2 ^ 32 := by omega
  refine ⟨?_, h1⟩
  unfold pixelIndex
  rw [Nat.mod_eq_of_lt h2, Nat.mod_eq_of_lt (by omega)]

theorem RenderLoop_eq_PixelFold (pp : Nat → Nat → Vec4 F) (w k : Nat) (ys xs : List Nat)
    (bufs : List (Vec4 F) × List Nat) :
    RenderLoop pp w k ys xs bufs = PixelFold pp w k (pixelsOf ys xs) bufs := by
  unfold RenderLoop PixelFold pixelsOf
  induction ys generalizing bufs with
  | nil => rfl
  | cons y ys ih =>
    rw [List.foldl_cons, ih, List.flatMap_cons, List.foldl_append, List.foldl_map]

theorem PixelFold_length (pp : Nat → Nat → Vec4 F) (w k : Nat) (ps : List (Nat × Nat))
    (bufs : List (Vec4 F) × List Nat) :
    (PixelFold pp w k ps bufs).1.length = bufs.1.length ∧
      (PixelFold pp w k ps bufs).2.length = bufs.2.length := by
  unfold PixelFold
  induction ps generalizing bufs with
  | nil => simp
  | cons p ps ih =>
    rw [List.foldl_cons]
    obtain ⟨h1, h2⟩ := ih (RenderPixel pp w k bufs p.1 p.2)
    rw [h1, h2]
    simp [RenderPixel]

theorem PixelFold_untouched (pp : Nat → Nat → Vec4 F) (w k : Nat) (ps : List (Nat × Nat))
    (bufs : List (Vec4 F) × List Nat) (i : Nat)
    (hi : ∀ p ∈ ps, pixelIndex w p.1 p.2 ≠ i) :
    (PixelFold pp w k ps bufs).1[i]? = bufs.1[i]? ∧
      (PixelFold pp w k ps bufs).2[i]? = bufs.2[i]? := by
  unfold PixelFold
  induction ps generalizing bufs with
  | nil => simp
  | cons p ps ih =>
    rw [List.foldl_cons]
    obtain ⟨h1, h2⟩ := ih (RenderPixel pp w k bufs p.1 p.2)
      (fun q hq => hi q (List.mem_cons_of_mem _ hq))
    have hp := hi p (List.mem_cons_self _ _)
    rw [h1, h2]
    simp [RenderPixel, List.getElem?_set, hp]

theorem PixelFold_touched (pp : Nat → Nat → Vec4 F) (w k : Nat) (ps : List (Nat × Nat))
    (hnd : (ps.map (fun p => pixelIndex w p.1 p.2)).Nodup)
    (bufs : List (Vec4 F) × List Nat) (p : Nat × Nat) (hp : p ∈ ps)
    (h1 : pixelIndex w p.1 p.2 < bufs.1.length) (h2 : pixelIndex w p.1 p.2 < bufs.2.length) :
    (PixelFold pp w k ps bufs).1[pixelIndex w p.1 p.2]? =
        some (Vec4.add (bufs.1.getD (pixelIndex w p.1 p.2) Vec4.zero) (pp p.1 p.2)) ∧
      (PixelFold pp w k ps bufs).2[pixelIndex w p.1 p.2]? =
        some (Utils.ConvertToRGBA (Vec4.clamp01 (Vec4.divScalar
          (Vec4.add (bufs.1.getD (pixelIndex w p.1 p.2) Vec4.zero) (pp p.1 p.2)) (k : F)))) := by
  induction ps generalizing bufs with
  | nil => simp at hp
  | cons q ps ih =>
    have hnd' : pixelIndex w q.1 q.2 ∉ ps.map (fun p => pixelIndex w p.1 p.2) ∧
        (ps.map (fun p => pixelIndex w p.1 p.2)).Nodup := by
      rw [List.map_cons] at hnd
      exact List.nodup_cons.mp hnd
    have hstep : PixelFold pp w k (q :: ps) bufs =
        PixelFold pp w k ps (RenderPixel pp w k bufs q.1 q.2) := rfl
    rw [hstep]
    rcases List.mem_cons.mp hp with hpq | hpps
    · subst hpq
      have hun := PixelFold_untouched pp w k ps (RenderPixel pp w k bufs p.1 p.2)
        (pixelIndex w p.1 p.2) (by
          intro r hr heq
          exact hnd'.1 (by
            rw [← heq]
            exact List.mem_map_of_mem (fun p => pixelIndex w p.1 p.2) hr))
      rw [hun.1, hun.2]
      simp [RenderPixel, List.getElem?_set, h1, h2, List.getD_eq_getElem?_getD]
    · have hne : pixelIndex w q.1 q.2 ≠ pixelIndex w p.1 p.2 := by
        intro heq
        exact hnd'.1 (by
          rw [heq]
          exact List.mem_map_of_mem (fun p => pixelIndex w p.1 p.2) hpps)
      have := ih hnd'.2 (RenderPixel pp w k bufs q.1 q.2) hpps
        (by simpa [RenderPixel] using h1) (by simpa [RenderPixel] using h2)
      rw [this.1, this.2]
      simp [RenderPixel, List.getD_eq_getElem?_getD, List.getElem?_set, hne]

theorem map_pixelIndex_pixelsOf {w h : Nat} (hwh : w * h < 2 ^ 32) :
    (pixelsOf (List.range h) (List.range w)).map (fun p => pixelIndex w p.1 p.2) =
      List.range (w * h) := by
  have key : ∀ n, n ≤ h →
      (pixelsOf (List.range n) (List.range w)).map (fun p => pixelIndex w p.1 p.2) =
        List.range (w * n) := by
    intro n
    induction n with
    | zero => intro _; simp [pixelsOf]
    | succ n ih =>
      intro hn
      have ih' := ih (by omega)
      unfold pixelsOf at ih' ⊢
      rw [List.range_succ, List.flatMap_append, List.map_append, ih']
      rw [Nat.mul_succ, List.range_add]
      congr 1
      simp only [List.flatMap_cons, List.flatMap_nil, List.append_nil, List.map_map]
      apply List.map_congr_left
      intro x hx
      have hx' : x < w := List.mem_range.mp hx
      have := (pixelIndex_eq hwh hx' (show n < h by omega)).1
      simp only [Function.comp]
      rw [this]; ring
  exact key h (le_refl h)

theorem mem_pixelsOf {w h x y : Nat} (hx : x < w) (hy : y < h) :
    (x, y) ∈ pixelsOf (List.range h) (List.range w) := by
  unfold pixelsOf
  simp only [List.mem_flatMap, List.mem_map, List.mem_range]
  exact ⟨y, hy, x, hx, rfl⟩

/-- One call of `Render` on a sized renderer. -/
theorem Render_sized (sqrt : F → F) (fr : Frame F) (s : RendererState F) (w h : Nat)
    (hs : Sized s w h) :
    ∃ s', Render sqrt fr s = some s' ∧ Sized s' w h ∧ s'.m_Settings = s.m_Settings ∧
      s'.m_FrameIndex =
        (if s.m_Settings.Accumulate then (s.m_FrameIndex + 1) % 2 ^ 32 else 1) ∧
      ∀ x y, x < w → y < h →
        s'.m_AccumulationData.getD (x + y * w) Vec4.zero =
            Vec4.add
              (if s.m_FrameIndex = 1 then Vec4.zero
                else s.m_AccumulationData.getD (x + y * w) Vec4.zero)
              (PerPixel sqrt s.m_Settings fr.scene fr.camera (fr.slow x y) w s.m_FrameIndex x y) ∧
          s'.m_ImageData.getD (x + y * w) 0 =
            Utils.ConvertToRGBA (Vec4.clamp01 (Vec4.divScalar
              (Vec4.add
                (if s.m_FrameIndex = 1 then Vec4.zero
                  else s.m_AccumulationData.getD (x + y * w) Vec4.zero)
                (PerPixel sqrt s.m_Settings fr.scene fr.camera (fr.slow x y) w s.m_FrameIndex
                  x y))
              (s.m_FrameIndex : F))) := by
  obtain ⟨himg, hwh, hlenI, hlenA, hxs, hys⟩ := hs
  set pp := fun x y =>
    PerPixel sqrt s.m_Settings fr.scene fr.camera (fr.slow x y) w s.m_FrameIndex x y with hpp
  set acc0 := (if s.m_FrameIndex = 1 then
      memsetZero ((w * h) % 2 ^ 32) s.m_AccumulationData else s.m_AccumulationData) with hacc0
  have hacc0len : acc0.length = w * h := by
    rw [hacc0]; split
    · rw [memsetZero_length, hlenA]
    · exact hlenA
  have hacc0get : ∀ i, acc0.getD i Vec4.zero =
      (if s.m_FrameIndex = 1 then Vec4.zero else s.m_AccumulationData.getD i Vec4.zero) := by
    intro i
    rw [hacc0]; split
    · rw [Nat.mod_eq_of_lt hwh, ← hlenA, memsetZero_getD]
    · rfl
  set bufs := RenderLoop pp w s.m_FrameIndex (List.range h) (List.range w)
    (acc0, s.m_ImageData) with hbufs
  have hR : Render sqrt fr s = some { s with
      m_AccumulationData := bufs.1
      m_ImageData := bufs.2
      m_FrameIndex := if s.m_Settings.Accumulate then (s.m_FrameIndex + 1) % 2 ^ 32 else 1 } := by
    simp only [Render, himg, hxs, hys]
  have hfold := RenderLoop_eq_PixelFold pp w s.m_FrameIndex (List.range h) (List.range w)
    (acc0, s.m_ImageData)
  have hlen := PixelFold_length pp w s.m_FrameIndex (pixelsOf (List.range h) (List.range w))
    (acc0, s.m_ImageData)
  rw [← hfold, ← hbufs] at hlen
  refine ⟨_, hR, ⟨himg, hwh, ?_, ?_, hxs, hys⟩, rfl, rfl, ?_⟩
  · show bufs.2.length = w * h
    rw [hlen.2]; exact hlenI
  · show bufs.1.length = w * h
    rw [hlen.1]; exact hacc0len
  · intro x y hx hy
    obtain ⟨hidx, hlt⟩ := pixelIndex_eq hwh hx hy
    have hnd : ((pixelsOf (List.range h) (List.range w)).map
        (fun p => pixelIndex w p.1 p.2)).Nodup := by
      rw [map_pixelIndex_pixelsOf hwh]; exact List.nodup_range _
    have ht := PixelFold_touched pp w s.m_FrameIndex (pixelsOf (List.range h) (List.range w))
      hnd (acc0, s.m_ImageData) (x, y) (mem_pixelsOf hx hy)
      (by simp only [hidx]; rw [hacc0len]; exact hlt)
      (by simp only [hidx]; rw [hlenI]; exact hlt)
    rw [← hfold, ← hbufs] at ht
    simp only [hidx, hacc0get] at ht
    show bufs.1.getD (x + y * w) Vec4.zero = _ ∧ bufs.2.getD (x + y * w) 0 = _
    refine ⟨?_, ?_⟩
    · rw [List.getD_eq_getElem?_getD bufs.1, ht.1]; rfl
    · rw [List.getD_eq_getElem?_getD bufs.2, ht.2]; rfl

theorem RenderAll_append (sqrt : F → F) (a b : List (Frame F)) (s : RendererState F) :
    RenderAll sqrt (a ++ b) s = (RenderAll sqrt a s).bind (RenderAll sqrt b) := by
  induction a generalizing s with
  | nil => simp [RenderAll]
  | cons fr a ih =>
    simp only [List.cons_append, RenderAll]
    cases Render sqrt fr s with
    | none => simp
    | some s1 => simp [ih]

theorem RenderAll_singleton (sqrt : F → F) (fr : Frame F) (s : RendererState F) :
    RenderAll sqrt [fr] s = Render sqrt fr s := by
  simp only [RenderAll]
  cases Render sqrt fr s <;> simp [RenderAll]

/-- Accumulating renders starting at frame counter 1, fewer than `2^32` of them. -/
theorem RenderAll_accumulate (sqrt : F → F) (s0 : RendererState F) (w h : Nat)
    (hs : Sized s0 w h) (hk : s0.m_FrameIndex = 1) (hacc : s0.m_Settings.Accumulate = true)
    (frames : List (Frame F)) (hK : frames.length < 2 ^ 32) :
    ∃ s', RenderAll sqrt frames s0 = some s' ∧ Sized s' w h ∧
      s'.m_Settings = s0.m_Settings ∧ s'.m_FrameIndex = (1 + frames.length) % 2 ^ 32 ∧
      (frames ≠ [] → ∀ x y, x < w → y < h →
        s'.m_AccumulationData.getD (x + y * w) Vec4.zero =
            sumColors (frameRadiances sqrt s0.m_Settings w x y 1 frames) ∧
          s'.m_ImageData.getD (x + y * w) 0 =
            Utils.ConvertToRGBA (Vec4.clamp01 (Vec4.divScalar
              (sumColors (frameRadiances sqrt s0.m_Settings w x y 1 frames))
              ((frames.length : Nat) : F)))) := by
  induction frames using List.reverseRecOn with
  | nil => exact ⟨s0, rfl, hs, rfl, by simp [hk], fun h => absurd rfl h⟩
  | append_singleton init last ih =>
    have hlen : init.length + 1 < 2 ^ 32 := by simpa using hK
    obtain ⟨s1, hr1, hs1, hset1, hidx1, hcell1⟩ := ih (by omega)
    rw [Nat.mod_eq_of_lt (by omega)] at hidx1
    obtain ⟨s2, hr2, hs2, hset2, hidx2, hcell2⟩ := Render_sized sqrt last s1 w h hs1
    refine ⟨s2, ?_, hs2, hset2.trans hset1, ?_, ?_⟩
    · rw [RenderAll_append, hr1, Option.some_bind, RenderAll_singleton, hr2]
    · rw [hidx2, hset1, hacc, hidx1]
      simp only [if_true, List.length_append, List.length_singleton]
      congr 1
    · intro _ x y hx hy
      obtain ⟨ha, hi⟩ := hcell2 x y hx hy
      have hsum : Vec4.add
          (if s1.m_FrameIndex = 1 then Vec4.zero
            else s1.m_AccumulationData.getD (x + y * w) Vec4.zero)
          (PerPixel sqrt s1.m_Settings last.scene last.camera (last.slow x y) w s1.m_FrameIndex
            x y) = sumColors (frameRadiances sqrt s0.m_Settings w x y 1 (init ++ [last])) := by
        rw [frameRadiances_append, hset1, hidx1]
        unfold sumColors
        rw [List.foldl_append]
        simp only [frameRadiances, List.foldl_cons, List.foldl_nil]
        by_cases hinit : init = []
        · subst hinit
          simp [frameRadiances]
        · have hpos : 0 < init.length := List.length_pos.mpr hinit
          have hne : ¬ (1 + init.length = 1) := by omega
          rw [if_neg hne]
          rw [(hcell1 hinit x y hx hy).1]
          rfl
      rw [hsum] at ha hi
      refine ⟨ha, ?_⟩
      rw [hi, hidx1]
      have : (1 + init.length : Nat) = (init ++ [last]).length := by simp; omega
      rw [this]

/-- The frame counter after any number of accumulating renders. -/
theorem RenderAll_frameIndex (sqrt : F → F) (w h : Nat) (frames : List (Frame F))
    (s : RendererState F) (hs : Sized s w h) (hacc : s.m_Settings.Accumulate = true)
    (hk : s.m_FrameIndex < 2 ^ 32) :
    ∃ s', RenderAll sqrt frames s = some s' ∧ Sized s' w h ∧
      s'.m_Settings = s.m_Settings ∧
      s'.m_FrameIndex = (s.m_FrameIndex + frames.length) % 2 ^ 32 := by
  induction frames generalizing s with
  | nil =>
    refine ⟨s, rfl, hs, rfl, ?_⟩
    rw [List.length_nil, Nat.add_zero, Nat.mod_eq_of_lt hk]
  | cons fr rest ih =>
    obtain ⟨s1, hr1, hs1, hset1, hidx1, _⟩ := Render_sized sqrt fr s w h hs
    rw [hacc] at hidx1
    simp only [if_true] at hidx1
    obtain ⟨s2, hr2, hs2, hset2, hidx2⟩ := ih s1 hs1 (by rw [hset1]; exact hacc)
      (by rw [hidx1]; exact Nat.mod_lt _ (by norm_num))
    refine ⟨s2, ?_, hs2, hset2.trans hset1, ?_⟩
    · simp only [RenderAll, hr1, Option.some_bind, hr2]
    · rw [hidx2, hidx1, List.length_cons]
      omega

theorem toUInt8_eq (v : F) (n : Nat) (h0 : (n : F) ≤ v) (h1 : v < (n : F) + 1) (hn : n < 256) :
    Utils.toUInt8 v = n := by
  have hv : 0 ≤ v := le_trans (Nat.cast_nonneg n) h0
  have hfl : Int.floor v = (n : Int) := by
    rw [Int.floor_eq_iff]
    exact ⟨by exact_mod_cast h0, by exact_mod_cast h1⟩
  unfold Utils.toUInt8
  rw [if_pos hv, hfl]
  omega

theorem ConvertToRGBA_sky :
    Utils.ConvertToRGBA (⟨6 / 10, 7 / 10, 9 / 10, 1⟩ : Vec4 F) = 4293243545 := by
  have hr : Utils.toUInt8 ((6 / 10 : F) * 255) = 153 :=
    toUInt8_eq _ 153 (by norm_num) (by norm_num) (by norm_num)
  have hg : Utils.toUInt8 ((7 / 10 : F) * 255) = 178 :=
    toUInt8_eq _ 178 (by norm_num) (by norm_num) (by norm_num)
  have hb : Utils.toUInt8 ((9 / 10 : F) * 255) = 229 :=
    toUInt8_eq _ 229 (by norm_num) (by norm_num) (by norm_num)
  have ha : Utils.toUInt8 ((1 : F) * 255) = 255 :=
    toUInt8_eq _ 255 (by norm_num) (by norm_num) (by norm_num)
  simp only [Utils.ConvertToRGBA, hr, hg, hb, ha]
  decide

theorem ConvertToRGBA_black :
    Utils.ConvertToRGBA (⟨0, 0, 0, 1⟩ : Vec4 F) = 4278190080 := by
  have hr : Utils.toUInt8 ((0 : F) * 255) = 0 :=
    toUInt8_eq _ 0 (by norm_num) (by norm_num) (by norm_num)
  have ha : Utils.toUInt8 ((1 : F) * 255) = 255 :=
    toUInt8_eq _ 255 (by norm_num) (by norm_num) (by norm_num)
  simp only [Utils.ConvertToRGBA, hr, ha]
  decide

theorem ConvertToRGBA_grey :
    Utils.ConvertToRGBA (⟨1 / 2, 1 / 2, 1 / 2, 1⟩ : Vec4 F) = 4286545791 := by
  have hr : Utils.toUInt8 ((1 / 2 : F) * 255) = 127 :=
    toUInt8_eq _ 127 (by norm_num) (by norm_num) (by norm_num)
  have ha : Utils.toUInt8 ((1 : F) * 255) = 255 :=
    toUInt8_eq _ 255 (by norm_num) (by norm_num) (by norm_num)
  simp only [Utils.ConvertToRGBA, hr, ha]
  decide

theorem pixelIndex_lt (w x y : Nat) : pixelIndex w x y < 2 ^ 32 :=
  Nat.mod_lt _ (by norm_num)

theorem OnResize_frameIndex {G : Type} (freshImage : Nat → Nat) (freshAccum : Nat → Vec4 G)
    (w h : Nat) (s : RendererState G) :
    (OnResize freshImage freshAccum w h s).m_FrameIndex = s.m_FrameIndex := by
  unfold OnResize
  cases s.m_FinalImage with
  | none => rfl
  | some img =>
    simp only
    split <;> rfl

theorem Render_frameIndex (sqrt : F → F) (fr : Frame F) (s s' : RendererState F)
    (h : Render sqrt fr s = some s') :
    s'.m_FrameIndex = (if s.m_Settings.Accumulate then (s.m_FrameIndex + 1) % 2 ^ 32 else 1) := by
  unfold Render at h
  cases himg : s.m_FinalImage with
  | none => simp [himg] at h
  | some img =>
    simp only [himg, Option.some.injEq] at h
    rw [← h]

theorem Reachable_frameIndex_lt (sqrt : F → F) (s : RendererState F) (h : Reachable sqrt s) :
    s.m_FrameIndex < 2 ^ 32 := by
  induction h with
  | init settings => norm_num [initialState]
  | resize s fi fa w h _ ih => rw [OnResize_frameIndex]; exact ih
  | render s s' fr _ hr ih =>
    rw [Render_frameIndex sqrt fr s s' hr]
    split
    · exact Nat.mod_lt _ (by norm_num)
    · norm_num
  | configure s settings _ ih => exact ih

theorem Reachable_RenderAll (sqrt : F → F) (frames : List (Frame F)) (s s' : RendererState F)
    (hs : Reachable sqrt s) (h : RenderAll sqrt frames s = some s') : Reachable sqrt s' := by
  induction frames generalizing s with
  | nil =>
    simp only [RenderAll, Option.some.injEq] at h
    rw [← h]; exact hs
  | cons fr rest ih =>
    simp only [RenderAll] at h
    cases hr : Render sqrt fr s with
    | none => simp [hr] at h
    | some s1 =>
      rw [hr, Option.some_bind] at h
      exact ih s1 (Reachable.render s s1 fr hs hr) h

theorem toUInt8_unit (c : F) (h0 : 0 ≤ c) (h1 : c ≤ 1) :
    ((Utils.toUInt8 (c * 255) : Nat) : Int) = Int.floor (255 * c) ∧
      Utils.toUInt8 (c * 255) < 256 := by
  have hv0 : 0 ≤ c * 255 := by positivity
  have hfl0 : 0 ≤ Int.floor (c * 255) := Int.floor_nonneg.mpr hv0
  have hfl1 : Int.floor (c * 255) < 256 := by
    rw [Int.floor_lt]
    push_cast
    linarith
  have hcomm : (255 : F) * c = c * 255 := mul_comm _ _
  unfold Utils.toUInt8
  rw [if_pos hv0, hcomm]
  omega

/-- The packing of four bytes by shifts and ors is their positional sum. -/
theorem pack_bytes (r g b a : Nat) (hr : r < 256) (hg : g < 256) (hb : b < 256) (ha : a < 256) :
    (0 ||| (a <<< 24) ||| (b <<< 16) ||| (g <<< 8) ||| r) % 2 ^ 32 =
      a * 2 ^ 24 + b * 2 ^ 16 + g * 2 ^ 8 + r := by
  have e1 : 0 ||| (a <<< 24) = 2 ^ 24 * a := by
    rw [Nat.zero_or, Nat.shiftLeft_eq, Nat.mul_comm]
  have e2 : 2 ^ 24 * a ||| (b <<< 16) = 2 ^ 16 * (2 ^ 8 * a + b) := by
    rw [Nat.shiftLeft_eq, ← Nat.mul_add_lt_is_or (by omega)]
    ring
  have e3 : 2 ^ 16 * (2 ^ 8 * a + b) ||| (g <<< 8) = 2 ^ 8 * (2 ^ 16 * a + 2 ^ 8 * b + g) := by
    rw [Nat.shiftLeft_eq, ← Nat.mul_add_lt_is_or (by omega)]
    ring
  have e4 : 2 ^ 8 * (2 ^ 16 * a + 2 ^ 8 * b + g) ||| r =
      2 ^ 8 * (2 ^ 16 * a + 2 ^ 8 * b + g) + r :=
    (Nat.mul_add_lt_is_or (by omega) _).symm
  rw [e1, e2, e3, e4]
  omega

end Floor

/-! ## `Render` over any cell arithmetic -/

theorem memsetWith_length {G : Type} (A : CellArith G) (n : Nat) (buf : List (Vec4 G)) :
    (memsetWith A n buf).length = buf.length := by
  unfold memsetWith
  simp only [List.length_append, List.length_replicate, List.length_drop]
  omega

theorem memsetWith_getD {G : Type} (A : CellArith G) (buf : List (Vec4 G)) (i : Nat) :
    (memsetWith A buf.length buf).getD i A.zero = A.zero := by
  unfold memsetWith
  simp only [Nat.min_self, List.drop_length, List.append_nil, List.getD_eq_getElem?_getD,
    List.getElem?_replicate]
  split <;> rfl


theorem radiancesWith_append {G : Type} (st : Settings) (w x y : Nat)
    (a b : List (Settings → Nat → Nat → Nat → Nat → Vec4 G)) (k : Nat) :
    radiancesWith st w x y k (a ++ b) =
      radiancesWith st w x y k a ++ radiancesWith st w x y (k + a.length) b := by
  induction a generalizing k with
  | nil => simp [radiancesWith]
  | cons pp a ih =>
    have hk : k + 1 + a.length = k + (a.length + 1) := by omega
    show _ :: radiancesWith st w x y (k + 1) (a ++ b) = _
    rw [ih (k + 1), hk]
    rfl

theorem RenderLoopWith_eq_PixelFoldWith {G : Type} (A : CellArith G)
    (pp : Nat → Nat → Vec4 G) (w k : Nat) (ys xs : List Nat)
    (bufs : List (Vec4 G) × List Nat) :
    RenderLoopWith A pp w k ys xs bufs = PixelFoldWith A pp w k (pixelsOf ys xs) bufs := by
  unfold RenderLoopWith PixelFoldWith pixelsOf
  induction ys generalizing bufs with
  | nil => rfl
  | cons y ys ih =>
    rw [List.foldl_cons, ih, List.flatMap_cons, List.foldl_append, List.foldl_map]

theorem PixelFoldWith_length {G : Type} (A : CellArith G) (pp : Nat → Nat → Vec4 G)
    (w k : Nat) (ps : List (Nat × Nat))
    (bufs : List (Vec4 G) × List Nat) :
    (PixelFoldWith A pp w k ps bufs).1.length = bufs.1.length ∧
      (PixelFoldWith A pp w k ps bufs).2.length = bufs.2.length := by
  unfold PixelFoldWith
  induction ps generalizing bufs with
  | nil => simp
  | cons p ps ih =>
    rw [List.foldl_cons]
    obtain ⟨h1, h2⟩ := ih (RenderPixelWith A pp w k bufs p.1 p.2)
    rw [h1, h2]
    simp [RenderPixelWith]

theorem PixelFoldWith_untouched {G : Type} (A : CellArith G) (pp : Nat → Nat → Vec4 G)
    (w k : Nat) (ps : List (Nat × Nat))
    (bufs : List (Vec4 G) × List Nat) (i : Nat)
    (hi : ∀ p ∈ ps, pixelIndex w p.1 p.2 ≠ i) :
    (PixelFoldWith A pp w k ps bufs).1[i]? = bufs.1[i]? ∧
      (PixelFoldWith A pp w k ps bufs).2[i]? = bufs.2[i]? := by
  unfold PixelFoldWith
  induction ps generalizing bufs with
  | nil => simp
  | cons p ps ih =>
    rw [List.foldl_cons]
    obtain ⟨h1, h2⟩ := ih (RenderPixelWith A pp w k bufs p.1 p.2)
      (fun q hq => hi q (List.mem_cons_of_mem _ hq))
    have hp := hi p (List.mem_cons_self _ _)
    rw [h1, h2]
    simp [RenderPixelWith, List.getElem?_set, hp]

theorem PixelFoldWith_touched {G : Type} (A : CellArith G) (pp : Nat → Nat → Vec4 G)
    (w k : Nat) (ps : List (Nat × Nat))
    (hnd : (ps.map (fun p => pixelIndex w p.1 p.2)).Nodup)
    (bufs : List (Vec4 G) × List Nat) (p : Nat × Nat) (hp : p ∈ ps)
    (h1 : pixelIndex w p.1 p.2 < bufs.1.length) (h2 : pixelIndex w p.1 p.2 < bufs.2.length) :
    (PixelFoldWith A pp w k ps bufs).1[pixelIndex w p.1 p.2]? =
        some (A.add (bufs.1.getD (pixelIndex w p.1 p.2) A.zero) (pp p.1 p.2)) ∧
      (PixelFoldWith A pp w k ps bufs).2[pixelIndex w p.1 p.2]? =
        some (A.toRGBA (A.clamp (A.divFrame
          (A.add (bufs.1.getD (pixelIndex w p.1 p.2) A.zero) (pp p.1 p.2)) k))) := by
  induction ps generalizing bufs with
  | nil => simp at hp
  | cons q ps ih =>
    have hnd' : pixelIndex w q.1 q.2 ∉ ps.map (fun p => pixelIndex w p.1 p.2) ∧
        (ps.map (fun p => pixelIndex w p.1 p.2)).Nodup := by
      rw [List.map_cons] at hnd
      exact List.nodup_cons.mp hnd
    have hstep : PixelFoldWith A pp w k (q :: ps) bufs =
        PixelFoldWith A pp w k ps (RenderPixelWith A pp w k bufs q.1 q.2) := rfl
    rw [hstep]
    rcases List.mem_cons.mp hp with hpq | hpps
    · subst hpq
      have hun := PixelFoldWith_untouched A pp w k ps (RenderPixelWith A pp w k bufs p.1 p.2)
        (pixelIndex w p.1 p.2) (by
          intro r hr heq
          exact hnd'.1 (by
            rw [← heq]
            exact List.mem_map_of_mem (fun p => pixelIndex w p.1 p.2) hr))
      rw [hun.1, hun.2]
      simp [RenderPixelWith, List.getElem?_set, h1, h2, List.getD_eq_getElem?_getD]
    · have hne : pixelIndex w q.1 q.2 ≠ pixelIndex w p.1 p.2 := by
        intro heq
        exact hnd'.1 (by
          rw [heq]
          exact List.mem_map_of_mem (fun p => pixelIndex w p.1 p.2) hpps)
      have := ih hnd'.2 (RenderPixelWith A pp w k bufs q.1 q.2) hpps
        (by simpa [RenderPixelWith] using h1) (by simpa [RenderPixelWith] using h2)
      rw [this.1, this.2]
      simp [RenderPixelWith, List.getD_eq_getElem?_getD, List.getElem?_set, hne]


/-- One call of `Render` on a sized renderer. -/
theorem RenderWith_sized {G : Type} (A : CellArith G)
    (pp : Settings → Nat → Nat → Nat → Nat → Vec4 G) (s : RendererState G) (w h : Nat)
    (hs : Sized s w h) :
    ∃ s', RenderWith A pp s = some s' ∧ Sized s' w h ∧ s'.m_Settings = s.m_Settings ∧
      s'.m_FrameIndex =
        (if s.m_Settings.Accumulate then (s.m_FrameIndex + 1) % 2 ^ 32 else 1) ∧
      ∀ x y, x < w → y < h →
        s'.m_AccumulationData.getD (x + y * w) A.zero =
            A.add
              (if s.m_FrameIndex = 1 then A.zero
                else s.m_AccumulationData.getD (x + y * w) A.zero)
              (pp s.m_Settings w s.m_FrameIndex x y) ∧
          s'.m_ImageData.getD (x + y * w) 0 =
            A.toRGBA (A.clamp (A.divFrame
              (A.add
                (if s.m_FrameIndex = 1 then A.zero
                  else s.m_AccumulationData.getD (x + y * w) A.zero)
                (pp s.m_Settings w s.m_FrameIndex x y))
              s.m_FrameIndex)) := by
  obtain ⟨himg, hwh, hlenI, hlenA, hxs, hys⟩ := hs
  set ppx := pp s.m_Settings w s.m_FrameIndex with hpp
  set acc0 := (if s.m_FrameIndex = 1 then
      memsetWith A ((w * h) % 2 ^ 32) s.m_AccumulationData else s.m_AccumulationData) with hacc0
  have hacc0len : acc0.length = w * h := by
    rw [hacc0]; split
    · rw [memsetWith_length A, hlenA]
    · exact hlenA
  have hacc0get : ∀ i, acc0.getD i A.zero =
      (if s.m_FrameIndex = 1 then A.zero else s.m_AccumulationData.getD i A.zero) := by
    intro i
    rw [hacc0]; split
    · rw [Nat.mod_eq_of_lt hwh, ← hlenA, memsetWith_getD A]
    · rfl
  set bufs := RenderLoopWith A ppx w s.m_FrameIndex (List.range h) (List.range w)
    (acc0, s.m_ImageData) with hbufs
  have hR : RenderWith A pp s = some { s with
      m_AccumulationData := bufs.1
      m_ImageData := bufs.2
      m_FrameIndex := if s.m_Settings.Accumulate then (s.m_FrameIndex + 1) % 2 ^ 32 else 1 } := by
    simp only [RenderWith, himg, hxs, hys]
  have hfold := RenderLoopWith_eq_PixelFoldWith A ppx w s.m_FrameIndex (List.range h)
    (List.range w) (acc0, s.m_ImageData)
  have hlen := PixelFoldWith_length A ppx w s.m_FrameIndex
    (pixelsOf (List.range h) (List.range w)) (acc0, s.m_ImageData)
  rw [← hfold, ← hbufs] at hlen
  refine ⟨_, hR, ⟨himg, hwh, ?_, ?_, hxs, hys⟩, rfl, rfl, ?_⟩
  · show bufs.2.length = w * h
    rw [hlen.2]; exact hlenI
  · show bufs.1.length = w * h
    rw [hlen.1]; exact hacc0len
  · intro x y hx hy
    obtain ⟨hidx, hlt⟩ := pixelIndex_eq hwh hx hy
    have hnd : ((pixelsOf (List.range h) (List.range w)).map
        (fun p => pixelIndex w p.1 p.2)).Nodup := by
      rw [map_pixelIndex_pixelsOf hwh]; exact List.nodup_range _
    have ht := PixelFoldWith_touched A ppx w s.m_FrameIndex
      (pixelsOf (List.range h) (List.range w)) hnd (acc0, s.m_ImageData) (x, y) (mem_pixelsOf hx hy)
      (by simp only [hidx]; rw [hacc0len]; exact hlt)
      (by simp only [hidx]; rw [hlenI]; exact hlt)
    rw [← hfold, ← hbufs] at ht
    simp only [hidx, hacc0get] at ht
    show bufs.1.getD (x + y * w) A.zero = _ ∧ bufs.2.getD (x + y * w) 0 = _
    refine ⟨?_, ?_⟩
    · rw [List.getD_eq_getElem?_getD bufs.1, ht.1]; rfl
    · rw [List.getD_eq_getElem?_getD bufs.2, ht.2]; rfl

theorem RenderAllWith_append {G : Type} (A : CellArith G)
    (a b : List (Settings → Nat → Nat → Nat → Nat → Vec4 G)) (s : RendererState G) :
    RenderAllWith A (a ++ b) s = (RenderAllWith A a s).bind (RenderAllWith A b) := by
  induction a generalizing s with
  | nil => simp [RenderAllWith]
  | cons pp a ih =>
    simp only [List.cons_append, RenderAllWith]
    cases RenderWith A pp s with
    | none => simp
    | some s1 => simp [ih]

theorem RenderAllWith_singleton {G : Type} (A : CellArith G)
    (pp : Settings → Nat → Nat → Nat → Nat → Vec4 G) (s : RendererState G) :
    RenderAllWith A [pp] s = RenderWith A pp s := by
  simp only [RenderAllWith]
  cases RenderWith A pp s <;> simp [RenderAllWith]

/-- Accumulating renders starting at frame counter 1, fewer than `2^32` of them. -/
theorem RenderAllWith_accumulate {G : Type} (A : CellArith G) (s0 : RendererState G) (w h : Nat)
    (hs : Sized s0 w h) (hk : s0.m_FrameIndex = 1) (hacc : s0.m_Settings.Accumulate = true)
    (frames : List (Settings → Nat → Nat → Nat → Nat → Vec4 G)) (hK : frames.length < 2 ^ 32) :
    ∃ s', RenderAllWith A frames s0 = some s' ∧ Sized s' w h ∧
      s'.m_Settings = s0.m_Settings ∧ s'.m_FrameIndex = (1 + frames.length) % 2 ^ 32 ∧
      (frames ≠ [] → ∀ x y, x < w → y < h →
        s'.m_AccumulationData.getD (x + y * w) A.zero =
            (radiancesWith s0.m_Settings w x y 1 frames).foldl A.add A.zero ∧
          s'.m_ImageData.getD (x + y * w) 0 =
            A.toRGBA (A.clamp (A.divFrame
              ((radiancesWith s0.m_Settings w x y 1 frames).foldl A.add A.zero)
              frames.length))) := by
  induction frames using List.reverseRecOn with
  | nil => exact ⟨s0, rfl, hs, rfl, by simp [hk], fun h => absurd rfl h⟩
  | append_singleton init last ih =>
    have hlen : init.length + 1 < 2 ^ 32 := by simpa using hK
    obtain ⟨s1, hr1, hs1, hset1, hidx1, hcell1⟩ := ih (by omega)
    rw [Nat.mod_eq_of_lt (by omega)] at hidx1
    obtain ⟨s2, hr2, hs2, hset2, hidx2, hcell2⟩ := RenderWith_sized A last s1 w h hs1
    refine ⟨s2, ?_, hs2, hset2.trans hset1, ?_, ?_⟩
    · rw [RenderAllWith_append A, hr1, Option.some_bind, RenderAllWith_singleton A, hr2]
    · rw [hidx2, hset1, hacc, hidx1]
      simp only [if_true, List.length_append, List.length_singleton]
      congr 1
    · intro _ x y hx hy
      obtain ⟨ha, hi⟩ := hcell2 x y hx hy
      have hsum : A.add
          (if s1.m_FrameIndex = 1 then A.zero
            else s1.m_AccumulationData.getD (x + y * w) A.zero)
          (last s1.m_Settings w s1.m_FrameIndex x y) =
          (radiancesWith s0.m_Settings w x y 1 (init ++ [last])).foldl A.add A.zero := by
        rw [radiancesWith_append, hset1, hidx1]
        rw [List.foldl_append]
        simp only [radiancesWith, List.foldl_cons, List.foldl_nil]
        by_cases hinit : init = []
        · subst hinit
          simp [radiancesWith]
        · have hpos : 0 < init.length := List.length_pos.mpr hinit
          have hne : ¬ (1 + init.length = 1) := by omega
          rw [if_neg hne]
          rw [(hcell1 hinit x y hx hy).1]
      rw [hsum] at ha hi
      refine ⟨ha, ?_⟩
      rw [hi, hidx1]
      have : (1 + init.length : Nat) = (init ++ [last]).length := by simp; omega
      rw [this]

theorem RenderLoop_eq_RenderLoopWith [FloorRing F] (pp : Nat → Nat → Vec4 F) (w k : Nat)
    (ys xs : List Nat) (bufs : List (Vec4 F) × List Nat) :
    RenderLoop pp w k ys xs bufs = RenderLoopWith exactCells pp w k ys xs bufs := rfl

/-- The exact model of `Render` is `RenderWith` at the exact cell. -/
theorem Render_eq_RenderWith [FloorRing F] (sqrt : F → F) (fr : Frame F) (s : RendererState F) :
    Render sqrt fr s = RenderWith exactCells (perPixelOf sqrt fr) s := by
  unfold Render RenderWith
  cases s.m_FinalImage <;> rfl

theorem RenderAll_eq_RenderAllWith [FloorRing F] (sqrt : F → F) (frames : List (Frame F))
    (s : RendererState F) :
    RenderAll sqrt frames s = RenderAllWith exactCells (frames.map (perPixelOf sqrt)) s := by
  induction frames generalizing s with
  | nil => rfl
  | cons fr rest ih =>
    simp only [RenderAll, List.map_cons, RenderAllWith, Render_eq_RenderWith]
    cases RenderWith exactCells (perPixelOf sqrt fr) s with
    | none => rfl
    | some s1 => simp only [Option.some_bind, ih]

theorem frameRadiances_eq_radiancesWith (sqrt : F → F) (st : Settings) (w x y k : Nat)
    (frames : List (Frame F)) :
    frameRadiances sqrt st w x y k frames =
      radiancesWith st w x y k (frames.map (perPixelOf sqrt)) := by
  induction frames generalizing k with
  | nil => rfl
  | cons fr rest ih =>
    simp only [frameRadiances, List.map_cons, radiancesWith, ih]
    rfl

/-- Six accumulating renders of a scene without spheres, sky on, on a 1×1 image
in binary32: the pixel and the accumulation cell at the end. -/
theorem RenderAllWith_cells32_six :
    (RenderAllWith cells32 (List.replicate 6 F32.PerPixelNoSpheres)
        (onePixelState 1 ⟨0, 0, 0, 0⟩ ⟨true, true, false⟩)).map
        (fun s => (s.m_ImageData, s.m_AccumulationData)) =
      some ([4293243544], [⟨F32.dyadic 60397976 24, F32.dyadic 70464304 24,
        F32.dyadic 90596968 24, F32.dyadic 100663296 24⟩]) := by
  set_option maxRecDepth 100000 in decide

/-- The six radiances of that run, as binary32 values. -/
theorem radiancesWith_noSpheres_six :
    radiancesWith ⟨true, true, false⟩ 1 0 0 1 (List.replicate 6 F32.PerPixelNoSpheres) =
      List.replicate 6 ⟨F32.dyadic 10066330 24, F32.dyadic 11744051 24,
        F32.dyadic 15099494 24, F32.one⟩ := by
  set_option maxRecDepth 100000 in decide

/-- The exact sum of those six radiances. -/
theorem sumColors_noSpheres_six :
    sumColors ((radiancesWith ⟨true, true, false⟩ 1 0 0 1
        (List.replicate 6 F32.PerPixelNoSpheres)).map F32.toRat4) =
      (⟨60397980 / 2 ^ 24, 70464306 / 2 ^ 24, 90596964 / 2 ^ 24, 6⟩ : Vec4 ℚ) := by
  rw [radiancesWith_noSpheres_six]
  simp only [List.replicate, List.map, sumColors, List.foldl, Vec4.add, Vec4.zero, F32.toRat4,
    F32.toRat, F32.dyadic, F32.one]
  norm_num

/-- The formula of the claim on the exact sum of those six radiances. -/
theorem ConvertToRGBA_noSpheres_six :
    Utils.ConvertToRGBA (Vec4.clamp01 (Vec4.divScalar
      (⟨60397980 / 2 ^ 24, 70464306 / 2 ^ 24, 90596964 / 2 ^ 24, 6⟩ : Vec4 ℚ)
      ((6 : Nat) : ℚ))) = 4293243545 := by
  have hc : Vec4.clamp01 (Vec4.divScalar
      (⟨60397980 / 2 ^ 24, 70464306 / 2 ^ 24, 90596964 / 2 ^ 24, 6⟩ : Vec4 ℚ)
      ((6 : Nat) : ℚ)) = ⟨10066330 / 2 ^ 24, 11744051 / 2 ^ 24, 15099494 / 2 ^ 24, 1⟩ := by
    simp only [Vec4.divScalar, Vec4.clamp01, Vec4.clampScalar]
    norm_num
  rw [hc]
  have hr : Utils.toUInt8 ((10066330 / 2 ^ 24 : ℚ) * 255) = 153 :=
    toUInt8_eq _ 153 (by norm_num) (by norm_num) (by norm_num)
  have hg : Utils.toUInt8 ((11744051 / 2 ^ 24 : ℚ) * 255) = 178 :=
    toUInt8_eq _ 178 (by norm_num) (by norm_num) (by norm_num)
  have hb : Utils.toUInt8 ((15099494 / 2 ^ 24 : ℚ) * 255) = 229 :=
    toUInt8_eq _ 229 (by norm_num) (by norm_num) (by norm_num)
  have ha : Utils.toUInt8 ((1 : ℚ) * 255) = 255 :=
    toUInt8_eq _ 255 (by norm_num) (by norm_num) (by norm_num)
  simp only [Utils.ConvertToRGBA, hr, hg, hb, ha]
  decide

end Renderer

/-! ## The claims -/

/-- C1. When `TraceRay` reports a hit, the hit distance is the near root
`(-b - sqrt(disc)) / (2a)` of the reported sphere (whose discriminant is `>= 0`),
it is `> 0`, it is at most the near root of every sphere of the scene with
discriminant `>= 0` and near root `> 0`, and it is the same for every ordering
of the sphere list. -/
theorem TraceRay_reports_nearest_root (sqrt : F → F) (spheres : List (Sphere F)) (ray : Ray F)
    (h : Renderer.IsHit (Renderer.TraceRay sqrt spheres ray)) :
    (∃ (j : Nat) (s : Sphere F), spheres[j]? = some s ∧
        (Renderer.TraceRay sqrt spheres ray).ObjectIndex = (j : Int) ∧
        0 ≤ Renderer.discriminant ray s ∧
        (Renderer.TraceRay sqrt spheres ray).HitDistance = Renderer.nearRoot sqrt ray s) ∧
      0 < (Renderer.TraceRay sqrt spheres ray).HitDistance ∧
      (∀ s' ∈ spheres, 0 ≤ Renderer.discriminant ray s' → 0 < Renderer.nearRoot sqrt ray s' →
        (Renderer.TraceRay sqrt spheres ray).HitDistance ≤ Renderer.nearRoot sqrt ray s') ∧
      ∀ spheres' : List (Sphere F), spheres'.Perm spheres →
        Renderer.IsHit (Renderer.TraceRay sqrt spheres' ray) ∧
        (Renderer.TraceRay sqrt spheres' ray).HitDistance =
          (Renderer.TraceRay sqrt spheres ray).HitDistance := by
  obtain ⟨j, s, hj, hc, _, heq, hmin⟩ := Renderer.TraceRay_hit sqrt spheres ray h
  have hd : (Renderer.TraceRay sqrt spheres ray).HitDistance = Renderer.nearRoot sqrt ray s := by
    rw [heq]; rfl
  refine ⟨⟨j, s, hj, ?_, hc.1, hd⟩, ?_, ?_, ?_⟩
  · rw [heq]; rfl
  · rw [hd]; exact hc.2
  · intro s' hs' h1 h2
    rw [hd]
    exact hmin s' hs' ⟨h1, h2⟩
  · intro spheres' hp
    have he := Renderer.TraceRay_hitDistance_perm sqrt spheres spheres' ray hp
    refine ⟨?_, he⟩
    unfold Renderer.IsHit at h ⊢
    rw [he]
    exact h

/-- C1, at the scenario of the spec: camera at `(0,0,3)`, direction `(0,0,-1)`,
unit sphere at the origin, real arithmetic; the hit distance is `2`. -/
theorem TraceRay_reports_nearest_root_witness :
    Renderer.IsHit (Renderer.TraceRay Real.sqrt [Renderer.unitSphere] Renderer.centreRay) ∧
      (Renderer.TraceRay Real.sqrt [Renderer.unitSphere] Renderer.centreRay).HitDistance = 2 ∧
      0 < (Renderer.TraceRay Real.sqrt [Renderer.unitSphere] Renderer.centreRay).HitDistance :=
  ⟨(Renderer.TraceRay_unit_centreRay isSqrt_real).1,
    (Renderer.TraceRay_unit_centreRay isSqrt_real).2,
    (TraceRay_reports_nearest_root Real.sqrt [Renderer.unitSphere] Renderer.centreRay
      (Renderer.TraceRay_unit_centreRay isSqrt_real).1).2.1⟩

/-- C2, as the claim states it, fails: for the unit sphere at the origin and the
ray from `(0,0,3)` with direction `(0,0,-2^(-130))` the discriminant is `>= 0` and
the near root `2^131` is `> 0`, yet `TraceRay` returns hit distance `-1`, because
the near root is not below the initial bound `FLT_MAX`. -/
theorem TraceRay_miss_iff_no_candidate_counterexample :
    ¬ ((Renderer.TraceRay Real.sqrt [Renderer.unitSphere] Renderer.shortRay).HitDistance = -1 ↔
        ¬ ∃ s ∈ [(Renderer.unitSphere : Sphere ℝ)],
            0 ≤ Renderer.discriminant Renderer.shortRay s ∧
            0 < Renderer.nearRoot Real.sqrt Renderer.shortRay s) := by
  intro h
  have hm : (Renderer.TraceRay Real.sqrt [Renderer.unitSphere] Renderer.shortRay).HitDistance
      = -1 := by
    rw [Renderer.TraceRay_unit_shortRay isSqrt_real]; rfl
  exact h.mp hm ⟨Renderer.unitSphere, by simp,
    (Renderer.candidate_unit_shortRay isSqrt_real).1⟩

/-- C2, amended. `TraceRay` returns hit distance exactly `-1` if and only if no
sphere of the list has discriminant `>= 0` together with a near root `t` with
`0 < t < FLT_MAX`; in particular it returns `-1` for the empty scene. -/
theorem TraceRay_miss_iff_no_candidate_below_FLT_MAX (sqrt : F → F) (spheres : List (Sphere F))
    (ray : Ray F) :
    ((Renderer.TraceRay sqrt spheres ray).HitDistance = -1 ↔
        ¬ ∃ s ∈ spheres, 0 ≤ Renderer.discriminant ray s ∧
            0 < Renderer.nearRoot sqrt ray s ∧ Renderer.nearRoot sqrt ray s < FLT_MAX) ∧
      (Renderer.TraceRay sqrt [] ray).HitDistance = -1 := by
  refine ⟨?_, by simp [Renderer.TraceRay, Renderer.TraceRayLoop, Renderer.Miss]⟩
  rcases Renderer.TraceRay_cases sqrt spheres ray with ⟨hm, hall⟩ | ⟨j, s, hj, hc, hlt, heq, _⟩
  · constructor
    · rintro _ ⟨s, hs, h0, h1, h2⟩
      exact absurd h2 (not_lt.mpr (hall s hs ⟨h0, h1⟩))
    · intro _
      rw [hm]; rfl
  · constructor
    · intro h
      rw [heq] at h
      have hpos : (0 : F) < Renderer.nearRoot sqrt ray s := hc.2
      have : Renderer.nearRoot sqrt ray s = -1 := h
      rw [this] at hpos
      norm_num at hpos
    · intro h
      exact absurd ⟨s, List.getElem?_mem hj, hc.1, hc.2, hlt⟩ h

/-- C3, as the claim states it, fails at two inputs (real arithmetic, unit
sphere at the origin). The ray that starts at the centre has discriminant `4`
and the positive root `1`, but that is the far root and `TraceRay` reports a
miss; the ray from `(0,0,3)` with direction `(0,0,-2^(-130))` has discriminant
`>= 0` and positive near root `2^131`, which is not below `FLT_MAX`, and
`TraceRay` reports a miss. -/
theorem TraceRay_single_sphere_hit_counterexample :
    (0 ≤ Renderer.discriminant (Renderer.insideRay : Ray ℝ) Renderer.unitSphere ∧
        0 < Renderer.farRoot Real.sqrt (Renderer.insideRay : Ray ℝ) Renderer.unitSphere ∧
        ¬ Renderer.IsHit
            (Renderer.TraceRay Real.sqrt [Renderer.unitSphere] Renderer.insideRay)) ∧
      (0 ≤ Renderer.discriminant (Renderer.shortRay : Ray ℝ) Renderer.unitSphere ∧
        0 < Renderer.nearRoot Real.sqrt (Renderer.shortRay : Ray ℝ) Renderer.unitSphere ∧
        ¬ Renderer.IsHit
            (Renderer.TraceRay Real.sqrt [Renderer.unitSphere] Renderer.shortRay)) := by
  obtain ⟨h0, hf, _, hm⟩ := Renderer.TraceRay_unit_insideRay (F := ℝ) isSqrt_real
  obtain ⟨hc, _⟩ := Renderer.candidate_unit_shortRay (F := ℝ) isSqrt_real
  refine ⟨⟨h0, ?_, ?_⟩, hc.1, hc.2, ?_⟩
  · rw [hf]; norm_num
  · rw [hm]; exact Renderer.Miss_not_isHit _
  · rw [Renderer.TraceRay_unit_shortRay isSqrt_real]; exact Renderer.Miss_not_isHit _

/-- C3, amended. For every ray `R` and sphere `S` with discriminant `>= 0` and a
near root `t` with `0 < t < FLT_MAX`, `TraceRay` on the scene `[S]` returns a
closest hit on sphere `0` at distance `t` whose world position equals
`R.origin + R.direction * hitDistance`. -/
theorem TraceRay_single_sphere_world_position (sqrt : F → F) (ray : Ray F) (S : Sphere F)
    (hd : 0 ≤ Renderer.discriminant ray S) (hpos : 0 < Renderer.nearRoot sqrt ray S)
    (hlt : Renderer.nearRoot sqrt ray S < FLT_MAX) :
    Renderer.IsHit (Renderer.TraceRay sqrt [S] ray) ∧
      (Renderer.TraceRay sqrt [S] ray).ObjectIndex = 0 ∧
      (Renderer.TraceRay sqrt [S] ray).HitDistance = Renderer.nearRoot sqrt ray S ∧
      (Renderer.TraceRay sqrt [S] ray).WorldPosition =
        Vec3.add ray.m_Origin
          (Vec3.smul ray.m_Direction (Renderer.TraceRay sqrt [S] ray).HitDistance) := by
  have hc : Renderer.Candidate sqrt ray S := ⟨hd, hpos⟩
  have hstep : Renderer.TraceRayLoop sqrt ray [S] 0 (-1, FLT_MAX) =
      (0, Renderer.nearRoot sqrt ray S) := by
    simp [Renderer.TraceRayLoop, Renderer.TraceRayStep_eq, hc, hlt]
  have heq : Renderer.TraceRay sqrt [S] ray =
      Renderer.ClosestHit sqrt [S] ray (Renderer.nearRoot sqrt ray S) ((0 : Nat) : Int) := by
    simp [Renderer.TraceRay, hstep]
  rw [heq, Renderer.ClosestHit_getElem sqrt [S] ray _ 0 S (by simp)]
  refine ⟨?_, by simp, rfl, ?_⟩
  · simp only [Renderer.IsHit, not_lt]
    exact le_of_lt hpos
  · ext <;> simp [Vec3.add, Vec3.smul, Vec3.sub, Renderer.newOrigin] <;> ring

/-- C3 amended, at the scenario of the spec: unit sphere, camera ray from
`(0,0,3)`; the hit is at `(0,0,3) + (0,0,-1) * 2`. -/
theorem TraceRay_single_sphere_world_position_witness :
    (Renderer.TraceRay Real.sqrt [Renderer.unitSphere] Renderer.centreRay).WorldPosition =
      Vec3.add (Renderer.centreRay : Ray ℝ).m_Origin
        (Vec3.smul (Renderer.centreRay : Ray ℝ).m_Direction
          (Renderer.TraceRay Real.sqrt [Renderer.unitSphere] Renderer.centreRay).HitDistance) :=
  (TraceRay_single_sphere_world_position Real.sqrt Renderer.centreRay Renderer.unitSphere
    (Renderer.candidate_unit_centreRay isSqrt_real).1
    (Renderer.candidate_unit_centreRay isSqrt_real).2
    (by rw [Renderer.nearRoot_unit_centreRay isSqrt_real]; unfold FLT_MAX; norm_num)).2.2.2

/-- C4, as the claim states it, fails for radius `0`: the camera ray from
`(0,0,3)` hits the sphere of radius zero at the origin at distance `3`, the local
hit point is the zero vector, `normalize` has no guard, and the world normal
does not have length `1`. -/
theorem ClosestHit_normal_unit_counterexample :
    Renderer.IsHit (Renderer.TraceRay Real.sqrt [Renderer.pointSphere] Renderer.centreRay) ∧
      (Renderer.TraceRay Real.sqrt [Renderer.pointSphere] Renderer.centreRay).ObjectIndex = 0 ∧
      Vec3.length Real.sqrt
        (Renderer.TraceRay Real.sqrt [Renderer.pointSphere] Renderer.centreRay).WorldNormal
          ≠ 1 := by
  rw [Renderer.TraceRay_point_centreRay isSqrt_real]
  refine ⟨by simp [Renderer.IsHit], rfl, ?_⟩
  simp [Vec3.length, Vec3.dot]

/-- C4, amended. For every sphere of non-zero radius and every ray for which
`TraceRay` reports a hit on that sphere (`sqrt` being a square root), the world
normal has length exactly `1` and equals `worldPosition - sphereCenter` divided
by its length. -/
theorem ClosestHit_normal_unit (sqrt : F → F) (hs : IsSqrt sqrt) (spheres : List (Sphere F))
    (ray : Ray F) (j : Nat) (S : Sphere F) (hj : spheres[j]? = some S)
    (hit : Renderer.IsHit (Renderer.TraceRay sqrt spheres ray))
    (hidx : (Renderer.TraceRay sqrt spheres ray).ObjectIndex = (j : Int))
    (hr : S.Radius ≠ 0) :
    Vec3.length sqrt (Renderer.TraceRay sqrt spheres ray).WorldNormal = 1 ∧
      (Renderer.TraceRay sqrt spheres ray).WorldNormal =
        Vec3.divScalar (Vec3.sub (Renderer.TraceRay sqrt spheres ray).WorldPosition S.Position)
          (Vec3.length sqrt
            (Vec3.sub (Renderer.TraceRay sqrt spheres ray).WorldPosition S.Position)) := by
  obtain ⟨k, s, hk, hc, _, heq, _⟩ := Renderer.TraceRay_hit sqrt spheres ray hit
  have hkj : k = j := by
    rw [heq] at hidx
    have : ((k : Nat) : Int) = (j : Int) := hidx
    exact_mod_cast this
  subst hkj
  have hsS : s = S := by
    rw [hk] at hj
    exact Option.some.inj hj
  subst hsS
  rw [heq]
  exact Renderer.ClosestHit_normal hs ray s hc hr spheres k hk

/-- C4 amended, at the unit sphere and the camera ray from `(0,0,3)` in real
arithmetic. -/
theorem ClosestHit_normal_unit_witness :
    Vec3.length Real.sqrt
        (Renderer.TraceRay Real.sqrt [Renderer.unitSphere] Renderer.centreRay).WorldNormal = 1 :=
  (ClosestHit_normal_unit Real.sqrt isSqrt_real [Renderer.unitSphere] Renderer.centreRay 0
    Renderer.unitSphere (by simp) (Renderer.TraceRay_unit_centreRay isSqrt_real).1
    (Renderer.TraceRay_unit_centreRay_index isSqrt_real)
    (by simp [Renderer.unitSphere])).1

/-- C14, as the claim states it, fails when the common minimal near root is not
below `FLT_MAX`: two unit spheres at the origin and the ray from `(0,0,3)` with
direction `(0,0,-2^(-130))` both have discriminant `>= 0` and near root `2^131`,
and `TraceRay` reports neither of them. -/
theorem TraceRay_tie_first_wins_counterexample :
    0 ≤ Renderer.discriminant (Renderer.shortRay : Ray ℝ) Renderer.unitSphere ∧
      0 ≤ Renderer.discriminant (Renderer.shortRay : Ray ℝ) Renderer.unitSphereB ∧
      Renderer.nearRoot Real.sqrt (Renderer.shortRay : Ray ℝ) Renderer.unitSphere = 2 ^ 131 ∧
      Renderer.nearRoot Real.sqrt (Renderer.shortRay : Ray ℝ) Renderer.unitSphereB = 2 ^ 131 ∧
      ¬ Renderer.IsHit (Renderer.TraceRay Real.sqrt
          [Renderer.unitSphere, Renderer.unitSphereB] Renderer.shortRay) := by
  obtain ⟨hc, hn⟩ := Renderer.candidate_unit_shortRay (F := ℝ) isSqrt_real
  refine ⟨hc.1, hc.1, hn, hn, ?_⟩
  rw [Renderer.TraceRay_two_units_shortRay isSqrt_real]
  exact Renderer.Miss_not_isHit _

/-- C14, amended. For every ray and every list of spheres, if the sphere at
index `j` has discriminant `>= 0` and a near root `t` with `0 < t < FLT_MAX`
that is minimal among the spheres with discriminant `>= 0` and positive near
root, and no sphere at a smaller index attains `t`, then `TraceRay` reports
sphere `j` at distance `t`: the first sphere in scene order wins on exact ties. -/
theorem TraceRay_tie_first_wins (sqrt : F → F) (spheres : List (Sphere F)) (ray : Ray F)
    (j : Nat) (s : Sphere F) (hj : spheres[j]? = some s)
    (hd : 0 ≤ Renderer.discriminant ray s) (hpos : 0 < Renderer.nearRoot sqrt ray s)
    (hlt : Renderer.nearRoot sqrt ray s < FLT_MAX)
    (hmin : ∀ s' ∈ spheres, 0 ≤ Renderer.discriminant ray s' →
      0 < Renderer.nearRoot sqrt ray s' →
      Renderer.nearRoot sqrt ray s ≤ Renderer.nearRoot sqrt ray s')
    (hfirst : ∀ j' s', j' < j → spheres[j']? = some s' → 0 ≤ Renderer.discriminant ray s' →
      Renderer.nearRoot sqrt ray s' ≠ Renderer.nearRoot sqrt ray s) :
    Renderer.IsHit (Renderer.TraceRay sqrt spheres ray) ∧
      (Renderer.TraceRay sqrt spheres ray).ObjectIndex = (j : Int) ∧
      (Renderer.TraceRay sqrt spheres ray).HitDistance = Renderer.nearRoot sqrt ray s := by
  have hmem : s ∈ spheres := List.getElem?_mem hj
  have hit := Renderer.TraceRay_isHit_of_candidate sqrt spheres ray s hmem ⟨hd, hpos⟩ hlt
  obtain ⟨k, sk, hk, hck, _, heq, hmink, hfirstk⟩ :=
    Renderer.TraceRay_hit_first sqrt spheres ray hit
  have heqr : Renderer.nearRoot sqrt ray sk = Renderer.nearRoot sqrt ray s :=
    le_antisymm (hmink s hmem ⟨hd, hpos⟩) (hmin sk (List.getElem?_mem hk) hck.1 hck.2)
  have hkj : k = j := by
    rcases Nat.lt_trichotomy k j with h | h | h
    · exact absurd heqr (hfirst k sk h hk hck.1)
    · exact h
    · exact absurd heqr (ne_of_lt (hfirstk j s h hj ⟨hd, hpos⟩))
  subst hkj
  refine ⟨hit, ?_, ?_⟩
  · rw [heq]; rfl
  · rw [heq]; exact heqr

/-- C14 amended, for two unit spheres and the camera ray from `(0,0,3)`: both
are hit at distance 2, and the one at index 0 is reported. -/
theorem TraceRay_tie_first_wins_witness :
    (Renderer.TraceRay Real.sqrt [Renderer.unitSphere, Renderer.unitSphereB]
        Renderer.centreRay).ObjectIndex = ((0 : Nat) : Int) ∧
      (Renderer.TraceRay Real.sqrt [Renderer.unitSphere, Renderer.unitSphereB]
        Renderer.centreRay).HitDistance = 2 := by
  have hc := Renderer.candidate_unit_centreRay (F := ℝ) isSqrt_real
  have hn := Renderer.nearRoot_unit_centreRay (F := ℝ) isSqrt_real
  have hnB : Renderer.nearRoot Real.sqrt (Renderer.centreRay : Ray ℝ) Renderer.unitSphereB = 2 :=
    hn
  have h := TraceRay_tie_first_wins Real.sqrt [Renderer.unitSphere, Renderer.unitSphereB]
    Renderer.centreRay 0 Renderer.unitSphere rfl hc.1 hc.2
    (by rw [hn]; unfold FLT_MAX; norm_num)
    (by
      intro s' hs' _ _
      simp only [List.mem_cons, List.mem_singleton, List.not_mem_nil, or_false] at hs'
      rcases hs' with h | h
      · rw [h]
      · rw [h, hn, hnB])
    (by intro j' s' hj'; omega)
  exact ⟨h.2.1, h.2.2.trans hn⟩

/-- C17. For every ray and every list of spheres, if `TraceRay` reports a hit on
sphere `j` then the reported world position lies on that sphere's surface:
`|worldPosition - Position_j|^2 = Radius_j^2` (exact arithmetic, `sqrt` a square
root). A ray that hits has a non-zero direction, so that need not be assumed. -/
theorem TraceRay_hit_on_surface (sqrt : F → F) (hs : IsSqrt sqrt) (spheres : List (Sphere F))
    (ray : Ray F) (j : Nat) (S : Sphere F) (hj : spheres[j]? = some S)
    (hit : Renderer.IsHit (Renderer.TraceRay sqrt spheres ray))
    (hidx : (Renderer.TraceRay sqrt spheres ray).ObjectIndex = (j : Int)) :
    Vec3.dot (Vec3.sub (Renderer.TraceRay sqrt spheres ray).WorldPosition S.Position)
        (Vec3.sub (Renderer.TraceRay sqrt spheres ray).WorldPosition S.Position) =
      S.Radius * S.Radius := by
  obtain ⟨k, s, hk, hc, _, heq, _⟩ := Renderer.TraceRay_hit sqrt spheres ray hit
  have hkj : k = j := by
    rw [heq] at hidx
    have : ((k : Nat) : Int) = (j : Int) := hidx
    exact_mod_cast this
  subst hkj
  have hsS : s = S := by
    rw [hk] at hj
    exact Option.some.inj hj
  subst hsS
  rw [heq, Renderer.ClosestHit_getElem sqrt spheres ray _ k s hk]
  have hon := Renderer.localHit_on_sphere hs ray s hc
  have hback : Vec3.sub (Vec3.add (Vec3.add (Renderer.newOrigin ray s)
      (Vec3.smul ray.m_Direction (Renderer.nearRoot sqrt ray s))) s.Position) s.Position =
      Vec3.add (Renderer.newOrigin ray s)
        (Vec3.smul ray.m_Direction (Renderer.nearRoot sqrt ray s)) := by
    ext <;> simp [Vec3.sub, Vec3.add]
  show Vec3.dot (Vec3.sub (Vec3.add _ s.Position) s.Position)
    (Vec3.sub (Vec3.add _ s.Position) s.Position) = _
  rw [hback]
  exact hon

/-- C17, at the unit sphere and the camera ray from `(0,0,3)` in real
arithmetic. -/
theorem TraceRay_hit_on_surface_witness :
    Vec3.dot
        (Vec3.sub (Renderer.TraceRay Real.sqrt [Renderer.unitSphere]
          Renderer.centreRay).WorldPosition (Renderer.unitSphere : Sphere ℝ).Position)
        (Vec3.sub (Renderer.TraceRay Real.sqrt [Renderer.unitSphere]
          Renderer.centreRay).WorldPosition (Renderer.unitSphere : Sphere ℝ).Position) =
      (Renderer.unitSphere : Sphere ℝ).Radius * (Renderer.unitSphere : Sphere ℝ).Radius :=
  TraceRay_hit_on_surface Real.sqrt isSqrt_real [Renderer.unitSphere] Renderer.centreRay 0
    Renderer.unitSphere (by simp) (Renderer.TraceRay_unit_centreRay isSqrt_real).1
    (Renderer.TraceRay_unit_centreRay_index isSqrt_real)

/-- C18, amended. In exact arithmetic (`sqrt` a square root), for every sphere
and every ray with non-zero direction whose origin lies strictly inside the
sphere, `TraceRay` on the scene containing only that sphere returns a miss (hit
distance `-1`): the near root, the only one considered, is negative, although
the far root is positive. -/
theorem TraceRay_from_inside_misses (sqrt : F → F) (hs : IsSqrt sqrt) (ray : Ray F)
    (S : Sphere F) (hdir : ray.m_Direction ≠ Vec3.splat 0)
    (hin : Vec3.dot (Vec3.sub ray.m_Origin S.Position) (Vec3.sub ray.m_Origin S.Position) <
      S.Radius * S.Radius) :
    (Renderer.TraceRay sqrt [S] ray).HitDistance = -1 ∧
      Renderer.nearRoot sqrt ray S < 0 ∧ 0 < Renderer.farRoot sqrt ray S := by
  obtain ⟨_, hneg, hfar⟩ := Renderer.roots_of_inside hs ray S hdir hin
  refine ⟨?_, hneg, hfar⟩
  have hnc : ¬ Renderer.Candidate sqrt ray S := fun h => absurd h.2 (not_lt.mpr (le_of_lt hneg))
  simp [Renderer.TraceRay, Renderer.TraceRayLoop, Renderer.TraceRayStep_eq, hnc, Renderer.Miss]

/-- C18 amended, at the ray that starts at the centre of the unit sphere (real
arithmetic): near root `-1`, far root `1`, and a miss. -/
theorem TraceRay_from_inside_misses_witness :
    (Renderer.TraceRay Real.sqrt [Renderer.unitSphere] Renderer.insideRay).HitDistance = -1 :=
  (TraceRay_from_inside_misses Real.sqrt isSqrt_real Renderer.insideRay Renderer.unitSphere
    (by
      intro h
      have := congrArg Vec3.z h
      norm_num [Renderer.insideRay, Vec3.splat] at this)
    (by norm_num [Renderer.insideRay, Renderer.unitSphere, Vec3.dot, Vec3.sub])).1

/-- C19. With `renderSky = false`, `PerPixel`'s result does not depend on any
material's base colour: for every pixel, camera, frame counter and any two
scenes with the same spheres whose material tables differ only in the base
colours, `PerPixel` returns the same radiance. This holds for the fast RNG and
also for the external one when it returns the same vectors. -/
theorem PerPixel_independent_of_base_color (sqrt : F → F) (settings : Settings)
    (hsky : settings.RenderSky = false) (scene scene' : Scene F)
    (hsph : scene'.Spheres = scene.Spheres)
    (hmat : Renderer.SameButColor scene.Materials scene'.Materials)
    (camera : Camera F) (slow : Nat → Vec3 F) (w k x y : Nat) :
    Renderer.PerPixel sqrt settings scene camera slow w k x y =
      Renderer.PerPixel sqrt settings scene' camera slow w k x y := by
  unfold Renderer.PerPixel Renderer.PerPixelTrace
  rw [Renderer.PerPixelLoop_independent_of_color sqrt settings hsky scene scene' hsph hmat slow 4 0
    (Renderer.primaryRay camera w x y) (Vec3.splat 0) (Vec3.splat 1) (Vec3.splat 1)]

/-- C19, for the unit sphere with an emissive material that is red in one
scene and blue in the other (fast RNG, no sky, rational arithmetic). -/
theorem PerPixel_independent_of_base_color_witness :
    Renderer.PerPixel qsqrt ⟨false, false, false⟩ Renderer.redScene
        (Renderer.emptyFrame : Frame ℚ).camera (fun _ => Vec3.splat 0) 1 1 0 0 =
      Renderer.PerPixel qsqrt ⟨false, false, false⟩ Renderer.blueScene
        (Renderer.emptyFrame : Frame ℚ).camera (fun _ => Vec3.splat 0) 1 1 0 0 :=
  PerPixel_independent_of_base_color qsqrt ⟨false, false, false⟩ rfl Renderer.redScene
    Renderer.blueScene rfl (List.Forall₂.cons ⟨rfl, rfl⟩ List.Forall₂.nil) _ _ 1 1 0 0

/-- C16. `PCG_Hash` is injective on 32-bit unsigned words and maps them onto the
32-bit words, hence is a bijection; its variable shift amount
`(state >> 28) + 4` always lies in `[4, 19]`, so every shift is by fewer than 32
bits. -/
theorem PCG_Hash_bijective :
    (∀ a b, a < 2 ^ 32 → b < 2 ^ 32 → Utils.PCG_Hash a = Utils.PCG_Hash b → a = b) ∧
      (∀ a, Utils.PCG_Hash a < 2 ^ 32) ∧
      (∀ b, b < 2 ^ 32 → ∃ a, a < 2 ^ 32 ∧ Utils.PCG_Hash a = b) ∧
      (∀ input, Utils.PCG_Hash input =
        (((((Renderer.pcgState input >>> Renderer.pcgShift input) ^^^ Renderer.pcgState input) *
          2778037727) % 2 ^ 32) >>> 22) ^^^
        ((((Renderer.pcgState input >>> Renderer.pcgShift input) ^^^ Renderer.pcgState input) *
          2778037727) % 2 ^ 32)) ∧
      ∀ input, 4 ≤ Renderer.pcgShift input ∧ Renderer.pcgShift input ≤ 19 ∧
        Renderer.pcgShift input < 32 := by
  refine ⟨Renderer.PCG_Hash_injective, Renderer.PCG_Hash_lt, Renderer.PCG_Hash_surjective,
    fun _ => rfl, ?_⟩
  intro input
  obtain ⟨h1, h2⟩ := Renderer.pcgShift_bounds input
  exact ⟨h1, h2, by omega⟩

/-- C16, for the seeds 1 and 2: their hashes differ. -/
theorem PCG_Hash_bijective_witness : Utils.PCG_Hash 1 ≠ Utils.PCG_Hash 2 :=
  fun h => absurd (PCG_Hash_bijective.1 1 2 (by norm_num) (by norm_num) h) (by decide)

/-- C12, as the claim states it, fails: the seed `2288357073` hashes to
`2^32 - 2`, the conversion `(float)seed` rounds that to `2^32`, the divisor
`(float)UINT32_MAX` is `2^32` too, and `RandomFloat` returns `1`: not below 1, and
not `PCG_Hash(seed) / (2^32 - 1)`. -/
theorem RandomFloat_range_counterexample :
    Utils.PCG_Hash 2288357073 = 2 ^ 32 - 2 ∧
      (Utils.RandomFloat (F := ℚ) 2288357073).1 = 1 ∧
      ¬ (Utils.RandomFloat (F := ℚ) 2288357073).1 < 1 ∧
      (Utils.RandomFloat (F := ℚ) 2288357073).1 ≠
        ((Utils.PCG_Hash 2288357073 : Nat) : ℚ) / (2 ^ 32 - 1) := by
  have hh : Utils.PCG_Hash 2288357073 = 4294967294 := by decide
  have hc : Utils.uintToFloat 4294967294 = 4294967296 := by decide
  have hv : (Utils.RandomFloat (F := ℚ) 2288357073).1 = 1 := by
    rw [Renderer.RandomFloat_value, hh, hc]
    norm_num
  refine ⟨by rw [hh]; norm_num, hv, by rw [hv]; norm_num, ?_⟩
  rw [hv, hh]
  norm_num

/-- C12, amended. For every seed, `RandomFloat` replaces the seed by
`PCG_Hash(seed)` and returns `fl(PCG_Hash(seed)) / 2^32`, where `fl` is the
conversion of the 32-bit integer to binary32 (24 significant bits, to nearest,
ties to even; it moves the integer by at most 128) and `2^32` is
`(float)UINT32_MAX`. The value `r` satisfies `0 <= r <= 1`, and `r < 1` exactly when
`PCG_Hash(seed) < 2^32 - 128`. -/
theorem RandomFloat_range (seed : Nat) :
    (Utils.RandomFloat (F := F) seed).2 = Utils.PCG_Hash seed ∧
      (Utils.RandomFloat (F := F) seed).1 =
        ((Utils.uintToFloat (Utils.PCG_Hash seed) : Nat) : F) / 2 ^ 32 ∧
      Utils.uintToFloat (Utils.PCG_Hash seed) ≤ Utils.PCG_Hash seed + 128 ∧
      Utils.PCG_Hash seed ≤ Utils.uintToFloat (Utils.PCG_Hash seed) + 128 ∧
      0 ≤ (Utils.RandomFloat (F := F) seed).1 ∧ (Utils.RandomFloat (F := F) seed).1 ≤ 1 ∧
      ((Utils.RandomFloat (F := F) seed).1 < 1 ↔ Utils.PCG_Hash seed < 2 ^ 32 - 128) := by
  obtain ⟨hle, heq, hup, hdown⟩ :=
    Renderer.uintToFloat_spec (Utils.PCG_Hash seed) (Renderer.PCG_Hash_lt seed)
  have hval := Renderer.RandomFloat_value (F := F) seed
  have hden : (2 : F) ^ 32 = 4294967296 := by norm_num
  have hleF : ((Utils.uintToFloat (Utils.PCG_Hash seed) : Nat) : F) ≤ 4294967296 := by
    have : Utils.uintToFloat (Utils.PCG_Hash seed) ≤ 4294967296 := by
      norm_num at hle; exact hle
    exact_mod_cast this
  refine ⟨rfl, by rw [hval, hden], hup, hdown, ?_, ?_, ?_⟩
  · rw [hval]; positivity
  · rw [hval, div_le_one (by norm_num)]; exact hleF
  · rw [hval, div_lt_one (by norm_num)]
    constructor
    · intro h
      have h' : Utils.uintToFloat (Utils.PCG_Hash seed) < 4294967296 := by exact_mod_cast h
      by_contra hcon
      have := heq.mpr (by omega)
      norm_num at this
      omega
    · intro h
      have hne : Utils.uintToFloat (Utils.PCG_Hash seed) ≠ 2 ^ 32 := fun hc => by
        have := heq.mp hc
        omega
      have : Utils.uintToFloat (Utils.PCG_Hash seed) < 4294967296 := by
        norm_num at hle hne
        omega
      exact_mod_cast this

/-- C18, as the claim states it, fails in the binary32 arithmetic of the source:
the origin of `grazingRay32` lies strictly inside the unit sphere (exactly,
`|origin|^2 < 1`), the direction is not zero, yet the rounded dot product is
`1 + 2^(-23)`, so `c = 2^(-23) > 0`, the discriminant is positive, and `TraceRay`
reports a hit at distance `21 / 2^26` instead of `-1`. -/
theorem TraceRay_from_inside_misses_counterexample :
    Renderer.grazingRay32.m_Direction ≠ ⟨0, 0, 0⟩ ∧
      (Renderer.grazingRay32.m_Origin.x - Renderer.unitSphere32.Position.x) *
            (Renderer.grazingRay32.m_Origin.x - Renderer.unitSphere32.Position.x) +
          (Renderer.grazingRay32.m_Origin.y - Renderer.unitSphere32.Position.y) *
            (Renderer.grazingRay32.m_Origin.y - Renderer.unitSphere32.Position.y) +
          (Renderer.grazingRay32.m_Origin.z - Renderer.unitSphere32.Position.z) *
            (Renderer.grazingRay32.m_Origin.z - Renderer.unitSphere32.Position.z) <
        Renderer.unitSphere32.Radius * Renderer.unitSphere32.Radius ∧
      F32.dot (F32.vsub Renderer.grazingRay32.m_Origin Renderer.unitSphere32.Position)
          (F32.vsub Renderer.grazingRay32.m_Origin Renderer.unitSphere32.Position) =
        F32.one + F32.dyadic 1 23 ∧
      F32.TraceRayHitDistance [Renderer.unitSphere32] Renderer.grazingRay32 =
        F32.dyadic 21 26 ∧
      F32.TraceRayHitDistance [Renderer.unitSphere32] Renderer.grazingRay32 ≠ -F32.one := by
  set_option maxRecDepth 100000 in decide

section FloorClaims

variable [FloorRing F]

/-- C5, as the claim states it, fails in two ways. (1) For `K = 2^32 + 1`, in
exact arithmetic: the 32-bit frame counter is `0` during call number `2^32` and
`1` again at call `2^32 + 1`, which therefore clears the accumulation buffer; the
cell then holds the radiance of one frame (alpha `1`), not the sum of `2^32 + 1`
radiances (alpha `2^32 + 1`). (2) For `K = 6`, in the binary32 arithmetic of the
source, on a scene without spheres with the sky on: every `+=` is rounded, the
cell ends as `(60397976, 70464304, 90596968, 100663296) / 2^24` where the sum of
the six radiances is `(60397980, 70464306, 90596964, 100663296) / 2^24`, and the
pixel is `0xFFE5B298` where the formula of the claim on that sum gives
`0xFFE5B299`. -/
theorem Render_accumulates_counterexample :
    (∃ s', Renderer.RenderAll Real.sqrt (List.replicate (2 ^ 32 + 1) Renderer.emptyFrame)
          (Renderer.onePixelState 1 Vec4.zero ⟨true, true, false⟩) = some s' ∧
      s'.m_AccumulationData.getD (0 + 0 * 1) Vec4.zero ≠
        Renderer.sumColors (Renderer.frameRadiances Real.sqrt ⟨true, true, false⟩ 1 0 0 1
          (List.replicate (2 ^ 32 + 1) Renderer.emptyFrame))) ∧
    (∃ s', Renderer.RenderAllWith Renderer.cells32 (List.replicate 6 F32.PerPixelNoSpheres)
          (Renderer.onePixelState 1 ⟨0, 0, 0, 0⟩ ⟨true, true, false⟩) = some s' ∧
      s'.m_ImageData.getD (0 + 0 * 1) 0 = 4293243544 ∧
      Utils.ConvertToRGBA (Vec4.clamp01 (Vec4.divScalar
          (Renderer.sumColors ((Renderer.radiancesWith ⟨true, true, false⟩ 1 0 0 1
            (List.replicate 6 F32.PerPixelNoSpheres)).map F32.toRat4))
          ((6 : Nat) : ℚ))) = 4293243545 ∧
      F32.toRat4 (s'.m_AccumulationData.getD (0 + 0 * 1) ⟨0, 0, 0, 0⟩) ≠
        Renderer.sumColors ((Renderer.radiancesWith ⟨true, true, false⟩ 1 0 0 1
          (List.replicate 6 F32.PerPixelNoSpheres)).map F32.toRat4)) := by
  constructor
  · obtain ⟨s1, hr1, hs1, hset1, hidx1⟩ := Renderer.RenderAll_frameIndex Real.sqrt 1 1
      (List.replicate (2 ^ 32) Renderer.emptyFrame)
      (Renderer.onePixelState 1 Vec4.zero ⟨true, true, false⟩)
      (Renderer.sized_onePixelState _ _ _) rfl (by norm_num [Renderer.onePixelState])
    have hidx1' : s1.m_FrameIndex = 1 := by
      rw [hidx1, List.length_replicate]
      norm_num [Renderer.onePixelState]
    obtain ⟨s2, hr2, _, _, _, hcell⟩ :=
      Renderer.Render_sized Real.sqrt Renderer.emptyFrame s1 1 1 hs1
    refine ⟨s2, ?_, ?_⟩
    · rw [List.replicate_succ', Renderer.RenderAll_append, hr1, Option.some_bind,
        Renderer.RenderAll_singleton, hr2]
    · intro heq
      have h1 := (hcell 0 0 (by norm_num) (by norm_num)).1
      rw [if_pos hidx1', Renderer.Vec4.zero_add] at h1
      have ha : (s2.m_AccumulationData.getD (0 + 0 * 1) Vec4.zero).a = 1 := by
        rw [h1]; rfl
      rw [heq, Renderer.sumColors_alpha _ (Renderer.frameRadiances_alpha _ _ _ _ _ _ _),
        Renderer.frameRadiances_length, List.length_replicate] at ha
      norm_num at ha
  · obtain ⟨s', hr, hs'⟩ := Option.map_eq_some'.mp Renderer.RenderAllWith_cells32_six
    have hI : s'.m_ImageData = [4293243544] := congrArg Prod.fst hs'
    have hA : s'.m_AccumulationData = [⟨F32.dyadic 60397976 24, F32.dyadic 70464304 24,
        F32.dyadic 90596968 24, F32.dyadic 100663296 24⟩] := congrArg Prod.snd hs'
    refine ⟨s', hr, ?_, ?_, ?_⟩
    · rw [hI]; rfl
    · rw [Renderer.sumColors_noSpheres_six]
      exact Renderer.ConvertToRGBA_noSpheres_six
    · rw [Renderer.sumColors_noSpheres_six, hA]
      intro heq
      have hr := congrArg Vec4.r heq
      simp only [List.getD_cons_zero, F32.toRat4, F32.toRat, F32.dyadic] at hr
      norm_num at hr

/-- C5, amended. Starting from frame counter 1, after `K` consecutive `Render`
calls with `accumulate = true` and no resize, `1 <= K < 2^32`, on a renderer whose
buffers have the size of the image, in the arithmetic `A` of the accumulation
cell (the binary32 arithmetic `cells32` of the source, or the exact arithmetic
`exactCells`): the accumulation cell of every `(x, y)` holds `S`, the result of
the `K` additions `+=` of the code, in the order `f = 1..K`, of `PerPixel(x, y)`
at frame counter `f` to the zero cell, each addition rounded as `A` rounds it,
and the output pixel is `ConvertToRGBA(clamp(S / (float)K, 0, 1))`, division,
clamp and conversion being those of `A`. -/
theorem Render_accumulates {G : Type} (A : Renderer.CellArith G) (s0 : RendererState G)
    (w h : Nat) (hs : Renderer.Sized s0 w h) (hk : s0.m_FrameIndex = 1)
    (hacc : s0.m_Settings.Accumulate = true)
    (calls : List (Settings → Nat → Nat → Nat → Nat → Vec4 G))
    (hK1 : 1 ≤ calls.length) (hK : calls.length < 2 ^ 32) :
    ∃ s', Renderer.RenderAllWith A calls s0 = some s' ∧
      ∀ x y, x < w → y < h →
        s'.m_ImageData.getD (x + y * w) 0 =
            A.toRGBA (A.clamp (A.divFrame
              ((Renderer.radiancesWith s0.m_Settings w x y 1 calls).foldl A.add A.zero)
              calls.length)) ∧
          s'.m_AccumulationData.getD (x + y * w) A.zero =
            (Renderer.radiancesWith s0.m_Settings w x y 1 calls).foldl A.add A.zero := by
  obtain ⟨s', hr, _, _, _, hcell⟩ :=
    Renderer.RenderAllWith_accumulate A s0 w h hs hk hacc calls hK
  have hne : calls ≠ [] := by
    intro h0
    rw [h0] at hK1
    simp at hK1
  exact ⟨s', hr, fun x y hx hy => ⟨(hcell hne x y hx hy).2, (hcell hne x y hx hy).1⟩⟩

/-- C5 amended, for six renders of a scene without spheres with the sky on, on a
1×1 image, in binary32. -/
theorem Render_accumulates_witness :
    ∃ s', Renderer.RenderAllWith Renderer.cells32 (List.replicate 6 F32.PerPixelNoSpheres)
          (Renderer.onePixelState 1 ⟨0, 0, 0, 0⟩ ⟨true, true, false⟩) = some s' ∧
      ∀ x y, x < 1 → y < 1 →
        s'.m_ImageData.getD (x + y * 1) 0 =
            F32.ConvertToRGBA (F32.clamp01 (Renderer.cells32.divFrame
              ((Renderer.radiancesWith ⟨true, true, false⟩ 1 x y 1
                (List.replicate 6 F32.PerPixelNoSpheres)).foldl Renderer.cells32.add
                  ⟨0, 0, 0, 0⟩)
              6)) ∧
          s'.m_AccumulationData.getD (x + y * 1) ⟨0, 0, 0, 0⟩ =
            (Renderer.radiancesWith ⟨true, true, false⟩ 1 x y 1
              (List.replicate 6 F32.PerPixelNoSpheres)).foldl Renderer.cells32.add
                ⟨0, 0, 0, 0⟩ :=
  Render_accumulates Renderer.cells32 (Renderer.onePixelState 1 ⟨0, 0, 0, 0⟩ ⟨true, true, false⟩)
    1 1 (Renderer.sized_onePixelState _ _ _) rfl rfl (List.replicate 6 F32.PerPixelNoSpheres)
    (by decide) (by norm_num)

/-- C7, the code at the failing input: a 1×1 renderer at frame counter 2 is
resized to 2×1 while the allocator hands out memory that holds `(1,1,1,1)` in
every cell. The accumulation buffer has two cells, neither is zero, the frame
counter is still 2, and the next `Render` (empty scene, no sky, radiance
`(0,0,0,1)`) accumulates onto those contents: cell 0 ends as `(1,1,1,2)`. -/
theorem OnResize_leaves_allocator_contents :
    (Renderer.OnResize (fun _ => 0) (fun _ => (⟨1, 1, 1, 1⟩ : Vec4 ℚ)) 2 1
        (Renderer.onePixelState 2 Vec4.zero ⟨true, false, false⟩)).m_AccumulationData =
      [⟨1, 1, 1, 1⟩, ⟨1, 1, 1, 1⟩] ∧
    (Renderer.OnResize (fun _ => 0) (fun _ => (⟨1, 1, 1, 1⟩ : Vec4 ℚ)) 2 1
        (Renderer.onePixelState 2 Vec4.zero ⟨true, false, false⟩)).m_FrameIndex = 2 ∧
    ∃ s', Renderer.Render qsqrt Renderer.emptyFrame
          (Renderer.OnResize (fun _ => 0) (fun _ => (⟨1, 1, 1, 1⟩ : Vec4 ℚ)) 2 1
            (Renderer.onePixelState 2 Vec4.zero ⟨true, false, false⟩)) = some s' ∧
      s'.m_AccumulationData.getD 0 Vec4.zero = ⟨1, 1, 1, 2⟩ := by
  have hO : Renderer.OnResize (fun _ => 0) (fun _ => (⟨1, 1, 1, 1⟩ : Vec4 ℚ)) 2 1
      (Renderer.onePixelState 2 Vec4.zero ⟨true, false, false⟩) =
      { m_FinalImage := some ⟨2, 1⟩
        m_ImageData := [0, 0]
        m_AccumulationData := [⟨1, 1, 1, 1⟩, ⟨1, 1, 1, 1⟩]
        m_ImageHorizantalIter := [0, 1]
        m_ImageVerticalIter := [0]
        m_FrameIndex := 2
        m_Settings := ⟨true, false, false⟩ } := by
    simp [Renderer.OnResize, Renderer.onePixelState, Renderer.newArray, List.range_succ]
  have hsz : Renderer.Sized (Renderer.OnResize (fun _ => 0) (fun _ => (⟨1, 1, 1, 1⟩ : Vec4 ℚ)) 2 1
      (Renderer.onePixelState 2 Vec4.zero ⟨true, false, false⟩)) 2 1 := by
    rw [hO]
    exact ⟨rfl, by norm_num, rfl, rfl, by simp [List.range_succ], by simp [List.range_succ]⟩
  refine ⟨by rw [hO], by rw [hO], ?_⟩
  obtain ⟨s', hr, _, _, _, hcell⟩ := Renderer.Render_sized qsqrt Renderer.emptyFrame _ 2 1 hsz
  refine ⟨s', hr, ?_⟩
  have ha := (hcell 0 0 (by norm_num) (by norm_num)).1
  rw [show (0 + 0 * 2 : Nat) = 0 from rfl] at ha
  rw [ha, hO, if_neg (by norm_num),
    Renderer.PerPixel_no_spheres_dark qsqrt _ _ rfl rfl]
  simp only [List.getD_cons_zero, Vec4.add]
  norm_num

/-- C8. For every renderer state whose image already has dimensions `(w, h)`,
`OnResize(w, h)` returns the state unchanged (output buffer, accumulation
buffer, row and column index sequences, frame counter and all); hence calling
`OnResize(w, h)` twice, from any state, yields the same state as calling it
once. -/
theorem OnResize_same_size_unchanged {G : Type} (s : RendererState G) (w h : Nat)
    (freshImage freshImage' : Nat → Nat) (freshAccum freshAccum' : Nat → Vec4 G) :
    (s.m_FinalImage = some ⟨w, h⟩ → Renderer.OnResize freshImage freshAccum w h s = s) ∧
      Renderer.OnResize freshImage' freshAccum' w h
          (Renderer.OnResize freshImage freshAccum w h s) =
        Renderer.OnResize freshImage freshAccum w h s := by
  have hsame : ∀ (t : RendererState G) (fi : Nat → Nat) (fa : Nat → Vec4 G),
      t.m_FinalImage = some ⟨w, h⟩ → Renderer.OnResize fi fa w h t = t := by
    intro t fi fa ht
    simp [Renderer.OnResize, ht]
  refine ⟨hsame s freshImage freshAccum, ?_⟩
  apply hsame
  unfold Renderer.OnResize
  cases himg : s.m_FinalImage with
  | none => rfl
  | some img =>
    by_cases hd : img.Width = w ∧ img.Height = h
    · simp only [hd, and_self, if_true, himg]
      obtain ⟨h1, h2⟩ := hd
      cases img
      simp_all
    · simp only [hd, if_false]

/-- C8, at a 1×1 renderer whose buffers hold data: `OnResize(1, 1)` changes
nothing, whatever the allocator would have returned. -/
theorem OnResize_same_size_unchanged_witness :
    Renderer.OnResize (fun _ => 7) (fun _ => (⟨1, 1, 1, 1⟩ : Vec4 ℚ)) 1 1
        (Renderer.onePixelState 5 ⟨2, 3, 4, 5⟩ ⟨true, true, false⟩) =
      Renderer.onePixelState 5 ⟨2, 3, 4, 5⟩ ⟨true, true, false⟩ :=
  (OnResize_same_size_unchanged (Renderer.onePixelState 5 (⟨2, 3, 4, 5⟩ : Vec4 ℚ)
    ⟨true, true, false⟩) 1 1 (fun _ => 7) (fun _ => 0) (fun _ => ⟨1, 1, 1, 1⟩)
    (fun _ => Vec4.zero)).1 rfl

/-- C10. For a scene without spheres, `renderSky = true` and frame counter 1,
for every image size and every pixel `(x, y)`, `PerPixel` returns
`(0.6, 0.7, 0.9, 1.0)` and the output pixel written by `Render` is the direct
RGBA packing of that colour: bytes R = 153, G = 178, B = 229, A = 255. -/
theorem Render_empty_scene_sky (sqrt : F → F) (s : RendererState F) (w h : Nat)
    (hs : Renderer.Sized s w h) (hk : s.m_FrameIndex = 1)
    (hsky : s.m_Settings.RenderSky = true) (fr : Frame F) (hscene : fr.scene.Spheres = []) :
    (∀ x y, Renderer.PerPixel sqrt s.m_Settings fr.scene fr.camera (fr.slow x y) w
        s.m_FrameIndex x y = ⟨6 / 10, 7 / 10, 9 / 10, 1⟩) ∧
      ∃ s', Renderer.Render sqrt fr s = some s' ∧
        ∀ x y, x < w → y < h →
          s'.m_ImageData.getD (x + y * w) 0 =
              Utils.ConvertToRGBA (⟨6 / 10, 7 / 10, 9 / 10, 1⟩ : Vec4 F) ∧
            s'.m_ImageData.getD (x + y * w) 0 % 256 = 153 ∧
            (s'.m_ImageData.getD (x + y * w) 0 >>> 8) % 256 = 178 ∧
            (s'.m_ImageData.getD (x + y * w) 0 >>> 16) % 256 = 229 ∧
            (s'.m_ImageData.getD (x + y * w) 0 >>> 24) % 256 = 255 := by
  have hpp : ∀ x y, Renderer.PerPixel sqrt s.m_Settings fr.scene fr.camera (fr.slow x y) w
      s.m_FrameIndex x y = ⟨6 / 10, 7 / 10, 9 / 10, 1⟩ := fun x y =>
    Renderer.PerPixel_no_spheres_sky sqrt _ _ hscene hsky _ _ _ _ _ _
  refine ⟨hpp, ?_⟩
  obtain ⟨s', hr, _, _, _, hcell⟩ := Renderer.Render_sized sqrt fr s w h hs
  refine ⟨s', hr, ?_⟩
  intro x y hx hy
  have hi := (hcell x y hx hy).2
  rw [if_pos hk, Renderer.Vec4.zero_add, hpp, hk, Renderer.Vec4.divScalar_one,
    Renderer.clamp01_of_mem _ (by norm_num) (by norm_num) (by norm_num) (by norm_num)] at hi
  rw [hi, Renderer.ConvertToRGBA_sky]
  exact ⟨rfl, by decide, by decide, by decide, by decide⟩

/-- C10, on a 1×1 image in rational arithmetic. -/
theorem Render_empty_scene_sky_witness :
    ∃ s', Renderer.Render qsqrt Renderer.emptyFrame
          (Renderer.onePixelState 1 ⟨5, 5, 5, 5⟩ ⟨false, true, false⟩) = some s' ∧
      s'.m_ImageData.getD 0 0 = 4293243545 :=
  let ⟨s', h1, h2⟩ := (Render_empty_scene_sky qsqrt
    (Renderer.onePixelState 1 (⟨5, 5, 5, 5⟩ : Vec4 ℚ) ⟨false, true, false⟩) 1 1
    (Renderer.sized_onePixelState _ _ _) rfl rfl Renderer.emptyFrame rfl).2
  ⟨s', h1, ((h2 0 0 (by decide) (by decide)).1).trans Renderer.ConvertToRGBA_sky⟩

/-- C15, as the claim states it, fails: from the initial state, `OnResize(1, 1)`
followed by `2^32 - 1` calls of `Render` with accumulate enabled reaches a state
whose frame counter is `0`. -/
theorem frameIndex_positive_counterexample :
    ∃ s : RendererState ℝ, Renderer.Reachable Real.sqrt s ∧ s.m_FrameIndex = 0 := by
  have hreach : Renderer.Reachable Real.sqrt
      (Renderer.OnResize (fun _ => 0) (fun _ => Vec4.zero) 1 1
        (Renderer.initialState (F := ℝ) ⟨true, false, false⟩)) :=
    Renderer.Reachable.resize _ _ _ _ _ (Renderer.Reachable.init _)
  have hsz : Renderer.Sized (Renderer.OnResize (fun _ => 0) (fun _ => Vec4.zero) 1 1
      (Renderer.initialState (F := ℝ) ⟨true, false, false⟩)) 1 1 :=
    ⟨rfl, by norm_num, rfl, rfl, rfl, rfl⟩
  obtain ⟨s, hr, _, _, hidx⟩ := Renderer.RenderAll_frameIndex Real.sqrt 1 1
    (List.replicate (2 ^ 32 - 1) Renderer.emptyFrame) _ hsz rfl
    (by rw [Renderer.OnResize_frameIndex]; norm_num [Renderer.initialState])
  refine ⟨s, Renderer.Reachable_RenderAll Real.sqrt _ _ s hreach hr, ?_⟩
  rw [hidx, Renderer.OnResize_frameIndex, List.length_replicate]
  norm_num [Renderer.initialState]

/-- C15, amended. In every state reachable from the initial state (frame
counter 1) by any sequence of `Render` and `OnResize` calls with any settings,
the frame counter is below `2^32`; `OnResize` leaves it unchanged and each
`Render` sets it to `(old + 1) mod 2^32` when accumulate is enabled and to 1
otherwise. Hence the counter after a `Render` is `>= 1` except when accumulate is
enabled and the old counter is `2^32 - 1`, in which case it is `0`. -/
theorem frameIndex_after_render (sqrt : F → F) (s : RendererState F)
    (hs : Renderer.Reachable sqrt s) :
    s.m_FrameIndex < 2 ^ 32 ∧
      (∀ freshImage freshAccum w h,
        (Renderer.OnResize freshImage freshAccum w h s).m_FrameIndex = s.m_FrameIndex) ∧
      ∀ fr s', Renderer.Render sqrt fr s = some s' →
        s'.m_FrameIndex =
            (if s.m_Settings.Accumulate then (s.m_FrameIndex + 1) % 2 ^ 32 else 1) ∧
          (1 ≤ s'.m_FrameIndex ↔
            ¬ (s.m_Settings.Accumulate = true ∧ s.m_FrameIndex = 2 ^ 32 - 1)) := by
  have hlt := Renderer.Reachable_frameIndex_lt sqrt s hs
  refine ⟨hlt, fun fi fa w h => Renderer.OnResize_frameIndex fi fa w h s, ?_⟩
  intro fr s' hr
  have hidx := Renderer.Render_frameIndex sqrt fr s s' hr
  refine ⟨hidx, ?_⟩
  rw [hidx]
  by_cases hacc : s.m_Settings.Accumulate = true
  · simp only [hacc, if_true, true_and]
    omega
  · simp [hacc]

/-- C15 amended, at the initial state. -/
theorem frameIndex_after_render_witness :
    (Renderer.initialState (F := ℚ) ⟨true, true, false⟩).m_FrameIndex < 2 ^ 32 :=
  (frameIndex_after_render qsqrt _ (Renderer.Reachable.init ⟨true, true, false⟩)).1

/-- C11. For every colour whose four channels lie in `[0, 1]`, `ConvertToRGBA`
returns a 32-bit word whose bits 0-7 equal `floor(255 * r)`, bits 8-15 equal
`floor(255 * g)`, bits 16-23 equal `floor(255 * b)` and bits 24-31 equal
`floor(255 * a)`: extracting the four bytes recovers the four truncated
channels. -/
theorem ConvertToRGBA_bytes (color : Vec4 F) (hr : 0 ≤ color.r ∧ color.r ≤ 1)
    (hg : 0 ≤ color.g ∧ color.g ≤ 1) (hb : 0 ≤ color.b ∧ color.b ≤ 1)
    (ha : 0 ≤ color.a ∧ color.a ≤ 1) :
    Utils.ConvertToRGBA color < 2 ^ 32 ∧
      ((Utils.ConvertToRGBA color % 256 : Nat) : Int) = Int.floor (255 * color.r) ∧
      (((Utils.ConvertToRGBA color >>> 8) % 256 : Nat) : Int) = Int.floor (255 * color.g) ∧
      (((Utils.ConvertToRGBA color >>> 16) % 256 : Nat) : Int) = Int.floor (255 * color.b) ∧
      (((Utils.ConvertToRGBA color >>> 24) % 256 : Nat) : Int) = Int.floor (255 * color.a) ∧
      ((Utils.ConvertToRGBA color >>> 24 : Nat) : Int) = Int.floor (255 * color.a) := by
  obtain ⟨er, lr⟩ := Renderer.toUInt8_unit color.r hr.1 hr.2
  obtain ⟨eg, lg⟩ := Renderer.toUInt8_unit color.g hg.1 hg.2
  obtain ⟨eb, lb⟩ := Renderer.toUInt8_unit color.b hb.1 hb.2
  obtain ⟨ea, la⟩ := Renderer.toUInt8_unit color.a ha.1 ha.2
  have hW : Utils.ConvertToRGBA color =
      Utils.toUInt8 (color.a * 255) * 2 ^ 24 + Utils.toUInt8 (color.b * 255) * 2 ^ 16 +
        Utils.toUInt8 (color.g * 255) * 2 ^ 8 + Utils.toUInt8 (color.r * 255) :=
    Renderer.pack_bytes _ _ _ _ lr lg lb la
  rw [← er, ← eg, ← eb, ← ea, hW]
  simp only [Nat.shiftRight_eq_div_pow]
  refine ⟨by omega, ?_, ?_, ?_, ?_, ?_⟩ <;> congr 1 <;> omega

/-- C11, at the sky colour `(0.6, 0.7, 0.9, 1)`: the red byte is
`floor(255 * 0.6) = 153`. -/
theorem ConvertToRGBA_bytes_witness :
    ((Utils.ConvertToRGBA (⟨6 / 10, 7 / 10, 9 / 10, 1⟩ : Vec4 ℚ) % 256 : Nat) : Int) =
      Int.floor (255 * (6 / 10 : ℚ)) :=
  (ConvertToRGBA_bytes (⟨6 / 10, 7 / 10, 9 / 10, 1⟩ : Vec4 ℚ) (by norm_num) (by norm_num)
    (by norm_num) (by norm_num)).2.1

end FloorClaims

end FieldLemmas

end MTRT
